import Mathlib

/-!
Verification development for the compactor library.

This file gives a shallow embedding of the core of the library:

* `Resolution` and its metadata tables (src/resolution.rs);
* the resolution-tagged `Time` word and its operations
  (src/datetime/time.rs); the 32-bit word is modelled as a `Nat`
  together with the well-formedness predicate `Time.Wf` (non-zero,
  below `2^32`, and a trailing-zero count that names a resolution);
* the retention `Policy` and its builder (src/policy.rs);
* the `CompactedData` buffer — `discard`, `compact`, `with_max_res`,
  `apply_policy` (src/data.rs) — and `Compactor::push`
  (src/compactor.rs), over an abstract payload type with a binary
  `merge` operation.

Machine integers are modelled as `Nat`; bit operations on the 32-bit
time word (`x & (u32::MAX << z) | (1 << z)`, field extraction and
insertion) are written in their arithmetic form (`/`, `%`, `*`, `+` by
powers of two), which agrees with the source on all words below `2^32`;
each definition's doc comment records the original expression.
Calendar dates are modelled as `Int` day numbers: the source stores
civil (year, month, day) triples ordered lexicographically and
delegates `date - N days` to a calendar library, which the spec treats
as a black box; an `Int` with ordinary subtraction is that contract.
-/

/-- Ordering of two naturals, as Rust `Ord::cmp` on integers. -/
def cmpN (a b : Nat) : Ordering :=
  if a < b then .lt else if a = b then .eq else .gt

/-- Ordering of two integers, as Rust `Ord::cmp`. -/
def cmpI (a b : Int) : Ordering :=
  if a < b then .lt else if a = b then .eq else .gt

/-- The 19 resolutions of src/resolution.rs, in declaration order
(coarsest first).  The third variant is called `TimeOfDay` in
resolution.rs (src/datetime/time.rs refers to the same slot as
`SixHour`; the spec calls it SixHour as well). -/
inductive Resolution where
  | Day
  | AmPm
  | TimeOfDay
  | ThreeHour
  | Hour
  | ThirtyMinute
  | FifteenMinute
  | FiveMinute
  | Minute
  | ThirtySecond
  | FifteenSecond
  | FiveSecond
  | Second
  | FiveHundredMilli
  | HundredMilli
  | FiftyMilli
  | TenMilli
  | FiveMilli
  | Millisecond
  deriving DecidableEq, Repr, Fintype

/-- Linearization index (the `Linearize` derive): position in the
declaration order, 0 = `Day` … 18 = `Millisecond`.  The derived `Ord`
follows this index: `a < b` means `a` is coarser than `b`. -/
def Resolution.lin : Resolution → Nat
  | .Day => 0
  | .AmPm => 1
  | .TimeOfDay => 2
  | .ThreeHour => 3
  | .Hour => 4
  | .ThirtyMinute => 5
  | .FifteenMinute => 6
  | .FiveMinute => 7
  | .Minute => 8
  | .ThirtySecond => 9
  | .FifteenSecond => 10
  | .FiveSecond => 11
  | .Second => 12
  | .FiveHundredMilli => 13
  | .HundredMilli => 14
  | .FiftyMilli => 15
  | .TenMilli => 16
  | .FiveMilli => 17
  | .Millisecond => 18

/-- Inverse of `Resolution.lin` (`Resolution::from_linear`). -/
def Resolution.fromLin : Nat → Option Resolution
  | 0 => some .Day
  | 1 => some .AmPm
  | 2 => some .TimeOfDay
  | 3 => some .ThreeHour
  | 4 => some .Hour
  | 5 => some .ThirtyMinute
  | 6 => some .FifteenMinute
  | 7 => some .FiveMinute
  | 8 => some .Minute
  | 9 => some .ThirtySecond
  | 10 => some .FifteenSecond
  | 11 => some .FiveSecond
  | 12 => some .Second
  | 13 => some .FiveHundredMilli
  | 14 => some .HundredMilli
  | 15 => some .FiftyMilli
  | 16 => some .TenMilli
  | 17 => some .FiveMilli
  | 18 => some .Millisecond
  | _ => none

/-- All 19 resolutions in declaration order (`Resolution::variants()`). -/
def Resolution.variantsList : List Resolution :=
  [.Day, .AmPm, .TimeOfDay, .ThreeHour, .Hour, .ThirtyMinute,
   .FifteenMinute, .FiveMinute, .Minute, .ThirtySecond, .FifteenSecond,
   .FiveSecond, .Second, .FiveHundredMilli, .HundredMilli, .FiftyMilli,
   .TenMilli, .FiveMilli, .Millisecond]

/-- Bucket width of a resolution, in milliseconds.  The source returns a
`std::time::Duration`; every width is a whole number of milliseconds, so
a millisecond count is a faithful rendering. -/
def Resolution.width : Resolution → Nat
  | .Day => 24 * 60 * 60 * 1000
  | .AmPm => 12 * 60 * 60 * 1000
  | .TimeOfDay => 6 * 60 * 60 * 1000
  | .ThreeHour => 3 * 60 * 60 * 1000
  | .Hour => 60 * 60 * 1000
  | .ThirtyMinute => 30 * 60 * 1000
  | .FifteenMinute => 15 * 60 * 1000
  | .FiveMinute => 5 * 60 * 1000
  | .Minute => 60 * 1000
  | .ThirtySecond => 30 * 1000
  | .FifteenSecond => 15 * 1000
  | .FiveSecond => 5 * 1000
  | .Second => 1000
  | .FiveHundredMilli => 500
  | .HundredMilli => 100
  | .FiftyMilli => 50
  | .TenMilli => 10
  | .FiveMilli => 5
  | .Millisecond => 1

/-- How many buckets of the next-finer resolution fit in one bucket of
this resolution (`Resolution::subdivision`); 0 for `Day` by convention. -/
def Resolution.subdivision : Resolution → Nat
  | .Day => 0
  | .AmPm => 2
  | .TimeOfDay => 2
  | .ThreeHour => 2
  | .Hour => 3
  | .ThirtyMinute => 2
  | .FifteenMinute => 2
  | .FiveMinute => 3
  | .Minute => 5
  | .ThirtySecond => 2
  | .FifteenSecond => 2
  | .FiveSecond => 3
  | .Second => 5
  | .FiveHundredMilli => 2
  | .HundredMilli => 5
  | .FiftyMilli => 2
  | .TenMilli => 5
  | .FiveMilli => 2
  | .Millisecond => 5

/-- Number of data bits a resolution contributes (`Resolution::n_bits`). -/
def Resolution.n_bits : Resolution → Nat
  | .Day => 0
  | .AmPm => 1
  | .TimeOfDay => 1
  | .ThreeHour => 1
  | .Hour => 2
  | .ThirtyMinute => 1
  | .FifteenMinute => 1
  | .FiveMinute => 2
  | .Minute => 3
  | .ThirtySecond => 1
  | .FifteenSecond => 1
  | .FiveSecond => 2
  | .Second => 3
  | .FiveHundredMilli => 1
  | .HundredMilli => 3
  | .FiftyMilli => 1
  | .TenMilli => 3
  | .FiveMilli => 1
  | .Millisecond => 3

/-- Position of the marker bit of a resolution
(`Resolution::trailing_zeros`). -/
def Resolution.trailing_zeros : Resolution → Nat
  | .Day => 31
  | .AmPm => 30
  | .TimeOfDay => 29
  | .ThreeHour => 28
  | .Hour => 26
  | .ThirtyMinute => 25
  | .FifteenMinute => 24
  | .FiveMinute => 22
  | .Minute => 19
  | .ThirtySecond => 18
  | .FifteenSecond => 17
  | .FiveSecond => 15
  | .Second => 12
  | .FiveHundredMilli => 11
  | .HundredMilli => 8
  | .FiftyMilli => 7
  | .TenMilli => 4
  | .FiveMilli => 3
  | .Millisecond => 0

/-- Resolution from a marker-bit position
(`Resolution::from_trailing_zeros`); the source panics on any other
input, modelled as `none`. -/
def Resolution.from_trailing_zeros (x : Nat) : Option Resolution :=
  if x = 0 then some .Millisecond
  else if x = 3 then some .FiveMilli
  else if x = 4 then some .TenMilli
  else if x = 7 then some .FiftyMilli
  else if x = 8 then some .HundredMilli
  else if x = 11 then some .FiveHundredMilli
  else if x = 12 then some .Second
  else if x = 15 then some .FiveSecond
  else if x = 17 then some .FifteenSecond
  else if x = 18 then some .ThirtySecond
  else if x = 19 then some .Minute
  else if x = 22 then some .FiveMinute
  else if x = 24 then some .FifteenMinute
  else if x = 25 then some .ThirtyMinute
  else if x = 26 then some .Hour
  else if x = 28 then some .ThreeHour
  else if x = 29 then some .TimeOfDay
  else if x = 30 then some .AmPm
  else if x = 31 then some .Day
  else none

/-- One step coarser in the enumeration (`Resolution::coarser`). -/
def Resolution.coarser (r : Resolution) : Option Resolution :=
  match r.lin with
  | 0 => none
  | n + 1 => Resolution.fromLin n

/-- One step finer in the enumeration (`Resolution::finer`). -/
def Resolution.finer (r : Resolution) : Option Resolution :=
  Resolution.fromLin (r.lin + 1)

/-- Resolutions strictly between `to_` (exclusive) and `from_`
(inclusive), finest first (`Resolution::range`); `from_` should be
finer than `to_`. -/
def Resolution.range (from_ to_ : Resolution) : List Resolution :=
  (((Resolution.variantsList.drop (to_.lin + 1)).take
      (from_.lin - to_.lin)).reverse)

/-- Integer quotient of two resolutions (`impl Div for Resolution`):
the product of the subdivision factors along `range(rhs, self)`.  The
source multiplies in `u32`; the largest possible product is
`Day / Millisecond = 86_400_000 < 2^32`, so plain `Nat` multiplication
is exact. -/
def Resolution.div (a b : Resolution) : Nat :=
  ((Resolution.range b a).map Resolution.subdivision).foldl
    (fun x y => x * y) 1

theorem Resolution.lin_lt_19 (r : Resolution) : r.lin < 19 := by
  cases r <;> decide

theorem Resolution.fromLin_lin (r : Resolution) :
    Resolution.fromLin r.lin = some r := by
  cases r <;> decide

/-- The trailing-zero table and the enumeration order are antitone: a
finer resolution has a strictly smaller marker-bit position. -/
theorem Resolution.trailing_zeros_antitone (a b : Resolution) :
    a.lin < b.lin ↔ b.trailing_zeros < a.trailing_zeros := by
  cases a <;> cases b <;> decide

theorem Resolution.trailing_zeros_lt_32 (r : Resolution) :
    r.trailing_zeros < 32 := by
  cases r <;> decide

theorem Resolution.from_trailing_zeros_trailing_zeros (r : Resolution) :
    Resolution.from_trailing_zeros r.trailing_zeros = some r := by
  cases r <;> decide

theorem Resolution.trailing_zeros_inj (a b : Resolution)
    (h : a.trailing_zeros = b.trailing_zeros) : a = b := by
  cases a <;> cases b <;> first | rfl | (exact absurd h (by decide))

/-- Count of trailing zero bits of `n`, with an explicit fuel argument
(32 for a `u32`); `ctz 32 0 = 32`. -/
def ctz : Nat → Nat → Nat
  | 0, _ => 0
  | f + 1, n => if n % 2 = 1 then 0 else ctz f (n / 2) + 1

/-- Trailing zeros of the 32-bit time word (`u32::trailing_zeros` /
`NonZero::<u32>::trailing_zeros`). -/
def Time.tz (t : Nat) : Nat :=
  ctz 32 t

/-- Well-formed time word: non-zero (the type is `NonZero<u32>`), below
`2^32`, and its marker-bit position names a resolution.  Every value
constructible through the `Time` API satisfies this. -/
def Time.Wf (t : Nat) : Prop :=
  0 < t ∧ t < 2 ^ 32 ∧ ∃ r : Resolution, Time.tz t = r.trailing_zeros

instance (t : Nat) : Decidable (Time.Wf t) := by
  unfold Time.Wf; infer_instance

/-- Resolution carried by a time word (`Time::resolution`); the source's
`Resolution::from_trailing_zeros` panics on a word whose trailing-zero
count is not in the table, which cannot happen for well-formed words;
the `Day` default is never exercised under `Time.Wf`. -/
def Time.resolution (t : Nat) : Resolution :=
  (Resolution.from_trailing_zeros (Time.tz t)).getD .Day

/-- Clear the bits of `x` strictly below position `z` and set the bit at
`z`: the source's `x &= u32::MAX << z; x |= 1 << z` (for `x < 2^32`,
`u32::MAX << z` masks to the bits at positions `≥ z`, i.e. keeps
`x / 2^z * 2^z`; or-ing `1 << z` forces bit `z` on, i.e. makes the
quotient by `2^z` odd). -/
def Time.coarsen (x z : Nat) : Nat :=
  if x / 2 ^ z % 2 = 1 then x / 2 ^ z * 2 ^ z else (x / 2 ^ z + 1) * 2 ^ z

/-- Lower the resolution of a time word (`Time::reduce_to`): no effect
if `res` is at least as fine as the current resolution, otherwise clear
all bits below the new marker position and set the marker there. -/
def Time.reduce_to (t : Nat) (res : Resolution) : Nat :=
  if (Time.resolution t).lin ≤ res.lin then t
  else Time.coarsen t res.trailing_zeros

/-- Lower the resolution, failing if `res` is strictly finer than the
current resolution (`Time::with_res`). -/
def Time.with_res (t : Nat) (res : Resolution) : Option Nat :=
  if (Time.resolution t).lin < res.lin then none
  else some (Time.coarsen t res.trailing_zeros)

/-- The `PartialOrd` impl of `Time`: comparable only at equal
resolutions (equal trailing-zero counts), where it is the integer order
of the words. -/
def Time.pcmp (a b : Nat) : Option Ordering :=
  if Time.tz a = Time.tz b then some (cmpN a b) else none

/-- Compare two time words after coarsening both to the lower of their
two resolutions (`Time::coarse_cmp`). -/
def Time.coarse_cmp (a b : Nat) : Ordering :=
  cmpN (Time.coarsen a (max (Time.tz a) (Time.tz b)))
    (Time.coarsen b (max (Time.tz a) (Time.tz b)))

/-- The whole-day constant `Time::WHOLE_DAY`
(`0b10000000_00000000_00000000_00000000`), also `Time::default()` and
`Time::new()`. -/
def Time.WHOLE_DAY : Nat := 2 ^ 31

theorem ctz_spec (z : Nat) : ∀ f n, z < f → n % 2 ^ z = 0 →
    n / 2 ^ z % 2 = 1 → ctz f n = z := by
  induction z with
  | zero =>
    intro f n hf h0 h1
    match f with
    | f + 1 => simpa [ctz] using h1
  | succ z ih =>
    intro f n hf h0 h1
    match f with
    | f + 1 =>
      have h2 : n % 2 = 0 := by
        have hd : (2 : Nat) ∣ 2 ^ (z + 1) := dvd_pow_self 2 (Nat.succ_ne_zero z)
        have := Nat.mod_mod_of_dvd n hd
        omega
      have hn2 : n / 2 % 2 ^ z = 0 := by
        have hd : 2 ^ (z + 1) ∣ n := Nat.dvd_of_mod_eq_zero h0
        rcases hd with ⟨k, hk⟩
        subst hk
        rw [pow_succ]
        rw [Nat.mul_comm (2 ^ z) 2, Nat.mul_assoc]
        rw [Nat.mul_div_cancel_left _ (by norm_num : (0:Nat) < 2)]
        exact Nat.mul_mod_right _ _
      have hn1 : n / 2 / 2 ^ z % 2 = 1 := by
        rw [Nat.div_div_eq_div_mul]
        rw [← pow_succ']
        exact h1
      simp only [ctz, h2]
      rw [if_neg (by omega)]
      rw [ih f (n / 2) (by omega) hn2 hn1]

theorem ctz_mod (f n : Nat) (hn : 0 < n) (hf : n < 2 ^ f) :
    n % 2 ^ ctz f n = 0 ∧ n / 2 ^ ctz f n % 2 = 1 := by
  induction f generalizing n with
  | zero => omega
  | succ f ih =>
    by_cases h : n % 2 = 1
    · simp [ctz, h]; omega
    · have h2 : n % 2 = 0 := by omega
      have hfp : n / 2 < 2 ^ f := by
        have : (2 : Nat) ^ (f + 1) = 2 ^ f * 2 := pow_succ 2 f
        omega
      have hrec := ih (n / 2) (by omega) hfp
      set c := ctz f (n / 2) with hc
      obtain ⟨k, hk⟩ := Nat.dvd_of_mod_eq_zero hrec.1
      have hn : n = 2 ^ (c + 1) * k := by
        have h4 : n = 2 * (n / 2) := by omega
        rw [h4, hk, pow_succ]
        ring
      have hk2 : k % 2 = 1 := by
        have hq : n / 2 / 2 ^ c = k := by
          rw [hk, Nat.mul_div_cancel_left _ (Nat.pos_pow_of_pos _ (by norm_num))]
        rw [hq] at hrec
        exact hrec.2
      simp only [ctz, h2]
      rw [if_neg (by omega), ← hc]
      constructor
      · rw [hn]
        exact Nat.mul_mod_right _ _
      · rw [hn, Nat.mul_div_cancel_left _ (Nat.pos_pow_of_pos _ (by norm_num))]
        exact hk2

theorem tz_spec (n z : Nat) (hz : z < 32) (h0 : n % 2 ^ z = 0)
    (h1 : n / 2 ^ z % 2 = 1) : Time.tz n = z :=
  ctz_spec z 32 n hz h0 h1

theorem tz_mod (n : Nat) (hn : 0 < n) (h32 : n < 2 ^ 32) :
    n % 2 ^ Time.tz n = 0 ∧ n / 2 ^ Time.tz n % 2 = 1 :=
  ctz_mod 32 n hn h32

/-- Decomposition of a well-formed word into marker bit and data bits:
`t = 2^z + h·2^(z+1)` where `z` is the trailing-zero count. -/
theorem tz_decomp (n : Nat) (hn : 0 < n) (h32 : n < 2 ^ 32) :
    n = 2 ^ Time.tz n + n / 2 ^ (Time.tz n + 1) * 2 ^ (Time.tz n + 1) ∧
      Time.tz n < 32 := by
  obtain ⟨h0, h1⟩ := tz_mod n hn h32
  have hzlt : Time.tz n < 32 := by
    by_contra hc
    have h2 : 2 ^ 32 ≤ 2 ^ Time.tz n := Nat.pow_le_pow_right (by norm_num) (by omega)
    have h3 : n < 2 ^ Time.tz n := lt_of_lt_of_le h32 h2
    have h4 := Nat.div_eq_of_lt h3
    omega
  constructor
  · have hq : n / 2 ^ Time.tz n = 2 * (n / 2 ^ Time.tz n / 2) + 1 := by omega
    have hsplit : n = n / 2 ^ Time.tz n * 2 ^ Time.tz n :=
      (Nat.div_mul_cancel (Nat.dvd_of_mod_eq_zero h0)).symm
    have hdd : n / 2 ^ Time.tz n / 2 = n / 2 ^ (Time.tz n + 1) := by
      rw [Nat.div_div_eq_div_mul, ← pow_succ]
    calc n = n / 2 ^ Time.tz n * 2 ^ Time.tz n := hsplit
    _ = (2 * (n / 2 ^ Time.tz n / 2) + 1) * 2 ^ Time.tz n := by rw [← hq]
    _ = 2 ^ Time.tz n + n / 2 ^ (Time.tz n + 1) * 2 ^ (Time.tz n + 1) := by
        rw [hdd] at *
        rw [pow_succ]
        ring
  · exact hzlt

theorem cmpN_lt_iff (a b : Nat) : cmpN a b = .lt ↔ a < b := by
  unfold cmpN
  split_ifs <;> simp_all

theorem cmpN_eq_iff (a b : Nat) : cmpN a b = .eq ↔ a = b := by
  unfold cmpN
  split_ifs <;> simp_all
  omega

theorem cmpN_gt_iff (a b : Nat) : cmpN a b = .gt ↔ b < a := by
  unfold cmpN
  split_ifs <;> simp_all <;> omega

theorem cmpI_lt_iff (a b : Int) : cmpI a b = .lt ↔ a < b := by
  unfold cmpI
  split_ifs <;> simp_all

theorem cmpI_eq_iff (a b : Int) : cmpI a b = .eq ↔ a = b := by
  unfold cmpI
  split_ifs <;> simp_all
  omega

theorem cmpI_gt_iff (a b : Int) : cmpI a b = .gt ↔ b < a := by
  unfold cmpI
  split_ifs <;> simp_all <;> omega

/-- Normal form of `coarsen`: the data bits strictly above `z` followed
by the marker bit at `z`. -/
theorem coarsen_form (t z : Nat) :
    Time.coarsen t z = (2 * (t / 2 ^ (z + 1)) + 1) * 2 ^ z := by
  unfold Time.coarsen
  have hdd : t / 2 ^ (z + 1) = t / 2 ^ z / 2 := by
    rw [Nat.div_div_eq_div_mul, pow_succ]
  rw [hdd]
  split_ifs with h
  · have : t / 2 ^ z = 2 * (t / 2 ^ z / 2) + 1 := by omega
    rw [← this]
  · have : t / 2 ^ z + 1 = 2 * (t / 2 ^ z / 2) + 1 := by omega
    rw [← this]

theorem coarsen_self (t : Nat) (h0 : 0 < t) (h32 : t < 2 ^ 32) :
    Time.coarsen t (Time.tz t) = t := by
  obtain ⟨hm, ho⟩ := tz_mod t h0 h32
  unfold Time.coarsen
  rw [if_pos ho]
  exact Nat.div_mul_cancel (Nat.dvd_of_mod_eq_zero hm)

theorem coarsen_lt_32 (t z : Nat) (h32 : t < 2 ^ 32) (hz : z < 32) :
    Time.coarsen t z < 2 ^ 32 := by
  rw [coarsen_form]
  have hk : z + 1 + (31 - z) = 32 := by omega
  have hsplit : (2 : Nat) ^ 32 = 2 ^ (z + 1) * 2 ^ (31 - z) := by
    rw [← pow_add, hk]
  have hu : t / 2 ^ (z + 1) < 2 ^ (31 - z) := by
    rw [Nat.div_lt_iff_lt_mul (Nat.pos_pow_of_pos _ (by norm_num))]
    calc t < 2 ^ 32 := h32
    _ = 2 ^ (31 - z) * 2 ^ (z + 1) := by rw [← pow_add]; congr 1; omega
  have h1 : 2 * (t / 2 ^ (z + 1)) + 1 < 2 ^ (32 - z) := by
    have : (2 : Nat) ^ (32 - z) = 2 * 2 ^ (31 - z) := by
      rw [← pow_succ']
      congr 1
      omega
    omega
  calc (2 * (t / 2 ^ (z + 1)) + 1) * 2 ^ z
      < 2 ^ (32 - z) * 2 ^ z := by
        have hp : 0 < (2 : Nat) ^ z := Nat.pos_pow_of_pos _ (by norm_num)
        exact (Nat.mul_lt_mul_right hp).mpr h1
  _ = 2 ^ 32 := by rw [← pow_add]; congr 1; omega

theorem coarsen_pos (t z : Nat) : 0 < Time.coarsen t z := by
  rw [coarsen_form]
  positivity

theorem tz_coarsen (t z : Nat) (hz : z < 32) :
    Time.tz (Time.coarsen t z) = z := by
  rw [coarsen_form]
  apply tz_spec _ _ hz
  · exact Nat.mul_mod_left _ _
  · rw [Nat.mul_div_cancel _ (Nat.pos_pow_of_pos _ (by norm_num))]
    omega

/-- Dividing out a larger power of two goes through the smaller one. -/
theorem div_pow_split (x z z' : Nat) (h : z ≤ z') :
    x / 2 ^ z' = x / 2 ^ z / 2 ^ (z' - z) := by
  rw [Nat.div_div_eq_div_mul, ← pow_add]
  congr 2
  omega

/-- Coarsening only changes bits at or below `z`, so divisions by larger
powers of two are unchanged. -/
theorem coarsen_div_high (t z w : Nat) (h : z < w) :
    Time.coarsen t z / 2 ^ w = t / 2 ^ w := by
  rw [coarsen_form]
  have h1 : (2 * (t / 2 ^ (z + 1)) + 1) * 2 ^ z / 2 ^ (z + 1) = t / 2 ^ (z + 1) := by
    rw [pow_succ, ← Nat.div_div_eq_div_mul, Nat.mul_div_cancel _ (Nat.pos_pow_of_pos _ (by norm_num))]
    omega
  rw [div_pow_split _ (z + 1) w (by omega), h1, ← div_pow_split _ (z + 1) w (by omega)]

theorem coarsen_mono (a b z : Nat) (h : a ≤ b) :
    Time.coarsen a z ≤ Time.coarsen b z := by
  rw [coarsen_form, coarsen_form]
  have := Nat.div_le_div_right (c := 2 ^ (z + 1)) h
  exact Nat.mul_le_mul_right _ (by omega)

theorem coarsen_coarsen (t z z' : Nat) (h : z ≤ z') :
    Time.coarsen (Time.coarsen t z) z' = Time.coarsen t z' := by
  rcases Nat.eq_or_lt_of_le h with rfl | hlt
  · rw [coarsen_form t z, Time.coarsen]
    have hodd : (2 * (t / 2 ^ (z + 1)) + 1) * 2 ^ z / 2 ^ z % 2 = 1 := by
      rw [Nat.mul_div_cancel _ (Nat.pos_pow_of_pos _ (by norm_num))]
      omega
    rw [if_pos hodd, Nat.mul_div_cancel _ (Nat.pos_pow_of_pos _ (by norm_num))]
  · rw [coarsen_form _ z', coarsen_form t z', coarsen_div_high t z (z' + 1) (by omega)]

theorem cmpN_odd_mul (x y k : Nat) (hk : 0 < k) :
    cmpN ((2 * x + 1) * k) ((2 * y + 1) * k) = cmpN x y := by
  rcases lt_trichotomy x y with h | h | h
  · rw [(cmpN_lt_iff x y).mpr h, (cmpN_lt_iff _ _).mpr]
    have : 2 * x + 1 < 2 * y + 1 := by omega
    exact (Nat.mul_lt_mul_right hk).mpr this
  · subst h
    rw [(cmpN_eq_iff x x).mpr rfl, (cmpN_eq_iff _ _).mpr rfl]
  · rw [(cmpN_gt_iff x y).mpr h, (cmpN_gt_iff _ _).mpr]
    have : 2 * y + 1 < 2 * x + 1 := by omega
    exact (Nat.mul_lt_mul_right hk).mpr this

/-- Coarse comparison reduces to comparing the data bits strictly above
the coarser of the two marker positions. -/
theorem coarse_cmp_eq_cmp_div (a b : Nat) :
    Time.coarse_cmp a b =
      cmpN (a / 2 ^ (max (Time.tz a) (Time.tz b) + 1))
        (b / 2 ^ (max (Time.tz a) (Time.tz b) + 1)) := by
  unfold Time.coarse_cmp
  rw [coarsen_form, coarsen_form]
  exact cmpN_odd_mul _ _ _ (Nat.pos_pow_of_pos _ (by norm_num))

/-- A word whose bit `zb` is the lowest set bit keeps at least `2^zb`
in its residue modulo any larger power of two. -/
theorem mod_bit_lower (b zb w : Nat) (hzb : b % 2 ^ zb = 0)
    (hodd : b / 2 ^ zb % 2 = 1) (hw : zb < w) : 2 ^ zb ≤ b % 2 ^ w := by
  by_contra hcc
  have hdb : 2 ^ zb ∣ b := Nat.dvd_of_mod_eq_zero hzb
  have hdn : 2 ^ zb ∣ 2 ^ w := pow_dvd_pow 2 (le_of_lt hw)
  have hdm : 2 ^ zb ∣ b % 2 ^ w := (Nat.dvd_mod_iff hdn).mpr hdb
  obtain ⟨c, hc⟩ := hdm
  have hc0 : c = 0 := by
    rcases Nat.eq_zero_or_pos c with h | h
    · exact h
    · exfalso
      have h1 : 2 ^ zb * 1 ≤ 2 ^ zb * c := Nat.mul_le_mul_left _ h
      omega
  have hw0 : b % 2 ^ w = 0 := by
    subst hc0
    simpa using hc
  obtain ⟨k, hk⟩ := Nat.dvd_of_mod_eq_zero hw0
  have hsplit : (2 : Nat) ^ w = 2 ^ zb * 2 ^ (w - zb) := by
    rw [← pow_add]
    congr 1
    omega
  have hq : b / 2 ^ zb = 2 ^ (w - zb) * k := by
    rw [hk, hsplit, Nat.mul_assoc,
      Nat.mul_div_cancel_left _ (Nat.pos_pow_of_pos _ (by norm_num))]
  obtain ⟨e, he⟩ := dvd_pow_self 2 (show w - zb ≠ 0 by omega)
  have hassoc : 2 ^ (w - zb) * k = 2 * (e * k) := by
    rw [he]
    ring
  rw [hq, hassoc] at hodd
  omega

/-- Interval-order characterization of `coarse_cmp`: strictly-less means
the half-open interval of `a` ends no later than the interval of `b`
starts. -/
theorem coarse_cmp_lt_iff (a b : Nat) (ha0 : 0 < a) (ha32 : a < 2 ^ 32)
    (hb0 : 0 < b) (hb32 : b < 2 ^ 32) :
    Time.coarse_cmp a b = .lt ↔
      a + 2 ^ Time.tz a ≤ b - 2 ^ Time.tz b := by
  obtain ⟨hadec, haz⟩ := tz_decomp a ha0 ha32
  obtain ⟨hbdec, hbz⟩ := tz_decomp b hb0 hb32
  obtain ⟨ham, hao⟩ := tz_mod a ha0 ha32
  obtain ⟨hbm, hbo⟩ := tz_mod b hb0 hb32
  rw [coarse_cmp_eq_cmp_div, cmpN_lt_iff]
  set za := Time.tz a with hza
  set zb := Time.tz b with hzb
  rcases le_or_lt za zb with hle | hlt
  · -- the coarser word is `b`: max = zb
    rw [Nat.max_eq_right hle]
    have hub : b / 2 ^ (zb + 1) * 2 ^ (zb + 1) = b - 2 ^ zb := by omega
    constructor
    · intro h
      have hmodd : 2 ^ za ∣ a % 2 ^ (zb + 1) := by
        have hda : 2 ^ za ∣ a := Nat.dvd_of_mod_eq_zero ham
        exact (Nat.dvd_mod_iff (pow_dvd_pow 2 (by omega))).mpr hda
      obtain ⟨c, hc⟩ := hmodd
      have hclt : 2 ^ za * c < 2 ^ (zb + 1) := by
        rw [← hc]
        exact Nat.mod_lt _ (Nat.pos_pow_of_pos _ (by norm_num))
      have hcbound : 2 ^ za * c + 2 ^ za ≤ 2 ^ (zb + 1) := by
        have hsp : (2 : Nat) ^ (zb + 1) = 2 ^ za * 2 ^ (zb + 1 - za) := by
          rw [← pow_add]
          congr 1
          omega
        have hclt2 : c < 2 ^ (zb + 1 - za) := by
          by_contra hcc
          have h1 : 2 ^ za * 2 ^ (zb + 1 - za) ≤ 2 ^ za * c :=
            Nat.mul_le_mul_left _ (by omega)
          omega
        have h2 : 2 ^ za * (c + 1) ≤ 2 ^ za * 2 ^ (zb + 1 - za) :=
          Nat.mul_le_mul_left _ (by omega)
        have h3 : 2 ^ za * (c + 1) = 2 ^ za * c + 2 ^ za := by ring
        omega
      have hdam := Nat.div_add_mod a (2 ^ (zb + 1))
      have hmul : a / 2 ^ (zb + 1) + 1 ≤ b / 2 ^ (zb + 1) := by omega
      have h4 : (a / 2 ^ (zb + 1) + 1) * 2 ^ (zb + 1) ≤
          b / 2 ^ (zb + 1) * 2 ^ (zb + 1) := Nat.mul_le_mul_right _ hmul
      have h5 : (a / 2 ^ (zb + 1) + 1) * 2 ^ (zb + 1) =
          2 ^ (zb + 1) * (a / 2 ^ (zb + 1)) + 2 ^ (zb + 1) := by ring
      omega
    · intro h
      have h1 : a / 2 ^ (zb + 1) * 2 ^ (zb + 1) ≤ a := Nat.div_mul_le_self a _
      have hpos : 0 < 2 ^ za := Nat.pos_pow_of_pos _ (by norm_num)
      have h2 : a / 2 ^ (zb + 1) * 2 ^ (zb + 1) <
          b / 2 ^ (zb + 1) * 2 ^ (zb + 1) := by omega
      exact Nat.lt_of_mul_lt_mul_right h2
  · -- the coarser word is `a`: max = za
    rw [Nat.max_eq_left (by omega)]
    have hE : a + 2 ^ za = (a / 2 ^ (za + 1) + 1) * 2 ^ (za + 1) := by
      have hps : (2 : Nat) ^ (za + 1) = 2 * 2 ^ za := by
        rw [pow_succ]
        ring
      have hdist : (a / 2 ^ (za + 1) + 1) * 2 ^ (za + 1) =
          a / 2 ^ (za + 1) * 2 ^ (za + 1) + 2 ^ (za + 1) := by ring
      omega
    have hbbit : 2 ^ zb ≤ b % 2 ^ (za + 1) := mod_bit_lower b zb (za + 1) hbm hbo (by omega)
    have hdbm := Nat.div_add_mod b (2 ^ (za + 1))
    constructor
    · intro h
      rw [hE]
      have h1 : (a / 2 ^ (za + 1) + 1) * 2 ^ (za + 1) ≤
          b / 2 ^ (za + 1) * 2 ^ (za + 1) := Nat.mul_le_mul_right _ (by omega)
      have h2 : b / 2 ^ (za + 1) * 2 ^ (za + 1) =
          2 ^ (za + 1) * (b / 2 ^ (za + 1)) := by ring
      have hpos : 0 < 2 ^ zb := Nat.pos_pow_of_pos _ (by norm_num)
      omega
    · intro h
      rw [hE] at h
      have hpos : 0 < 2 ^ zb := Nat.pos_pow_of_pos _ (by norm_num)
      have hble : (a / 2 ^ (za + 1) + 1) * 2 ^ (za + 1) ≤ b := by omega
      have h6 := (Nat.le_div_iff_mul_le (k := 2 ^ (za + 1))
        (Nat.pos_pow_of_pos _ (by norm_num))).mpr hble
      omega

theorem Resolution.lin_inj (a b : Resolution) (h : a.lin = b.lin) : a = b := by
  cases a <;> cases b <;> first | rfl | (exact absurd h (by decide))

theorem E_form (a : Nat) (h0 : 0 < a) (h32 : a < 2 ^ 32) :
    a + 2 ^ Time.tz a = (a / 2 ^ (Time.tz a + 1) + 1) * 2 ^ (Time.tz a + 1) := by
  obtain ⟨hdec, hz⟩ := tz_decomp a h0 h32
  have hps : (2 : Nat) ^ (Time.tz a + 1) = 2 * 2 ^ Time.tz a := by
    rw [pow_succ]
    ring
  have hdist : (a / 2 ^ (Time.tz a + 1) + 1) * 2 ^ (Time.tz a + 1) =
      a / 2 ^ (Time.tz a + 1) * 2 ^ (Time.tz a + 1) + 2 ^ (Time.tz a + 1) := by
    ring
  omega

theorem S_form (a : Nat) (h0 : 0 < a) (h32 : a < 2 ^ 32) :
    a - 2 ^ Time.tz a = a / 2 ^ (Time.tz a + 1) * 2 ^ (Time.tz a + 1) := by
  obtain ⟨hdec, hz⟩ := tz_decomp a h0 h32
  omega

theorem coarsen_S (t z : Nat) :
    Time.coarsen t z - 2 ^ z = t / 2 ^ (z + 1) * 2 ^ (z + 1) := by
  rw [coarsen_form]
  have h1 : (2 * (t / 2 ^ (z + 1)) + 1) * 2 ^ z =
      t / 2 ^ (z + 1) * 2 ^ (z + 1) + 2 ^ z := by
    conv_rhs => rw [pow_succ]
    ring
  omega

theorem coarsen_E (t z : Nat) :
    Time.coarsen t z + 2 ^ z = (t / 2 ^ (z + 1) + 1) * 2 ^ (z + 1) := by
  rw [coarsen_form]
  have h1 : (2 * (t / 2 ^ (z + 1)) + 1) * 2 ^ z =
      t / 2 ^ (z + 1) * 2 ^ (z + 1) + 2 ^ z := by
    conv_rhs => rw [pow_succ]
    ring
  have h2 : (t / 2 ^ (z + 1) + 1) * 2 ^ (z + 1) =
      t / 2 ^ (z + 1) * 2 ^ (z + 1) + 2 ^ (z + 1) := by ring
  have hps : (2 : Nat) ^ (z + 1) = 2 * 2 ^ z := by
    rw [pow_succ]
    ring
  omega

theorem pow_tz_le (t : Nat) (h0 : 0 < t) (h32 : t < 2 ^ 32) :
    2 ^ Time.tz t ≤ t := by
  obtain ⟨hdec, _⟩ := tz_decomp t h0 h32
  omega

theorem Time.Wf.pos {t : Nat} (h : Time.Wf t) : 0 < t := h.1

theorem Time.Wf.lt32 {t : Nat} (h : Time.Wf t) : t < 2 ^ 32 := h.2.1

/-- For a well-formed word, the marker position of its resolution is its
trailing-zero count. -/
theorem res_tz (t : Nat) (h : Time.Wf t) :
    (Time.resolution t).trailing_zeros = Time.tz t := by
  obtain ⟨-, -, r, hr⟩ := h
  unfold Time.resolution
  rw [hr, Resolution.from_trailing_zeros_trailing_zeros]
  rfl

theorem res_lin_le_res_iff (a : Nat) (r : Resolution) (ha : Time.Wf a) :
    (Time.resolution a).lin ≤ r.lin ↔ r.trailing_zeros ≤ Time.tz a := by
  rw [← res_tz a ha]
  rcases lt_trichotomy (Time.resolution a).lin r.lin with h | h | h
  · have := (Resolution.trailing_zeros_antitone _ _).mp h
    omega
  · have : Time.resolution a = r := Resolution.lin_inj _ _ h
    rw [this]
    omega
  · have := (Resolution.trailing_zeros_antitone _ _).mp h
    omega

theorem res_lin_lt_res_iff (a : Nat) (r : Resolution) (ha : Time.Wf a) :
    r.lin < (Time.resolution a).lin ↔ Time.tz a < r.trailing_zeros := by
  have := res_lin_le_res_iff a r ha
  omega

theorem reduce_to_of_le (t : Nat) (r : Resolution)
    (h : (Time.resolution t).lin ≤ r.lin) : Time.reduce_to t r = t := by
  unfold Time.reduce_to
  rw [if_pos h]

theorem reduce_to_of_gt (t : Nat) (r : Resolution)
    (h : r.lin < (Time.resolution t).lin) :
    Time.reduce_to t r = Time.coarsen t r.trailing_zeros := by
  unfold Time.reduce_to
  rw [if_neg (by omega)]

/-- Uniform description of `reduce_to` on well-formed words: coarsen to
the maximum of the current marker position and the target position. -/
theorem reduce_to_eq_coarsen (t : Nat) (r : Resolution) (ht : Time.Wf t) :
    Time.reduce_to t r = Time.coarsen t (max (Time.tz t) r.trailing_zeros) := by
  rcases le_or_lt (Time.resolution t).lin r.lin with h | h
  · rw [reduce_to_of_le t r h, Nat.max_eq_left ((res_lin_le_res_iff t r ht).mp h)]
    exact (coarsen_self t ht.pos ht.lt32).symm
  · rw [reduce_to_of_gt t r h,
      Nat.max_eq_right (le_of_lt ((res_lin_lt_res_iff t r ht).mp h))]

theorem reduce_to_tz (t : Nat) (r : Resolution) (ht : Time.Wf t) :
    Time.tz (Time.reduce_to t r) = max (Time.tz t) r.trailing_zeros := by
  rw [reduce_to_eq_coarsen t r ht]
  apply tz_coarsen
  have h1 := Resolution.trailing_zeros_lt_32 r
  have h2 := (tz_decomp t ht.pos ht.lt32).2
  omega

theorem reduce_to_wf (t : Nat) (r : Resolution) (ht : Time.Wf t) :
    Time.Wf (Time.reduce_to t r) := by
  rcases le_or_lt (Time.resolution t).lin r.lin with h | h
  · rw [reduce_to_of_le t r h]
    exact ht
  · rw [reduce_to_of_gt t r h]
    refine ⟨coarsen_pos _ _, coarsen_lt_32 _ _ ht.lt32 (Resolution.trailing_zeros_lt_32 r), r, ?_⟩
    exact tz_coarsen _ _ (Resolution.trailing_zeros_lt_32 r)

theorem reduce_to_res_of_gt (t : Nat) (r : Resolution) (ht : Time.Wf t)
    (h : r.lin < (Time.resolution t).lin) :
    Time.resolution (Time.reduce_to t r) = r := by
  rw [reduce_to_of_gt t r h]
  unfold Time.resolution
  rw [tz_coarsen _ _ (Resolution.trailing_zeros_lt_32 r),
    Resolution.from_trailing_zeros_trailing_zeros]
  rfl

theorem reduce_to_lin_le (t : Nat) (r : Resolution) (ht : Time.Wf t) :
    (Time.resolution (Time.reduce_to t r)).lin ≤ r.lin := by
  rcases le_or_lt (Time.resolution t).lin r.lin with h | h
  · rw [reduce_to_of_le t r h]
    exact h
  · rw [reduce_to_res_of_gt t r ht h]

theorem reduce_to_lin_le_self (t : Nat) (r : Resolution) (ht : Time.Wf t) :
    (Time.resolution (Time.reduce_to t r)).lin ≤ (Time.resolution t).lin := by
  rcases le_or_lt (Time.resolution t).lin r.lin with h | h
  · rw [reduce_to_of_le t r h]
  · rw [reduce_to_res_of_gt t r ht h]
    omega

theorem coarse_cmp_eq_cmpN_of_tz_eq (a b : Nat) (ha0 : 0 < a)
    (ha32 : a < 2 ^ 32) (hb0 : 0 < b) (hb32 : b < 2 ^ 32)
    (h : Time.tz a = Time.tz b) : Time.coarse_cmp a b = cmpN a b := by
  unfold Time.coarse_cmp
  rw [← h, Nat.max_self, coarsen_self a ha0 ha32]
  conv in Time.coarsen b _ => rw [h, coarsen_self b hb0 hb32]

theorem coarse_lt_trans (a b c : Nat) (ha0 : 0 < a) (ha32 : a < 2 ^ 32)
    (hb0 : 0 < b) (hb32 : b < 2 ^ 32) (hc0 : 0 < c) (hc32 : c < 2 ^ 32)
    (h1 : Time.coarse_cmp a b = .lt) (h2 : Time.coarse_cmp b c = .lt) :
    Time.coarse_cmp a c = .lt := by
  rw [coarse_cmp_lt_iff a b ha0 ha32 hb0 hb32] at h1
  rw [coarse_cmp_lt_iff b c hb0 hb32 hc0 hc32] at h2
  rw [coarse_cmp_lt_iff a c ha0 ha32 hc0 hc32]
  have h3 := pow_tz_le b hb0 hb32
  have h4 : 0 < 2 ^ Time.tz b := Nat.pos_pow_of_pos _ (by norm_num)
  omega

theorem coarse_lt_ne (a b : Nat) (ha0 : 0 < a) (ha32 : a < 2 ^ 32)
    (hb0 : 0 < b) (hb32 : b < 2 ^ 32)
    (h : Time.coarse_cmp a b = .lt) : a ≠ b := by
  intro hab
  subst hab
  rw [coarse_cmp_lt_iff a a ha0 ha32 ha0 ha32] at h
  have h3 := pow_tz_le a ha0 ha32
  have h4 : 0 < 2 ^ Time.tz a := Nat.pos_pow_of_pos _ (by norm_num)
  omega

/-- Coarsening the finer right-hand side of a strict coarse comparison
keeps it strict, provided the left side is already at least as coarse as
the target resolution. -/
theorem coarse_lt_reduce_right (a b : Nat) (r : Resolution)
    (ha : Time.Wf a) (hb : Time.Wf b)
    (hra : r.trailing_zeros ≤ Time.tz a) (hrb : Time.tz b < r.trailing_zeros)
    (h : Time.coarse_cmp a b = .lt) :
    Time.coarse_cmp a (Time.reduce_to b r) = .lt := by
  set zr := r.trailing_zeros with hzr
  have hzr32 : zr < 32 := Resolution.trailing_zeros_lt_32 r
  have hred : Time.reduce_to b r = Time.coarsen b zr := by
    rw [reduce_to_eq_coarsen b r hb, Nat.max_eq_right (by omega)]
  rw [coarse_cmp_lt_iff a b ha.pos ha.lt32 hb.pos hb.lt32] at h
  rw [hred, coarse_cmp_lt_iff a _ ha.pos ha.lt32 (coarsen_pos _ _)
    (coarsen_lt_32 _ _ hb.lt32 hzr32), tz_coarsen _ _ hzr32, coarsen_S]
  -- `a + 2^(tz a)` is a multiple of `2^(zr+1)` and is at most `b`
  have hEa := E_form a ha.pos ha.lt32
  have hsp : (2 : Nat) ^ (Time.tz a + 1) = 2 ^ (zr + 1) * 2 ^ (Time.tz a - zr) := by
    rw [← pow_add]
    congr 1
    omega
  have hmul : a + 2 ^ Time.tz a =
      (a / 2 ^ (Time.tz a + 1) + 1) * 2 ^ (Time.tz a - zr) * 2 ^ (zr + 1) := by
    rw [hEa, hsp]
    ring
  have hle_b : a + 2 ^ Time.tz a ≤ b := by
    have := Nat.sub_le b (2 ^ Time.tz b)
    omega
  rw [hmul] at hle_b ⊢
  have hdiv := (Nat.le_div_iff_mul_le (k := 2 ^ (zr + 1))
    (Nat.pos_pow_of_pos _ (by norm_num))).mpr hle_b
  exact Nat.mul_le_mul_right _ hdiv

/-- Coarsening the finer left-hand side of a strict coarse comparison
keeps it strict, provided the right side is already at least as coarse
as the target resolution. -/
theorem coarse_lt_reduce_left (a b : Nat) (r : Resolution)
    (ha : Time.Wf a) (hb : Time.Wf b)
    (hra : Time.tz a < r.trailing_zeros) (hrb : r.trailing_zeros ≤ Time.tz b)
    (h : Time.coarse_cmp a b = .lt) :
    Time.coarse_cmp (Time.reduce_to a r) b = .lt := by
  set zr := r.trailing_zeros with hzr
  have hzr32 : zr < 32 := Resolution.trailing_zeros_lt_32 r
  have hred : Time.reduce_to a r = Time.coarsen a zr := by
    rw [reduce_to_eq_coarsen a r ha, Nat.max_eq_right (by omega)]
  rw [coarse_cmp_lt_iff a b ha.pos ha.lt32 hb.pos hb.lt32] at h
  rw [hred, coarse_cmp_lt_iff _ b (coarsen_pos _ _)
    (coarsen_lt_32 _ _ ha.lt32 hzr32) hb.pos hb.lt32, tz_coarsen _ _ hzr32, coarsen_E]
  -- `b - 2^(tz b)` is a multiple of `2^(zr+1)` strictly above `a`
  have hSb := S_form b hb.pos hb.lt32
  have hsp : (2 : Nat) ^ (Time.tz b + 1) = 2 ^ (zr + 1) * 2 ^ (Time.tz b - zr) := by
    rw [← pow_add]
    congr 1
    omega
  have hmulS : b - 2 ^ Time.tz b =
      b / 2 ^ (Time.tz b + 1) * 2 ^ (Time.tz b - zr) * 2 ^ (zr + 1) := by
    rw [hSb, hsp]
    ring
  have halt : a < b - 2 ^ Time.tz b := by
    have hpos : 0 < 2 ^ Time.tz a := Nat.pos_pow_of_pos _ (by norm_num)
    omega
  rw [hmulS] at halt ⊢
  have hdiv : a / 2 ^ (zr + 1) <
      b / 2 ^ (Time.tz b + 1) * 2 ^ (Time.tz b - zr) := by
    rw [Nat.div_lt_iff_lt_mul (Nat.pos_pow_of_pos _ (by norm_num))]
    exact halt
  exact Nat.mul_le_mul_right _ (by omega)

/-- Coarsening both sides of a strict coarse comparison to a common
target either stays strict or collapses the two words to the same
value. -/
theorem coarse_lt_reduce_both (a b : Nat) (r : Resolution)
    (ha : Time.Wf a) (hb : Time.Wf b)
    (hra : Time.tz a < r.trailing_zeros) (hrb : Time.tz b < r.trailing_zeros)
    (h : Time.coarse_cmp a b = .lt) :
    Time.coarse_cmp (Time.reduce_to a r) (Time.reduce_to b r) = .lt ∨
      Time.reduce_to a r = Time.reduce_to b r := by
  set zr := r.trailing_zeros with hzr
  have hzr32 : zr < 32 := Resolution.trailing_zeros_lt_32 r
  have hreda : Time.reduce_to a r = Time.coarsen a zr := by
    rw [reduce_to_eq_coarsen a r ha, Nat.max_eq_right (by omega)]
  have hredb : Time.reduce_to b r = Time.coarsen b zr := by
    rw [reduce_to_eq_coarsen b r hb, Nat.max_eq_right (by omega)]
  rw [coarse_cmp_lt_iff a b ha.pos ha.lt32 hb.pos hb.lt32] at h
  have hab : a ≤ b := by
    have hpa : 0 < 2 ^ Time.tz a := Nat.pos_pow_of_pos _ (by norm_num)
    have := Nat.sub_le b (2 ^ Time.tz b)
    omega
  have hcc := coarse_cmp_eq_cmpN_of_tz_eq (Time.coarsen a zr) (Time.coarsen b zr)
    (coarsen_pos _ _) (coarsen_lt_32 _ _ ha.lt32 hzr32) (coarsen_pos _ _)
    (coarsen_lt_32 _ _ hb.lt32 hzr32)
    (by rw [tz_coarsen _ _ hzr32, tz_coarsen _ _ hzr32])
  rw [hreda, hredb, hcc]
  have hmono := coarsen_mono a b zr hab
  rcases Nat.eq_or_lt_of_le hmono with heq | hlt
  · right
    exact heq
  · left
    exact (cmpN_lt_iff _ _).mpr hlt

/-- A validated retention policy (src/policy.rs).  `compaction_rules`
go from (distant, low-res) to (recent, high-res); `max_res` is the
finest resolution the policy permits; `max_retention` the discard
horizon in days. -/
structure Policy where
  compaction_rules : List (Nat × Resolution)
  max_res : Resolution
  max_retention : Nat
  deriving DecidableEq, Repr

inductive PolicyError where
  | ZeroRetention
  | PolicyAppliesForZeroDays
  | SomePoliciesDominateOthers
  deriving DecidableEq, Repr

/-- Lexicographic (days, resolution) order on rules, mirroring the
derived `Ord` on `(u16, Resolution)`. -/
def ruleLe (x y : Nat × Resolution) : Prop :=
  x.1 < y.1 ∨ (x.1 = y.1 ∧ x.2.lin ≤ y.2.lin)

instance (x y : Nat × Resolution) : Decidable (ruleLe x y) := by
  unfold ruleLe; infer_instance

def insertDesc (x : Nat × Resolution) :
    List (Nat × Resolution) → List (Nat × Resolution)
  | [] => [x]
  | y :: ys => if ruleLe x y then y :: insertDesc x ys else x :: y :: ys

/-- Sort rules by descending (days, resolution): the source's
`sort_by(|x, y| x.cmp(y).reverse())`.  The comparator is a total order
on the pair values themselves, so any correct sort produces the same
list; insertion sort is used here. -/
def sortDesc (l : List (Nat × Resolution)) : List (Nat × Resolution) :=
  l.foldr insertDesc []

/-- Remove consecutive duplicate rules (`Vec::dedup`). -/
def dedupRules : List (Nat × Resolution) → List (Nat × Resolution)
  | [] => []
  | [x] => [x]
  | x :: y :: rest =>
    if x = y then dedupRules (y :: rest) else x :: dedupRules (y :: rest)

/-- The source's `is_sorted_by_key(|x| x.1)`: resolutions non-decreasing
in fineness along the list. -/
def resAscend : List (Nat × Resolution) → Bool
  | [] => true
  | [_] => true
  | x :: y :: rest =>
    if x.2.lin ≤ y.2.lin then resAscend (y :: rest) else false

/-- `PolicyBuilder::build` (src/policy.rs).  The `[] => error` arm in the
final match is unreachable (sorting and deduplicating a non-empty list
is non-empty); the source `unwrap`s there. -/
def Policy.build (raw : List (Nat × Resolution)) : Except PolicyError Policy :=
  if raw.isEmpty then .error .ZeroRetention
  else if raw.any (fun x => x.1 == 0) then .error .PolicyAppliesForZeroDays
  else
    match hs : dedupRules (sortDesc raw) with
    | [] => .error .ZeroRetention
    | s0 :: rest =>
      if resAscend (s0 :: rest) then
        .ok
          { compaction_rules :=
              List.zip (((s0 :: rest).map Prod.fst).drop 1)
                ((s0 :: rest).map Prod.snd)
            max_res := (List.getLast (s0 :: rest) (by simp)).2
            max_retention := s0.1 }
      else .error .SomePoliciesDominateOthers

/-- One stored record: a (date, resolution-tagged time, payload)
triple.  Dates are day numbers (see the module comment). -/
structure Entry (P : Type) where
  date : Int
  time : Nat
  x : P
  deriving Repr, DecidableEq

/-- Worker for `with_max_res` (src/data.rs): stream entries, reduce
each time to `res`, merge into the accumulator bucket while the
(date, reduced time) key matches, flush on change, and emit the final
bucket at the end of the stream. -/
def with_max_res_go {P : Type} (m : P → P → P) (res : Resolution)
    (cur : Option (Entry P)) : List (Entry P) → List (Entry P)
  | [] => cur.toList
  | e :: rest =>
    match cur with
    | some c =>
      if c.date = e.date ∧ c.time = Time.reduce_to e.time res then
        with_max_res_go m res (some ⟨c.date, c.time, m c.x e.x⟩) rest
      else
        c :: with_max_res_go m res
          (some ⟨e.date, Time.reduce_to e.time res, e.x⟩) rest
    | none =>
      with_max_res_go m res (some ⟨e.date, Time.reduce_to e.time res, e.x⟩) rest

def with_max_res {P : Type} (m : P → P → P) (res : Resolution)
    (xs : List (Entry P)) : List (Entry P) :=
  with_max_res_go m res none xs

/-- `CompactedData::discard` (src/data.rs): remove the leading entries
whose date is at most `up_to` (`position(|x| x.0 > up_to)` then drain
that prefix). -/
def discard {P : Type} (l : List (Entry P)) (up_to : Int) : List (Entry P) :=
  l.drop (l.findIdx (fun e => decide (up_to < e.date)))

/-- The scanning loop of `CompactedData::compact`: skip entries already
at or below the target resolution, stop at the first remaining entry
beyond `up_to`, and record the first and last index that need
reducing. -/
def compactScan {P : Type} (up_to : Int) (res : Resolution) :
    List (Entry P) → Nat → Option Nat → Option Nat → Option Nat × Option Nat
  | [], _, s, en => (s, en)
  | e :: rest, i, s, en =>
    if (Time.resolution e.time).lin ≤ res.lin then
      compactScan up_to res rest (i + 1) s en
    else if up_to < e.date then (s, en)
    else compactScan up_to res rest (i + 1) (some (s.getD i)) (some i)

/-- `CompactedData::compact` (src/data.rs): reduce the resolution of
all entries up to `up_to` to at most `res`, merging entries that land
on the same (date, time) key.  The drained slice `start..=end` is
replaced by its `with_max_res` image.  The source's trailing sanity
check (every entry dated `≤ up_to` now has resolution `≤ res`) is
proved below rather than modelled as a runtime assertion. -/
def compact {P : Type} (m : P → P → P) (l : List (Entry P)) (up_to : Int)
    (res : Resolution) : List (Entry P) :=
  match compactScan up_to res l 0 none none with
  | (some s, some en) =>
    l.take s ++ with_max_res m res ((l.drop s).take (en + 1 - s)) ++
      l.drop (en + 1)
  | _ => l

/-- `CompactedData::apply_policy` (src/data.rs): discard everything
older than the retention horizon, then apply each compaction rule in
order. -/
def apply_policy {P : Type} (m : P → P → P) (l : List (Entry P))
    (policy : Policy) (d : Int) : List (Entry P) :=
  (policy.compaction_rules.foldl
    (fun acc dr => compact m acc (d - dr.1) dr.2)
    (discard l (d - policy.max_retention)))

/-- The user-facing buffer (src/compactor.rs). -/
structure Compactor (P : Type) where
  policy : Policy
  data : List (Entry P)
  deriving Repr, DecidableEq

inductive PushError where
  | NonMonotonic
  deriving DecidableEq, Repr

/-- `From<Policy> for Compactor`: a fresh compactor with empty data. -/
def Compactor.init {P : Type} (p : Policy) : Compactor P :=
  { policy := p, data := [] }

/-- `Compactor::iter` yields the stored entries oldest to newest. -/
def Compactor.iter {P : Type} (c : Compactor P) : List (Entry P) :=
  c.data

/-- `Compactor::push` (src/compactor.rs).  Returns `none` where the
source panics (the `expect("Compacted head")` on an incomparable
same-day time), and otherwise the state after the call together with
the reported error, if any; the error paths return before any
mutation, so they carry the input state unchanged. -/
def Compactor.push {P : Type} (m : P → P → P) (c : Compactor P) (d : Int)
    (t : Nat) (x : P) : Option (Compactor P × Option PushError) :=
  let time := Time.reduce_to t c.policy.max_res
  match c.data.getLast? with
  | none => some ({ c with data := c.data ++ [⟨d, time, x⟩] }, none)
  | some last =>
    match cmpI last.date d with
    | .gt => some (c, some .NonMonotonic)
    | .lt =>
      some ({ c with
                data := apply_policy m (c.data ++ [⟨d, time, x⟩]) c.policy d },
            none)
    | .eq =>
      match Time.pcmp last.time time with
      | none => none
      | some .lt => some ({ c with data := c.data ++ [⟨d, time, x⟩] }, none)
      | some .eq =>
        some ({ c with
                  data := c.data.dropLast ++ [⟨last.date, last.time, m last.x x⟩] },
              none)
      | some .gt => some (c, some .NonMonotonic)

/-- Modelled from the spec: `update_date` is named in the spec (§4.5,
§6) but its body is not among the sources under src/ — "if `date` is
strictly greater than the last entry's date, run
`apply_policy(policy, date)`"; on an empty buffer there is no last
entry and nothing happens. -/
def Compactor.update_date {P : Type} (m : P → P → P) (c : Compactor P)
    (d : Int) : Compactor P :=
  match c.data.getLast? with
  | some last =>
    if last.date < d then
      { c with data := apply_policy m c.data c.policy d }
    else c
  | none => c

/-- One mutating operation on a compactor. -/
inductive Op (P : Type) where
  | push (d : Int) (t : Nat) (x : P)
  | advance (d : Int)

/-- Run a sequence of operations the way a Rust caller would: a push
that returns `Err` leaves the compactor unchanged and the program
continues; a panic (`none`) aborts. -/
def runOps {P : Type} (m : P → P → P) (c : Compactor P) :
    List (Op P) → Option (Compactor P)
  | [] => some c
  | .push d t x :: rest =>
    match Compactor.push m c d t x with
    | none => none
    | some (c', _) => runOps m c' rest
  | .advance d :: rest => runOps m (Compactor.update_date m c d) rest

/-- Run a sequence of pushes requiring every single one to return `Ok`. -/
def runPushesOk {P : Type} (m : P → P → P) (c : Compactor P) :
    List (Entry P) → Option (Compactor P)
  | [] => some c
  | e :: rest =>
    match Compactor.push m c e.date e.time e.x with
    | some (c', none) => runPushesOk m c' rest
    | _ => none

/-- Half-day marker (src/datetime/types.rs). -/
inductive AmPm where
  | AM
  | PM
  deriving DecidableEq, Repr, Fintype

def AmPm.toNat : AmPm → Nat
  | .AM => 0
  | .PM => 1

def AmPm.fromBits : Nat → Option AmPm
  | 0 => some .AM
  | 1 => some .PM
  | _ => none

/-- Six-hour period (src/datetime/types.rs); called `SixHour` there and
stored in the `TimeOfDay` resolution slot. -/
inductive SixHour where
  | Night
  | Morning
  | Afternoon
  | Evening
  deriving DecidableEq, Repr, Fintype

def SixHour.toNat : SixHour → Nat
  | .Night => 0
  | .Morning => 1
  | .Afternoon => 2
  | .Evening => 3

def SixHour.fromBits : Nat → Option SixHour
  | 0 => some .Night
  | 1 => some .Morning
  | 2 => some .Afternoon
  | 3 => some .Evening
  | _ => none

/-- `set_res_bits` (src/datetime/time.rs): clear the data-bit field of
`res` (the source masks with `!((!(u32::MAX << n_bits)) << (tz + 1))`,
i.e. subtracts the field's current contribution), write the next
mixed-radix digit of `x` there (the or of a value below `2^n_bits` into
a cleared field is an addition), and divide `x` by the subdivision. -/
def Time.set_res_bits (bits : Nat) (res : Resolution) (x : Nat) : Nat × Nat :=
  (bits - bits / 2 ^ (res.trailing_zeros + 1) % 2 ^ res.n_bits *
      2 ^ (res.trailing_zeros + 1) +
    x % res.subdivision * 2 ^ (res.trailing_zeros + 1),
   x / res.subdivision)

/-- `Time::from_bits`: expects data bits in position with no marker;
masks the low bits and plants the marker (`x &= u32::MAX << tz;
x |= 1 << tz`), which is exactly `coarsen`. -/
def Time.from_bits (x : Nat) (res : Resolution) : Nat :=
  Time.coarsen x res.trailing_zeros

def Time.try_with_am_pm (t : Nat) (a : AmPm) : Option Nat :=
  if Time.resolution t ≠ .Day then none
  else
    let s1 := Time.set_res_bits t .AmPm a.toNat
    some (Time.from_bits s1.1 .AmPm)

def Time.try_with_time_of_day (t : Nat) (a : SixHour) : Option Nat :=
  if Time.resolution t ≠ .Day then none
  else
    let s1 := Time.set_res_bits t .TimeOfDay a.toNat
    let s2 := Time.set_res_bits s1.1 .AmPm s1.2
    some (Time.from_bits s2.1 .TimeOfDay)

def Time.try_with_hour (t : Nat) (h : Nat) : Option Nat :=
  if 23 < h then none
  else if Time.resolution t ≠ .Day then none
  else
    let s1 := Time.set_res_bits t .Hour h
    let s2 := Time.set_res_bits s1.1 .ThreeHour s1.2
    let s3 := Time.set_res_bits s2.1 .TimeOfDay s2.2
    let s4 := Time.set_res_bits s3.1 .AmPm s3.2
    some (Time.from_bits s4.1 .Hour)

def Time.try_with_minute (t : Nat) (v : Nat) : Option Nat :=
  if 59 < v then none
  else if Time.resolution t ≠ .Hour then none
  else
    let s1 := Time.set_res_bits t .Minute v
    let s2 := Time.set_res_bits s1.1 .FiveMinute s1.2
    let s3 := Time.set_res_bits s2.1 .FifteenMinute s2.2
    let s4 := Time.set_res_bits s3.1 .ThirtyMinute s3.2
    some (Time.from_bits s4.1 .Minute)

def Time.try_with_second (t : Nat) (v : Nat) : Option Nat :=
  if 59 < v then none
  else if Time.resolution t ≠ .Minute then none
  else
    let s1 := Time.set_res_bits t .Second v
    let s2 := Time.set_res_bits s1.1 .FiveSecond s1.2
    let s3 := Time.set_res_bits s2.1 .FifteenSecond s2.2
    let s4 := Time.set_res_bits s3.1 .ThirtySecond s3.2
    some (Time.from_bits s4.1 .Second)

def Time.try_with_millis (t : Nat) (v : Nat) : Option Nat :=
  if 999 < v then none
  else if Time.resolution t ≠ .Second then none
  else
    let s1 := Time.set_res_bits t .Millisecond v
    let s2 := Time.set_res_bits s1.1 .FiveMilli s1.2
    let s3 := Time.set_res_bits s2.1 .TenMilli s2.2
    let s4 := Time.set_res_bits s3.1 .FiftyMilli s3.2
    let s5 := Time.set_res_bits s4.1 .HundredMilli s4.2
    let s6 := Time.set_res_bits s5.1 .FiveHundredMilli s5.2
    some (Time.from_bits s6.1 .Millisecond)

def Time.with_am_pm (t : Nat) (a : AmPm) : Nat :=
  (Time.try_with_am_pm t a).getD t

def Time.with_time_of_day (t : Nat) (a : SixHour) : Nat :=
  (Time.try_with_time_of_day t a).getD t

def Time.with_hour (t : Nat) (h : Nat) : Nat :=
  (Time.try_with_hour t h).getD t

def Time.with_minute (t : Nat) (v : Nat) : Nat :=
  (Time.try_with_minute t v).getD t

def Time.with_second (t : Nat) (v : Nat) : Nat :=
  (Time.try_with_second t v).getD t

def Time.with_millis (t : Nat) (v : Nat) : Nat :=
  (Time.try_with_millis t v).getD t

/-- `Time::add_res`: multiply the accumulator by the subdivision and,
when the word carries this resolution, add its field
(`self >> (tz + 1) & !(u32::MAX << n_bits)`). -/
def Time.add_res (t : Nat) (res : Resolution) (x : Nat) : Nat :=
  if res.lin ≤ (Time.resolution t).lin then
    x * res.subdivision + t / 2 ^ (res.trailing_zeros + 1) % 2 ^ res.n_bits
  else
    x * res.subdivision

def Time.hour (t : Nat) : Nat :=
  Time.add_res t .Hour (Time.add_res t .ThreeHour
    (Time.add_res t .TimeOfDay (Time.add_res t .AmPm 0)))

def Time.minute (t : Nat) : Nat :=
  Time.add_res t .Minute (Time.add_res t .FiveMinute
    (Time.add_res t .FifteenMinute (Time.add_res t .ThirtyMinute 0)))

def Time.second (t : Nat) : Nat :=
  Time.add_res t .Second (Time.add_res t .FiveSecond
    (Time.add_res t .FifteenSecond (Time.add_res t .ThirtySecond 0)))

def Time.millis (t : Nat) : Nat :=
  Time.add_res t .Millisecond (Time.add_res t .FiveMilli
    (Time.add_res t .TenMilli (Time.add_res t .FiftyMilli
      (Time.add_res t .HundredMilli (Time.add_res t .FiveHundredMilli 0)))))

/-- `Time::am_pm`: `None` when the word is coarser than half-day
resolution; otherwise decode the half-day bit (the source converts with
`try_into().unwrap()`, which cannot fail on a 1-bit field). -/
def Time.am_pm (t : Nat) : Option AmPm :=
  if (Time.resolution t).lin < Resolution.AmPm.lin then none
  else AmPm.fromBits (Time.add_res t .AmPm 0)

/-- `Time::time_of_day`: `None` when the word is coarser than half-day
resolution; otherwise decode the half-day and six-hour bits. -/
def Time.time_of_day (t : Nat) : Option SixHour :=
  if (Time.resolution t).lin < Resolution.AmPm.lin then none
  else SixHour.fromBits (Time.add_res t .TimeOfDay (Time.add_res t .AmPm 0))

/-- C9: for every resolution with a finer neighbour, the finer width
times its subdivision gives back this width; and for every coarser /
finer pair, the resolution quotient is exactly the ratio of widths in
integer arithmetic (the division is exact). -/
theorem c9_width_ratio_and_quotient :
    (∀ r s : Resolution, Resolution.finer r = some s →
      s.width * s.subdivision = r.width) ∧
    (∀ a b : Resolution, a.lin < b.lin →
      Resolution.div a b = a.width / b.width ∧
        b.width * Resolution.div a b = a.width) := by
  constructor
  · intro r s
    cases r <;> cases s <;> decide
  · intro a b
    cases a <;> cases b <;> decide

theorem c9_witness :
    Resolution.AmPm.width * Resolution.AmPm.subdivision = Resolution.Day.width ∧
    Resolution.div .Day .Hour = Resolution.Day.width / Resolution.Hour.width :=
  ⟨c9_width_ratio_and_quotient.1 .Day .AmPm (by decide),
   (c9_width_ratio_and_quotient.2 .Day .Hour (by decide)).1⟩

/-- C10: the resolution quotient is total and degenerates to 1 whenever
the left operand is not strictly coarser than the right one; in
particular `Second / Minute = 1` and `r / r = 1` for every `r`. -/
theorem c10_degenerate_quotient :
    (∀ a b : Resolution, ¬a.lin < b.lin → Resolution.div a b = 1) ∧
    Resolution.div .Second .Minute = 1 ∧
    (∀ r : Resolution, Resolution.div r r = 1) := by
  refine ⟨?_, by decide, ?_⟩
  · intro a b
    cases a <;> cases b <;> decide
  · intro r
    cases r <;> decide

theorem c10_witness : Resolution.div .Millisecond .Day = 1 :=
  c10_degenerate_quotient.1 .Millisecond .Day (by decide)

/-- C7 counterexample: the claimed identity
`resolution(Time::default().reduce_to(r)) = r` fails at `r = Hour`:
`Time::default()` is `WHOLE_DAY`, the coarsest value, and `reduce_to`
never refines, so the result keeps `Day` resolution. -/
theorem c7_counterexample :
    Time.resolution (Time.reduce_to Time.WHOLE_DAY .Hour) = .Day ∧
      Resolution.Day ≠ .Hour := by
  exact ⟨by decide, by decide⟩

/-- C7 (amended): `reduce_to` leaves the word unchanged when the target
is at least as fine as the current resolution; otherwise it clears the
bits below the target marker position and plants the marker there
(`coarsen`), making the resolution exactly the target;
`from_trailing_zeros(trailing_zeros(r)) = r` for every resolution; and
`resolution(Time::default().reduce_to(r))` is always `Day` (the
default is the coarsest value, so the claimed identity holds only at
`r = Day`). -/
theorem c7_reduce_to_and_trailing_zero_identity :
    (∀ (t : Nat) (r : Resolution), Time.Wf t →
      (Time.resolution t).lin ≤ r.lin → Time.reduce_to t r = t) ∧
    (∀ (t : Nat) (r : Resolution), Time.Wf t →
      r.lin < (Time.resolution t).lin →
      Time.reduce_to t r = Time.coarsen t r.trailing_zeros ∧
        Time.resolution (Time.reduce_to t r) = r) ∧
    (∀ r : Resolution, Time.resolution (Time.reduce_to Time.WHOLE_DAY r) = .Day) ∧
    (∀ r : Resolution, Resolution.from_trailing_zeros r.trailing_zeros = some r) := by
  refine ⟨?_, ?_, ?_, ?_⟩
  · intro t r _ h
    exact reduce_to_of_le t r h
  · intro t r ht h
    exact ⟨reduce_to_of_gt t r h, reduce_to_res_of_gt t r ht h⟩
  · intro r
    cases r <;> decide
  · exact Resolution.from_trailing_zeros_trailing_zeros

theorem c7_witness :
    Time.reduce_to (2 ^ 26) .Second = 2 ^ 26 ∧
    Time.reduce_to (2 ^ 12) .Hour = 2 ^ 26 ∧
    Time.resolution (Time.reduce_to (2 ^ 12) .Hour) = .Hour := by
  refine ⟨?_, ?_, ?_⟩
  · exact c7_reduce_to_and_trailing_zero_identity.1 (2 ^ 26) .Second
      (by decide) (by decide)
  · have h := (c7_reduce_to_and_trailing_zero_identity.2.1 (2 ^ 12) .Hour
      (by decide) (by decide)).1
    rw [h]
    decide
  · exact (c7_reduce_to_and_trailing_zero_identity.2.1 (2 ^ 12) .Hour
      (by decide) (by decide)).2

theorem insertDesc_ne_nil (x : Nat × Resolution) (l : List (Nat × Resolution)) :
    insertDesc x l ≠ [] := by
  cases l with
  | nil => simp [insertDesc]
  | cons y ys =>
    unfold insertDesc
    split <;> simp

theorem sortDesc_ne_nil (l : List (Nat × Resolution)) (h : l ≠ []) :
    sortDesc l ≠ [] := by
  cases l with
  | nil => exact absurd rfl h
  | cons x xs => exact insertDesc_ne_nil x (sortDesc xs)

theorem dedupRules_ne_nil (l : List (Nat × Resolution)) (h : l ≠ []) :
    dedupRules l ≠ [] := by
  induction l with
  | nil => exact absurd rfl h
  | cons x xs ih =>
    cases xs with
    | nil => simp [dedupRules]
    | cons y ys =>
      unfold dedupRules
      split
      · exact ih (by simp)
      · simp

theorem insertDesc_mem (a x : Nat × Resolution) (l : List (Nat × Resolution)) :
    a ∈ insertDesc x l ↔ a = x ∨ a ∈ l := by
  induction l with
  | nil => simp [insertDesc]
  | cons y ys ih =>
    unfold insertDesc
    by_cases hc : ruleLe x y
    · rw [if_pos hc, List.mem_cons, ih, List.mem_cons]
      tauto
    · rw [if_neg hc]
      simp [List.mem_cons]

theorem sortDesc_mem (a : Nat × Resolution) (l : List (Nat × Resolution)) :
    a ∈ sortDesc l ↔ a ∈ l := by
  induction l with
  | nil => simp [sortDesc]
  | cons x xs ih =>
    show a ∈ insertDesc x (sortDesc xs) ↔ _
    rw [insertDesc_mem, ih]
    simp

theorem dedupRules_subset (a : Nat × Resolution) (l : List (Nat × Resolution))
    (h : a ∈ dedupRules l) : a ∈ l := by
  induction l with
  | nil => simpa [dedupRules] using h
  | cons x xs ih =>
    cases xs with
    | nil => simpa [dedupRules] using h
    | cons y ys =>
      unfold dedupRules at h
      split at h
      · exact List.mem_cons.mpr (Or.inr (ih h))
      · rcases List.mem_cons.mp h with h1 | h1
        · exact List.mem_cons.mpr (Or.inl h1)
        · exact List.mem_cons.mpr (Or.inr (ih h1))

theorem build_empty : Policy.build [] = .error .ZeroRetention := rfl

theorem build_zero_days (rules : List (Nat × Resolution)) (h0 : rules ≠ [])
    (hz : ∃ p ∈ rules, p.1 = 0) :
    Policy.build rules = .error .PolicyAppliesForZeroDays := by
  obtain ⟨p, hp, hp0⟩ := hz
  unfold Policy.build
  rw [if_neg (by simpa [List.isEmpty_iff] using h0)]
  rw [if_pos (List.any_eq_true.mpr ⟨p, hp, by simp [hp0]⟩)]

theorem build_not_asc (rules : List (Nat × Resolution)) (h0 : rules ≠ [])
    (hz : ∀ p ∈ rules, p.1 ≠ 0)
    (h3 : resAscend (dedupRules (sortDesc rules)) = false) :
    Policy.build rules = .error .SomePoliciesDominateOthers := by
  unfold Policy.build
  rw [if_neg (by simpa [List.isEmpty_iff] using h0)]
  rw [if_neg (by
    simp only [List.any_eq_true, not_exists, not_and]
    intro p hp hbeq
    exact hz p hp (by simpa using hbeq))]
  split
  · next heq =>
    exact absurd heq (dedupRules_ne_nil _ (sortDesc_ne_nil _ h0))
  · next s0 rest heq =>
    rw [if_neg (by rw [← heq]; simp [h3])]

theorem build_ok_of_asc (rules : List (Nat × Resolution)) (h0 : rules ≠ [])
    (hz : ∀ p ∈ rules, p.1 ≠ 0)
    (h3 : resAscend (dedupRules (sortDesc rules)) = true) :
    ∃ p, Policy.build rules = .ok p := by
  unfold Policy.build
  rw [if_neg (by simpa [List.isEmpty_iff] using h0)]
  rw [if_neg (by
    simp only [List.any_eq_true, not_exists, not_and]
    intro p hp hbeq
    exact hz p hp (by simpa using hbeq))]
  split
  · next heq =>
    exact absurd heq (dedupRules_ne_nil _ (sortDesc_ne_nil _ h0))
  · next s0 rest heq =>
    rw [if_pos (by rw [← heq]; exact h3)]
    exact ⟨_, rfl⟩

/-- C5: `build` fails with `ZeroRetention` exactly on an empty rule
list; otherwise with `PolicyAppliesForZeroDays` exactly when some rule
has 0 days; otherwise with `SomePoliciesDominateOthers` exactly when,
after sorting by descending (days, resolution) and removing exact
duplicates, the resolutions are not ascending in fineness
(`is_sorted_by_key`); in all remaining cases it succeeds. -/
theorem c5_policy_build_classification (rules : List (Nat × Resolution)) :
    (Policy.build rules = .error .ZeroRetention ↔ rules = []) ∧
    (Policy.build rules = .error .PolicyAppliesForZeroDays ↔
      rules ≠ [] ∧ ∃ p ∈ rules, p.1 = 0) ∧
    (Policy.build rules = .error .SomePoliciesDominateOthers ↔
      rules ≠ [] ∧ (∀ p ∈ rules, p.1 ≠ 0) ∧
        resAscend (dedupRules (sortDesc rules)) = false) ∧
    ((∃ p, Policy.build rules = .ok p) ↔
      rules ≠ [] ∧ (∀ p ∈ rules, p.1 ≠ 0) ∧
        resAscend (dedupRules (sortDesc rules)) = true) := by
  rcases eq_or_ne rules [] with h0 | h0
  · subst h0
    refine ⟨iff_of_true build_empty rfl, ?_, ?_, ?_⟩
    · rw [build_empty]
      constructor
      · intro h
        simp at h
      · rintro ⟨h, -⟩
        exact absurd rfl h
    · rw [build_empty]
      constructor
      · intro h
        simp at h
      · rintro ⟨h, -⟩
        exact absurd rfl h
    · rw [build_empty]
      constructor
      · rintro ⟨p, hp⟩
        simp at hp
      · rintro ⟨h, -⟩
        exact absurd rfl h
  · by_cases hzero : ∃ p ∈ rules, p.1 = 0
    · have hb := build_zero_days rules h0 hzero
      rw [hb]
      obtain ⟨p, hp, hp0⟩ := hzero
      refine ⟨?_, iff_of_true rfl ⟨h0, p, hp, hp0⟩, ?_, ?_⟩
      · constructor
        · intro h
          simp at h
        · intro h
          exact absurd h h0
      · constructor
        · intro h
          simp at h
        · rintro ⟨-, hall, -⟩
          exact absurd hp0 (hall p hp)
      · constructor
        · rintro ⟨q, hq⟩
          simp at hq
        · rintro ⟨-, hall, -⟩
          exact absurd hp0 (hall p hp)
    · push_neg at hzero
      cases hasc : resAscend (dedupRules (sortDesc rules)) with
      | false =>
        have hb := build_not_asc rules h0 hzero hasc
        rw [hb]
        refine ⟨?_, ?_, iff_of_true rfl ⟨h0, hzero, rfl⟩, ?_⟩
        · constructor
          · intro h
            simp at h
          · intro h
            exact absurd h h0
        · constructor
          · intro h
            simp at h
          · rintro ⟨-, q, hq, hq0⟩
            exact absurd hq0 (hzero q hq)
        · constructor
          · rintro ⟨q, hq⟩
            simp at hq
          · rintro ⟨-, -, htrue⟩
            exact absurd htrue (by simp [hasc])
      | true =>
        obtain ⟨p, hb⟩ := build_ok_of_asc rules h0 hzero hasc
        rw [hb]
        refine ⟨?_, ?_, ?_, iff_of_true ⟨p, rfl⟩ ⟨h0, hzero, rfl⟩⟩
        · constructor
          · intro h
            simp at h
          · intro h
            exact absurd h h0
        · constructor
          · intro h
            simp at h
          · rintro ⟨-, q, hq, hq0⟩
            exact absurd hq0 (hzero q hq)
        · constructor
          · intro h
            simp at h
          · rintro ⟨-, -, hfalse⟩
            exact absurd hfalse (by simp [hasc])

theorem c5_witness :
    (Policy.build [(5, .Hour), (2, .AmPm)] = .error .SomePoliciesDominateOthers) ∧
    (Policy.build [] = .error .ZeroRetention) ∧
    (Policy.build [(0, .Day)] = .error .PolicyAppliesForZeroDays) ∧
    (∃ p, Policy.build [(1, .AmPm), (2, .Day)] = .ok p) := by
  refine ⟨?_, ?_, ?_, ?_⟩
  · exact (c5_policy_build_classification [(5, .Hour), (2, .AmPm)]).2.2.1.mpr
      ⟨by simp, by decide, by decide⟩
  · exact (c5_policy_build_classification []).1.mpr rfl
  · exact (c5_policy_build_classification [(0, .Day)]).2.1.mpr
      ⟨by simp, (0, .Day), by simp, rfl⟩
  · exact (c5_policy_build_classification [(1, .AmPm), (2, .Day)]).2.2.2.mpr
      ⟨by simp, by decide, by decide⟩

/-- C3: `push` reports `NonMonotonic` exactly when the buffer is
non-empty and either the pushed date is before the last entry's date,
or the dates are equal and the clamped time is strictly below the last
entry's time at equal resolution; and an erroring push returns the
compactor unchanged. -/
theorem c3_push_error_characterization (P : Type) (m : P → P → P)
    (c : Compactor P) (d : Int) (t : Nat) (x : P) :
    (Compactor.push m c d t x = some (c, some .NonMonotonic) ↔
      ∃ last, c.data.getLast? = some last ∧
        (d < last.date ∨
          (last.date = d ∧
            Time.tz (Time.reduce_to t c.policy.max_res) = Time.tz last.time ∧
            Time.reduce_to t c.policy.max_res < last.time))) ∧
    (∀ (c' : Compactor P) (e : PushError),
      Compactor.push m c d t x = some (c', some e) →
        c' = c ∧ e = .NonMonotonic) := by
  unfold Compactor.push
  rcases hl : c.data.getLast? with - | last
  · simp
  · simp only []
    rcases hcmp : cmpI last.date d with - | - | -
    · -- last.date < d: new-day path, no error
      have hdate := (cmpI_lt_iff _ _).mp hcmp
      constructor
      · constructor
        · intro h
          simp at h
        · rintro ⟨last', hlast', hcase⟩
          injection hlast' with heq
          subst heq
          rcases hcase with h1 | ⟨h1, -⟩ <;> omega
      · intro c' e h
        simp at h
    · -- same date: look at the time comparison
      have hdate := (cmpI_eq_iff _ _).mp hcmp
      rcases hp : Time.pcmp last.time (Time.reduce_to t c.policy.max_res)
        with - | ord
      · -- incomparable resolutions: panic, no error value
        unfold Time.pcmp at hp
        constructor
        · constructor
          · intro h
            simp at h
          · rintro ⟨last', hlast', hcase⟩
            injection hlast' with heq
            subst heq
            rcases hcase with h1 | ⟨-, h2, -⟩
            · omega
            · rw [if_pos h2.symm] at hp
              cases hp
        · intro c' e h
          simp at h
      · unfold Time.pcmp at hp
        by_cases htz : Time.tz last.time = Time.tz (Time.reduce_to t c.policy.max_res)
        case neg =>
          rw [if_neg htz] at hp
          cases hp
        case pos =>
          rw [if_pos htz] at hp
          injection hp with hp
          subst hp
          cases hord : cmpN last.time (Time.reduce_to t c.policy.max_res) with
          | lt =>
            have := (cmpN_lt_iff _ _).mp hord
            constructor
            · constructor
              · intro h
                simp at h
              · rintro ⟨last', hlast', hcase⟩
                injection hlast' with heq
                subst heq
                rcases hcase with h1 | ⟨-, -, h3⟩ <;> omega
            · intro c' e h
              simp at h
          | eq =>
            have := (cmpN_eq_iff _ _).mp hord
            constructor
            · constructor
              · intro h
                simp at h
              · rintro ⟨last', hlast', hcase⟩
                injection hlast' with heq
                subst heq
                rcases hcase with h1 | ⟨-, -, h3⟩ <;> omega
            · intro c' e h
              simp at h
          | gt =>
            have := (cmpN_gt_iff _ _).mp hord
            constructor
            · constructor
              · intro h
                exact ⟨last, rfl, Or.inr ⟨hdate, htz.symm, this⟩⟩
              · intro h
                rfl
            · intro c' e h
              simp only [Option.some_inj, Prod.mk.injEq] at h
              cases e
              exact ⟨h.1.symm, by trivial⟩
    · -- d < last.date: non-monotonic
      have hdate := (cmpI_gt_iff _ _).mp hcmp
      constructor
      · constructor
        · intro h
          exact ⟨last, rfl, Or.inl hdate⟩
        · intro h
          rfl
      · intro c' e h
        simp only [Option.some_inj, Prod.mk.injEq] at h
        cases e
        exact ⟨h.1.symm, by trivial⟩

theorem c3_witness :
    Compactor.push (fun a b : List Nat => a ++ b)
      { policy := { compaction_rules := [], max_res := .Day, max_retention := 1 },
        data := [⟨3, Time.WHOLE_DAY, [9]⟩] } 2 Time.WHOLE_DAY [1] =
      some ({ policy := { compaction_rules := [], max_res := .Day, max_retention := 1 },
              data := [⟨3, Time.WHOLE_DAY, [9]⟩] }, some .NonMonotonic) :=
  (c3_push_error_characterization (List Nat) (fun a b => a ++ b)
      { policy := { compaction_rules := [], max_res := .Day, max_retention := 1 },
        data := [⟨3, Time.WHOLE_DAY, [9]⟩] } 2 Time.WHOLE_DAY [1]).1.mpr
    ⟨⟨3, Time.WHOLE_DAY, [9]⟩, rfl, Or.inl (by decide)⟩

/-- C1 counterexample: on a freshly built compactor, two same-day
pushes whose clamped times carry different resolutions reach the fatal
"Compacted head" branch (modelled as `none`): the first push stores the
caller-supplied `WHOLE_DAY` (clamping to a finer `max_res` has no
effect on a coarser time), and the second pushes an hour-resolution
time on the same date, so the `PartialOrd` comparison of the two times
is `None` and the source panics instead of returning `Ok` or
`Err(NonMonotonic)`. -/
theorem c1_counterexample :
    Policy.build [(1, .Millisecond)] =
      .ok { compaction_rules := [], max_res := .Millisecond, max_retention := 1 } ∧
    Time.Wf Time.WHOLE_DAY ∧
    Time.Wf (Time.with_hour Time.WHOLE_DAY 13) ∧
    runOps (fun a b : List Nat => a ++ b)
      (Compactor.init
        { compaction_rules := [], max_res := .Millisecond, max_retention := 1 })
      [.push 1 Time.WHOLE_DAY [1], .push 1 (Time.with_hour Time.WHOLE_DAY 13) [2]] =
      none :=
  ⟨rfl, by decide, by decide, rfl⟩

theorem tz_base (z k : Nat) (hz : z < 32) :
    Time.tz (2 ^ z + k * 2 ^ (z + 1)) = z := by
  have hform : 2 ^ z + k * 2 ^ (z + 1) = (2 * k + 1) * 2 ^ z := by
    rw [pow_succ]
    ring
  apply tz_spec _ _ hz
  · rw [hform]
    exact Nat.mul_mod_left _ _
  · rw [hform, Nat.mul_div_cancel _ (Nat.pos_pow_of_pos _ (by norm_num))]
    omega

theorem resolution_base (r : Resolution) (k : Nat) :
    Time.resolution (2 ^ r.trailing_zeros + k * 2 ^ (r.trailing_zeros + 1)) = r := by
  unfold Time.resolution
  rw [tz_base _ _ (Resolution.trailing_zeros_lt_32 r),
    Resolution.from_trailing_zeros_trailing_zeros]
  rfl

/-- Every well-formed word at resolution `r` is a marker bit at the
position of `r` plus data bits strictly above it. -/
theorem res_form (t : Nat) (r : Resolution) (ht : Time.Wf t)
    (hres : Time.resolution t = r) :
    ∃ k, k < 2 ^ (31 - r.trailing_zeros) ∧
      t = 2 ^ r.trailing_zeros + k * 2 ^ (r.trailing_zeros + 1) := by
  have hz : Time.tz t = r.trailing_zeros := by
    rw [← res_tz t ht, hres]
  obtain ⟨hdec, hzlt⟩ := tz_decomp t ht.pos ht.lt32
  refine ⟨t / 2 ^ (Time.tz t + 1), ?_, by rw [← hz]; omega⟩
  rw [hz] at hdec ⊢
  rw [Nat.div_lt_iff_lt_mul (Nat.pos_pow_of_pos _ (by norm_num))]
  calc t < 2 ^ 32 := ht.lt32
  _ = 2 ^ (31 - r.trailing_zeros) * 2 ^ (r.trailing_zeros + 1) := by
      rw [← pow_add]
      congr 1
      have := Resolution.trailing_zeros_lt_32 r
      omega

theorem day_res_unique (t : Nat) (ht : Time.Wf t)
    (hres : Time.resolution t = .Day) : t = 2 ^ 31 := by
  obtain ⟨k, hk, hform⟩ := res_form t .Day ht hres
  have : k = 0 := by
    have h1 : (2 : Nat) ^ (31 - Resolution.Day.trailing_zeros) = 1 := by decide
    omega
  subst this
  simpa using hform

theorem hour_roundtrip_day : ∀ h : Nat, h < 24 →
    (Time.try_with_hour (2 ^ 31) h).map Time.hour = some h := by decide

theorem am_pm_roundtrip_day : ∀ a : AmPm,
    (Time.try_with_am_pm (2 ^ 31) a).map Time.am_pm = some (some a) := by decide

theorem time_of_day_roundtrip_day : ∀ s : SixHour,
    (Time.try_with_time_of_day (2 ^ 31) s).map Time.time_of_day = some (some s) := by
  decide

theorem minute_roundtrip_hour : ∀ k : Nat, k < 32 → ∀ v : Nat, v < 60 →
    (Time.try_with_minute (2 ^ 26 + k * 2 ^ 27) v).map Time.minute = some v := by
  decide

theorem second_eval (k v : Nat) (hk : k < 2 ^ 12) (hv : v ≤ 59) :
    Time.try_with_second (2 ^ 19 + k * 2 ^ 20) v =
      some (2 ^ 12 + v % 5 * 2 ^ 13 + v / 5 % 3 * 2 ^ 16 + v / 5 / 3 % 2 * 2 ^ 18 +
        v / 5 / 3 / 2 % 2 * 2 ^ 19 + k * 2 ^ 20) := by
  have hres : Time.resolution (2 ^ 19 + k * 2 ^ 20) = .Minute := by
    have h := resolution_base .Minute k
    norm_num [Resolution.trailing_zeros] at h
    exact h
  have h1 : Time.set_res_bits (2 ^ 19 + k * 2 ^ 20) .Second v =
      (2 ^ 19 + k * 2 ^ 20 + v % 5 * 2 ^ 13, v / 5) := by
    simp only [Time.set_res_bits, Resolution.trailing_zeros, Resolution.n_bits,
      Resolution.subdivision, Prod.mk.injEq]
    norm_num
    omega
  have h2 : Time.set_res_bits (2 ^ 19 + k * 2 ^ 20 + v % 5 * 2 ^ 13) .FiveSecond (v / 5) =
      (2 ^ 19 + k * 2 ^ 20 + v % 5 * 2 ^ 13 + v / 5 % 3 * 2 ^ 16, v / 5 / 3) := by
    simp only [Time.set_res_bits, Resolution.trailing_zeros, Resolution.n_bits,
      Resolution.subdivision, Prod.mk.injEq]
    norm_num
    omega
  have h3 : Time.set_res_bits
      (2 ^ 19 + k * 2 ^ 20 + v % 5 * 2 ^ 13 + v / 5 % 3 * 2 ^ 16) .FifteenSecond (v / 5 / 3) =
      (2 ^ 19 + k * 2 ^ 20 + v % 5 * 2 ^ 13 + v / 5 % 3 * 2 ^ 16 + v / 5 / 3 % 2 * 2 ^ 18,
        v / 5 / 3 / 2) := by
    simp only [Time.set_res_bits, Resolution.trailing_zeros, Resolution.n_bits,
      Resolution.subdivision, Prod.mk.injEq]
    norm_num
    have hd : (524288 + k * 1048576 + v % 5 * 8192 + v / 5 % 3 * 65536) / 262144 =
        2 + 4 * k := by
      have hsplit : 524288 + k * 1048576 + v % 5 * 8192 + v / 5 % 3 * 65536 =
          (v % 5 * 8192 + v / 5 % 3 * 65536) + (2 + 4 * k) * 262144 := by ring
      rw [hsplit, Nat.add_mul_div_right _ _ (by norm_num : (0:Nat) < 262144),
        Nat.div_eq_of_lt (by omega)]
      omega
    omega
  have h4 : Time.set_res_bits
      (2 ^ 19 + k * 2 ^ 20 + v % 5 * 2 ^ 13 + v / 5 % 3 * 2 ^ 16 + v / 5 / 3 % 2 * 2 ^ 18)
      .ThirtySecond (v / 5 / 3 / 2) =
      (k * 2 ^ 20 + v % 5 * 2 ^ 13 + v / 5 % 3 * 2 ^ 16 + v / 5 / 3 % 2 * 2 ^ 18 +
        v / 5 / 3 / 2 % 2 * 2 ^ 19, v / 5 / 3 / 2 / 2) := by
    simp only [Time.set_res_bits, Resolution.trailing_zeros, Resolution.n_bits,
      Resolution.subdivision, Prod.mk.injEq]
    norm_num
    have hd : (524288 + k * 1048576 + v % 5 * 8192 + v / 5 % 3 * 65536 +
        v / 5 / 3 % 2 * 262144) / 524288 = 1 + 2 * k := by
      have hsplit : 524288 + k * 1048576 + v % 5 * 8192 + v / 5 % 3 * 65536 +
          v / 5 / 3 % 2 * 262144 =
          (v % 5 * 8192 + v / 5 % 3 * 65536 + v / 5 / 3 % 2 * 262144) +
            (1 + 2 * k) * 524288 := by ring
      rw [hsplit, Nat.add_mul_div_right _ _ (by norm_num : (0:Nat) < 524288),
        Nat.div_eq_of_lt (by omega)]
      omega
    omega
  have h5 : Time.from_bits
      (k * 2 ^ 20 + v % 5 * 2 ^ 13 + v / 5 % 3 * 2 ^ 16 + v / 5 / 3 % 2 * 2 ^ 18 +
        v / 5 / 3 / 2 % 2 * 2 ^ 19) .Second =
      2 ^ 12 + v % 5 * 2 ^ 13 + v / 5 % 3 * 2 ^ 16 + v / 5 / 3 % 2 * 2 ^ 18 +
        v / 5 / 3 / 2 % 2 * 2 ^ 19 + k * 2 ^ 20 := by
    simp only [Time.from_bits, Time.coarsen, Resolution.trailing_zeros]
    norm_num
    split
    · omega
    · omega
  unfold Time.try_with_second
  rw [if_neg (by omega), if_neg (by rw [hres]; simp)]
  simp only [h1, h2, h3, h4, h5]

theorem second_read (k v : Nat) (hk : k < 2 ^ 12) (hv : v ≤ 59) :
    Time.second (2 ^ 12 + v % 5 * 2 ^ 13 + v / 5 % 3 * 2 ^ 16 + v / 5 / 3 % 2 * 2 ^ 18 +
      v / 5 / 3 / 2 % 2 * 2 ^ 19 + k * 2 ^ 20) = v := by
  set T := 2 ^ 12 + v % 5 * 2 ^ 13 + v / 5 % 3 * 2 ^ 16 + v / 5 / 3 % 2 * 2 ^ 18 +
      v / 5 / 3 / 2 % 2 * 2 ^ 19 + k * 2 ^ 20 with hT
  have hres : Time.resolution T = .Second := by
    have hTform : T = 2 ^ Resolution.Second.trailing_zeros +
        (v % 5 + v / 5 % 3 * 2 ^ 3 + v / 5 / 3 % 2 * 2 ^ 5 + v / 5 / 3 / 2 % 2 * 2 ^ 6 +
          k * 2 ^ 7) * 2 ^ (Resolution.Second.trailing_zeros + 1) := by
      rw [hT]
      simp only [Resolution.trailing_zeros]
      ring
    rw [hTform]
    exact resolution_base .Second _
  have hd13 : T / 8192 = v % 5 + v / 5 % 3 * 8 + v / 5 / 3 % 2 * 32 +
      v / 5 / 3 / 2 % 2 * 64 + k * 128 := by
    rw [hT]
    have hsplit : 2 ^ 12 + v % 5 * 2 ^ 13 + v / 5 % 3 * 2 ^ 16 + v / 5 / 3 % 2 * 2 ^ 18 +
        v / 5 / 3 / 2 % 2 * 2 ^ 19 + k * 2 ^ 20 =
        2 ^ 12 + (v % 5 + v / 5 % 3 * 8 + v / 5 / 3 % 2 * 32 +
          v / 5 / 3 / 2 % 2 * 64 + k * 128) * 8192 := by ring
    rw [hsplit, Nat.add_mul_div_right _ _ (by norm_num : (0:Nat) < 8192),
      Nat.div_eq_of_lt (by norm_num)]
    omega
  have hd16 : T / 65536 = v / 5 % 3 + v / 5 / 3 % 2 * 4 + v / 5 / 3 / 2 % 2 * 8 + k * 16 := by
    rw [hT]
    have hsplit : 2 ^ 12 + v % 5 * 2 ^ 13 + v / 5 % 3 * 2 ^ 16 + v / 5 / 3 % 2 * 2 ^ 18 +
        v / 5 / 3 / 2 % 2 * 2 ^ 19 + k * 2 ^ 20 =
        (2 ^ 12 + v % 5 * 2 ^ 13) + (v / 5 % 3 + v / 5 / 3 % 2 * 4 +
          v / 5 / 3 / 2 % 2 * 8 + k * 16) * 65536 := by ring
    rw [hsplit, Nat.add_mul_div_right _ _ (by norm_num : (0:Nat) < 65536),
      Nat.div_eq_of_lt (by omega)]
    omega
  have hd18 : T / 262144 = v / 5 / 3 % 2 + v / 5 / 3 / 2 % 2 * 2 + k * 4 := by
    rw [hT]
    have hsplit : 2 ^ 12 + v % 5 * 2 ^ 13 + v / 5 % 3 * 2 ^ 16 + v / 5 / 3 % 2 * 2 ^ 18 +
        v / 5 / 3 / 2 % 2 * 2 ^ 19 + k * 2 ^ 20 =
        (2 ^ 12 + v % 5 * 2 ^ 13 + v / 5 % 3 * 2 ^ 16) + (v / 5 / 3 % 2 +
          v / 5 / 3 / 2 % 2 * 2 + k * 4) * 262144 := by ring
    rw [hsplit, Nat.add_mul_div_right _ _ (by norm_num : (0:Nat) < 262144),
      Nat.div_eq_of_lt (by omega)]
    omega
  have hd19 : T / 524288 = v / 5 / 3 / 2 % 2 + k * 2 := by
    rw [hT]
    have hsplit : 2 ^ 12 + v % 5 * 2 ^ 13 + v / 5 % 3 * 2 ^ 16 + v / 5 / 3 % 2 * 2 ^ 18 +
        v / 5 / 3 / 2 % 2 * 2 ^ 19 + k * 2 ^ 20 =
        (2 ^ 12 + v % 5 * 2 ^ 13 + v / 5 % 3 * 2 ^ 16 + v / 5 / 3 % 2 * 2 ^ 18) +
          (v / 5 / 3 / 2 % 2 + k * 2) * 524288 := by ring
    rw [hsplit, Nat.add_mul_div_right _ _ (by norm_num : (0:Nat) < 524288),
      Nat.div_eq_of_lt (by omega)]
    omega
  simp only [Time.second, Time.add_res, hres, Resolution.lin, Resolution.trailing_zeros,
    Resolution.n_bits, Resolution.subdivision]
  norm_num
  have hm13 : T / 8192 % 8 = v % 5 := by omega
  have hm16 : T / 65536 % 4 = v / 5 % 3 := by omega
  have hm18 : T / 262144 % 2 = v / 5 / 3 % 2 := by omega
  have hm19 : T / 524288 % 2 = v / 5 / 3 / 2 % 2 := by omega
  rw [hm13, hm16, hm18, hm19]
  omega

theorem second_roundtrip_minute (k v : Nat) (hk : k < 2 ^ 12) (hv : v < 60) :
    (Time.try_with_second (2 ^ 19 + k * 2 ^ 20) v).map Time.second = some v := by
  rw [second_eval k v hk (by omega), Option.map_some', second_read k v hk (by omega)]

theorem millis_eval (k v : Nat) (hk : k < 2 ^ 19) (hv : v ≤ 999) :
    Time.try_with_millis (2 ^ 12 + k * 2 ^ 13) v =
      some (1 + v % 5 * 2 + v / 5 % 2 * 2 ^ 4 + v / 5 / 2 % 5 * 2 ^ 5 +
        v / 5 / 2 / 5 % 2 * 2 ^ 8 + v / 5 / 2 / 5 / 2 % 5 * 2 ^ 9 +
        v / 5 / 2 / 5 / 2 / 5 % 2 * 2 ^ 12 + k * 2 ^ 13) := by
  have hres : Time.resolution (2 ^ 12 + k * 2 ^ 13) = .Second := by
    have h := resolution_base .Second k
    norm_num [Resolution.trailing_zeros] at h
    exact h
  have h1 : Time.set_res_bits (2 ^ 12 + k * 2 ^ 13) .Millisecond v =
      (2 ^ 12 + k * 2 ^ 13 + v % 5 * 2, v / 5) := by
    simp only [Time.set_res_bits, Resolution.trailing_zeros, Resolution.n_bits,
      Resolution.subdivision, Prod.mk.injEq]
    norm_num
    omega
  have h2 : Time.set_res_bits (2 ^ 12 + k * 2 ^ 13 + v % 5 * 2) .FiveMilli (v / 5) =
      (2 ^ 12 + k * 2 ^ 13 + v % 5 * 2 + v / 5 % 2 * 2 ^ 4, v / 5 / 2) := by
    simp only [Time.set_res_bits, Resolution.trailing_zeros, Resolution.n_bits,
      Resolution.subdivision, Prod.mk.injEq]
    norm_num
    have hd : (4096 + k * 8192 + v % 5 * 2) / 16 = 256 + k * 512 := by
      have hsplit : 4096 + k * 8192 + v % 5 * 2 =
          v % 5 * 2 + (256 + k * 512) * 16 := by ring
      rw [hsplit, Nat.add_mul_div_right _ _ (by norm_num : (0:Nat) < 16),
        Nat.div_eq_of_lt (by omega)]
      omega
    omega
  have h3 : Time.set_res_bits (2 ^ 12 + k * 2 ^ 13 + v % 5 * 2 + v / 5 % 2 * 2 ^ 4)
      .TenMilli (v / 5 / 2) =
      (2 ^ 12 + k * 2 ^ 13 + v % 5 * 2 + v / 5 % 2 * 2 ^ 4 + v / 5 / 2 % 5 * 2 ^ 5,
        v / 5 / 2 / 5) := by
    simp only [Time.set_res_bits, Resolution.trailing_zeros, Resolution.n_bits,
      Resolution.subdivision, Prod.mk.injEq]
    norm_num
    have hd : (4096 + k * 8192 + v % 5 * 2 + v / 5 % 2 * 16) / 32 = 128 + k * 256 := by
      have hsplit : 4096 + k * 8192 + v % 5 * 2 + v / 5 % 2 * 16 =
          (v % 5 * 2 + v / 5 % 2 * 16) + (128 + k * 256) * 32 := by ring
      rw [hsplit, Nat.add_mul_div_right _ _ (by norm_num : (0:Nat) < 32),
        Nat.div_eq_of_lt (by omega)]
      omega
    omega
  have h4 : Time.set_res_bits
      (2 ^ 12 + k * 2 ^ 13 + v % 5 * 2 + v / 5 % 2 * 2 ^ 4 + v / 5 / 2 % 5 * 2 ^ 5)
      .FiftyMilli (v / 5 / 2 / 5) =
      (2 ^ 12 + k * 2 ^ 13 + v % 5 * 2 + v / 5 % 2 * 2 ^ 4 + v / 5 / 2 % 5 * 2 ^ 5 +
        v / 5 / 2 / 5 % 2 * 2 ^ 8, v / 5 / 2 / 5 / 2) := by
    simp only [Time.set_res_bits, Resolution.trailing_zeros, Resolution.n_bits,
      Resolution.subdivision, Prod.mk.injEq]
    norm_num
    have hd : (4096 + k * 8192 + v % 5 * 2 + v / 5 % 2 * 16 + v / 5 / 2 % 5 * 32) / 256 =
        16 + k * 32 := by
      have hsplit : 4096 + k * 8192 + v % 5 * 2 + v / 5 % 2 * 16 + v / 5 / 2 % 5 * 32 =
          (v % 5 * 2 + v / 5 % 2 * 16 + v / 5 / 2 % 5 * 32) + (16 + k * 32) * 256 := by ring
      rw [hsplit, Nat.add_mul_div_right _ _ (by norm_num : (0:Nat) < 256),
        Nat.div_eq_of_lt (by omega)]
      omega
    omega
  have h5 : Time.set_res_bits
      (2 ^ 12 + k * 2 ^ 13 + v % 5 * 2 + v / 5 % 2 * 2 ^ 4 + v / 5 / 2 % 5 * 2 ^ 5 +
        v / 5 / 2 / 5 % 2 * 2 ^ 8) .HundredMilli (v / 5 / 2 / 5 / 2) =
      (2 ^ 12 + k * 2 ^ 13 + v % 5 * 2 + v / 5 % 2 * 2 ^ 4 + v / 5 / 2 % 5 * 2 ^ 5 +
        v / 5 / 2 / 5 % 2 * 2 ^ 8 + v / 5 / 2 / 5 / 2 % 5 * 2 ^ 9,
        v / 5 / 2 / 5 / 2 / 5) := by
    simp only [Time.set_res_bits, Resolution.trailing_zeros, Resolution.n_bits,
      Resolution.subdivision, Prod.mk.injEq]
    norm_num
    have hd : (4096 + k * 8192 + v % 5 * 2 + v / 5 % 2 * 16 + v / 5 / 2 % 5 * 32 +
        v / 5 / 2 / 5 % 2 * 256) / 512 = 8 + k * 16 := by
      have hsplit : 4096 + k * 8192 + v % 5 * 2 + v / 5 % 2 * 16 + v / 5 / 2 % 5 * 32 +
          v / 5 / 2 / 5 % 2 * 256 =
          (v % 5 * 2 + v / 5 % 2 * 16 + v / 5 / 2 % 5 * 32 + v / 5 / 2 / 5 % 2 * 256) +
            (8 + k * 16) * 512 := by ring
      rw [hsplit, Nat.add_mul_div_right _ _ (by norm_num : (0:Nat) < 512),
        Nat.div_eq_of_lt (by omega)]
      omega
    omega
  have h6 : Time.set_res_bits
      (2 ^ 12 + k * 2 ^ 13 + v % 5 * 2 + v / 5 % 2 * 2 ^ 4 + v / 5 / 2 % 5 * 2 ^ 5 +
        v / 5 / 2 / 5 % 2 * 2 ^ 8 + v / 5 / 2 / 5 / 2 % 5 * 2 ^ 9)
      .FiveHundredMilli (v / 5 / 2 / 5 / 2 / 5) =
      (k * 2 ^ 13 + v % 5 * 2 + v / 5 % 2 * 2 ^ 4 + v / 5 / 2 % 5 * 2 ^ 5 +
        v / 5 / 2 / 5 % 2 * 2 ^ 8 + v / 5 / 2 / 5 / 2 % 5 * 2 ^ 9 +
        v / 5 / 2 / 5 / 2 / 5 % 2 * 2 ^ 12, v / 5 / 2 / 5 / 2 / 5 / 2) := by
    simp only [Time.set_res_bits, Resolution.trailing_zeros, Resolution.n_bits,
      Resolution.subdivision, Prod.mk.injEq]
    norm_num
    have hd : (4096 + k * 8192 + v % 5 * 2 + v / 5 % 2 * 16 + v / 5 / 2 % 5 * 32 +
        v / 5 / 2 / 5 % 2 * 256 + v / 5 / 2 / 5 / 2 % 5 * 512) / 4096 = 1 + k * 2 := by
      have hsplit : 4096 + k * 8192 + v % 5 * 2 + v / 5 % 2 * 16 + v / 5 / 2 % 5 * 32 +
          v / 5 / 2 / 5 % 2 * 256 + v / 5 / 2 / 5 / 2 % 5 * 512 =
          (v % 5 * 2 + v / 5 % 2 * 16 + v / 5 / 2 % 5 * 32 + v / 5 / 2 / 5 % 2 * 256 +
            v / 5 / 2 / 5 / 2 % 5 * 512) + (1 + k * 2) * 4096 := by ring
      rw [hsplit, Nat.add_mul_div_right _ _ (by norm_num : (0:Nat) < 4096),
        Nat.div_eq_of_lt (by omega)]
      omega
    omega
  have h7 : Time.from_bits
      (k * 2 ^ 13 + v % 5 * 2 + v / 5 % 2 * 2 ^ 4 + v / 5 / 2 % 5 * 2 ^ 5 +
        v / 5 / 2 / 5 % 2 * 2 ^ 8 + v / 5 / 2 / 5 / 2 % 5 * 2 ^ 9 +
        v / 5 / 2 / 5 / 2 / 5 % 2 * 2 ^ 12) .Millisecond =
      1 + v % 5 * 2 + v / 5 % 2 * 2 ^ 4 + v / 5 / 2 % 5 * 2 ^ 5 +
        v / 5 / 2 / 5 % 2 * 2 ^ 8 + v / 5 / 2 / 5 / 2 % 5 * 2 ^ 9 +
        v / 5 / 2 / 5 / 2 / 5 % 2 * 2 ^ 12 + k * 2 ^ 13 := by
    simp only [Time.from_bits, Time.coarsen, Resolution.trailing_zeros]
    norm_num
    split
    · omega
    · omega
  unfold Time.try_with_millis
  rw [if_neg (by omega), if_neg (by rw [hres]; simp)]
  simp only [h1, h2, h3, h4, h5, h6, h7]

theorem millis_read (k v : Nat) (hk : k < 2 ^ 19) (hv : v ≤ 999) :
    Time.millis (1 + v % 5 * 2 + v / 5 % 2 * 2 ^ 4 + v / 5 / 2 % 5 * 2 ^ 5 +
      v / 5 / 2 / 5 % 2 * 2 ^ 8 + v / 5 / 2 / 5 / 2 % 5 * 2 ^ 9 +
      v / 5 / 2 / 5 / 2 / 5 % 2 * 2 ^ 12 + k * 2 ^ 13) = v := by
  set T := 1 + v % 5 * 2 + v / 5 % 2 * 2 ^ 4 + v / 5 / 2 % 5 * 2 ^ 5 +
      v / 5 / 2 / 5 % 2 * 2 ^ 8 + v / 5 / 2 / 5 / 2 % 5 * 2 ^ 9 +
      v / 5 / 2 / 5 / 2 / 5 % 2 * 2 ^ 12 + k * 2 ^ 13 with hT
  have hres : Time.resolution T = .Millisecond := by
    have hTform : T = 2 ^ Resolution.Millisecond.trailing_zeros +
        (v % 5 + v / 5 % 2 * 2 ^ 3 + v / 5 / 2 % 5 * 2 ^ 4 + v / 5 / 2 / 5 % 2 * 2 ^ 7 +
          v / 5 / 2 / 5 / 2 % 5 * 2 ^ 8 + v / 5 / 2 / 5 / 2 / 5 % 2 * 2 ^ 11 + k * 2 ^ 12) *
          2 ^ (Resolution.Millisecond.trailing_zeros + 1) := by
      rw [hT]
      simp only [Resolution.trailing_zeros]
      ring
    rw [hTform]
    exact resolution_base .Millisecond _
  have hd1 : T / 2 = v % 5 + v / 5 % 2 * 8 + v / 5 / 2 % 5 * 16 + v / 5 / 2 / 5 % 2 * 128 +
      v / 5 / 2 / 5 / 2 % 5 * 256 + v / 5 / 2 / 5 / 2 / 5 % 2 * 2048 + k * 4096 := by
    rw [hT]
    have hsplit : 1 + v % 5 * 2 + v / 5 % 2 * 2 ^ 4 + v / 5 / 2 % 5 * 2 ^ 5 +
        v / 5 / 2 / 5 % 2 * 2 ^ 8 + v / 5 / 2 / 5 / 2 % 5 * 2 ^ 9 +
        v / 5 / 2 / 5 / 2 / 5 % 2 * 2 ^ 12 + k * 2 ^ 13 =
        1 + (v % 5 + v / 5 % 2 * 8 + v / 5 / 2 % 5 * 16 + v / 5 / 2 / 5 % 2 * 128 +
          v / 5 / 2 / 5 / 2 % 5 * 256 + v / 5 / 2 / 5 / 2 / 5 % 2 * 2048 + k * 4096) * 2 := by
      ring
    rw [hsplit, Nat.add_mul_div_right _ _ (by norm_num : (0:Nat) < 2),
      Nat.div_eq_of_lt (by omega)]
    omega
  have hd4 : T / 16 = v / 5 % 2 + v / 5 / 2 % 5 * 2 + v / 5 / 2 / 5 % 2 * 16 +
      v / 5 / 2 / 5 / 2 % 5 * 32 + v / 5 / 2 / 5 / 2 / 5 % 2 * 256 + k * 512 := by
    rw [hT]
    have hsplit : 1 + v % 5 * 2 + v / 5 % 2 * 2 ^ 4 + v / 5 / 2 % 5 * 2 ^ 5 +
        v / 5 / 2 / 5 % 2 * 2 ^ 8 + v / 5 / 2 / 5 / 2 % 5 * 2 ^ 9 +
        v / 5 / 2 / 5 / 2 / 5 % 2 * 2 ^ 12 + k * 2 ^ 13 =
        (1 + v % 5 * 2) + (v / 5 % 2 + v / 5 / 2 % 5 * 2 + v / 5 / 2 / 5 % 2 * 16 +
          v / 5 / 2 / 5 / 2 % 5 * 32 + v / 5 / 2 / 5 / 2 / 5 % 2 * 256 + k * 512) * 16 := by
      ring
    rw [hsplit, Nat.add_mul_div_right _ _ (by norm_num : (0:Nat) < 16),
      Nat.div_eq_of_lt (by omega)]
    omega
  have hd5 : T / 32 = v / 5 / 2 % 5 + v / 5 / 2 / 5 % 2 * 8 + v / 5 / 2 / 5 / 2 % 5 * 16 +
      v / 5 / 2 / 5 / 2 / 5 % 2 * 128 + k * 256 := by
    rw [hT]
    have hsplit : 1 + v % 5 * 2 + v / 5 % 2 * 2 ^ 4 + v / 5 / 2 % 5 * 2 ^ 5 +
        v / 5 / 2 / 5 % 2 * 2 ^ 8 + v / 5 / 2 / 5 / 2 % 5 * 2 ^ 9 +
        v / 5 / 2 / 5 / 2 / 5 % 2 * 2 ^ 12 + k * 2 ^ 13 =
        (1 + v % 5 * 2 + v / 5 % 2 * 16) + (v / 5 / 2 % 5 + v / 5 / 2 / 5 % 2 * 8 +
          v / 5 / 2 / 5 / 2 % 5 * 16 + v / 5 / 2 / 5 / 2 / 5 % 2 * 128 + k * 256) * 32 := by
      ring
    rw [hsplit, Nat.add_mul_div_right _ _ (by norm_num : (0:Nat) < 32),
      Nat.div_eq_of_lt (by omega)]
    omega
  have hd8 : T / 256 = v / 5 / 2 / 5 % 2 + v / 5 / 2 / 5 / 2 % 5 * 2 +
      v / 5 / 2 / 5 / 2 / 5 % 2 * 16 + k * 32 := by
    rw [hT]
    have hsplit : 1 + v % 5 * 2 + v / 5 % 2 * 2 ^ 4 + v / 5 / 2 % 5 * 2 ^ 5 +
        v / 5 / 2 / 5 % 2 * 2 ^ 8 + v / 5 / 2 / 5 / 2 % 5 * 2 ^ 9 +
        v / 5 / 2 / 5 / 2 / 5 % 2 * 2 ^ 12 + k * 2 ^ 13 =
        (1 + v % 5 * 2 + v / 5 % 2 * 16 + v / 5 / 2 % 5 * 32) +
          (v / 5 / 2 / 5 % 2 + v / 5 / 2 / 5 / 2 % 5 * 2 +
            v / 5 / 2 / 5 / 2 / 5 % 2 * 16 + k * 32) * 256 := by
      ring
    rw [hsplit, Nat.add_mul_div_right _ _ (by norm_num : (0:Nat) < 256),
      Nat.div_eq_of_lt (by omega)]
    omega
  have hd9 : T / 512 = v / 5 / 2 / 5 / 2 % 5 + v / 5 / 2 / 5 / 2 / 5 % 2 * 8 + k * 16 := by
    rw [hT]
    have hsplit : 1 + v % 5 * 2 + v / 5 % 2 * 2 ^ 4 + v / 5 / 2 % 5 * 2 ^ 5 +
        v / 5 / 2 / 5 % 2 * 2 ^ 8 + v / 5 / 2 / 5 / 2 % 5 * 2 ^ 9 +
        v / 5 / 2 / 5 / 2 / 5 % 2 * 2 ^ 12 + k * 2 ^ 13 =
        (1 + v % 5 * 2 + v / 5 % 2 * 16 + v / 5 / 2 % 5 * 32 + v / 5 / 2 / 5 % 2 * 256) +
          (v / 5 / 2 / 5 / 2 % 5 + v / 5 / 2 / 5 / 2 / 5 % 2 * 8 + k * 16) * 512 := by
      ring
    rw [hsplit, Nat.add_mul_div_right _ _ (by norm_num : (0:Nat) < 512),
      Nat.div_eq_of_lt (by omega)]
    omega
  have hd12 : T / 4096 = v / 5 / 2 / 5 / 2 / 5 % 2 + k * 2 := by
    rw [hT]
    have hsplit : 1 + v % 5 * 2 + v / 5 % 2 * 2 ^ 4 + v / 5 / 2 % 5 * 2 ^ 5 +
        v / 5 / 2 / 5 % 2 * 2 ^ 8 + v / 5 / 2 / 5 / 2 % 5 * 2 ^ 9 +
        v / 5 / 2 / 5 / 2 / 5 % 2 * 2 ^ 12 + k * 2 ^ 13 =
        (1 + v % 5 * 2 + v / 5 % 2 * 16 + v / 5 / 2 % 5 * 32 + v / 5 / 2 / 5 % 2 * 256 +
          v / 5 / 2 / 5 / 2 % 5 * 512) +
          (v / 5 / 2 / 5 / 2 / 5 % 2 + k * 2) * 4096 := by
      ring
    rw [hsplit, Nat.add_mul_div_right _ _ (by norm_num : (0:Nat) < 4096),
      Nat.div_eq_of_lt (by omega)]
    omega
  simp only [Time.millis, Time.add_res, hres, Resolution.lin, Resolution.trailing_zeros,
    Resolution.n_bits, Resolution.subdivision]
  norm_num
  have hm1 : T / 2 % 8 = v % 5 := by omega
  have hm4 : T / 16 % 2 = v / 5 % 2 := by omega
  have hm5 : T / 32 % 8 = v / 5 / 2 % 5 := by omega
  have hm8 : T / 256 % 2 = v / 5 / 2 / 5 % 2 := by omega
  have hm9 : T / 512 % 8 = v / 5 / 2 / 5 / 2 % 5 := by omega
  have hm12 : T / 4096 % 2 = v / 5 / 2 / 5 / 2 / 5 % 2 := by omega
  rw [hm1, hm4, hm5, hm8, hm9, hm12]
  omega

theorem millis_roundtrip_second (k v : Nat) (hk : k < 2 ^ 19) (hv : v < 1000) :
    (Time.try_with_millis (2 ^ 12 + k * 2 ^ 13) v).map Time.millis = some v := by
  rw [millis_eval k v hk (by omega), Option.map_some', millis_read k v hk (by omega)]

/-- C8: setter/reader round-trip. On a well-formed word at the required
parent resolution, every in-range component value set by the
`try_with_*` setters reads back exactly: hour (0-23), AM/PM and six-hour
period on a Day-resolution value; minute (0-59) on an Hour-resolution
value; second (0-59) on a Minute-resolution value; millis (0-999) on a
Second-resolution value. -/
theorem c8_setter_reader_roundtrip (t : Nat) (ht : Time.Wf t) :
    (Time.resolution t = .Day →
      (∀ h : Nat, h < 24 → (Time.try_with_hour t h).map Time.hour = some h) ∧
      (∀ a : AmPm, (Time.try_with_am_pm t a).map Time.am_pm = some (some a)) ∧
      (∀ s : SixHour,
        (Time.try_with_time_of_day t s).map Time.time_of_day = some (some s))) ∧
    (Time.resolution t = .Hour →
      ∀ v : Nat, v < 60 → (Time.try_with_minute t v).map Time.minute = some v) ∧
    (Time.resolution t = .Minute →
      ∀ v : Nat, v < 60 → (Time.try_with_second t v).map Time.second = some v) ∧
    (Time.resolution t = .Second →
      ∀ v : Nat, v < 1000 → (Time.try_with_millis t v).map Time.millis = some v) := by
  refine ⟨?_, ?_, ?_, ?_⟩
  · intro hres
    have hT := day_res_unique t ht hres
    subst hT
    exact ⟨hour_roundtrip_day, am_pm_roundtrip_day, time_of_day_roundtrip_day⟩
  · intro hres v hv
    obtain ⟨k, hk, hform⟩ := res_form t .Hour ht hres
    norm_num [Resolution.trailing_zeros] at hk hform
    subst hform
    exact minute_roundtrip_hour k (by omega) v hv
  · intro hres v hv
    obtain ⟨k, hk, hform⟩ := res_form t .Minute ht hres
    norm_num [Resolution.trailing_zeros] at hk hform
    subst hform
    exact second_roundtrip_minute k v (by omega) hv
  · intro hres v hv
    obtain ⟨k, hk, hform⟩ := res_form t .Second ht hres
    norm_num [Resolution.trailing_zeros] at hk hform
    subst hform
    exact millis_roundtrip_second k v (by omega) hv

/-- C8 witness: the round-trip theorem applied at the concrete
Second-resolution word `2^12` with millis value 999. -/
theorem c8_witness :
    Time.Wf (2 ^ 12) ∧ Time.resolution (2 ^ 12) = .Second ∧
    (Time.try_with_millis (2 ^ 12) 999).map Time.millis = some 999 :=
  ⟨by decide, by decide,
    (c8_setter_reader_roundtrip (2 ^ 12) (by decide)).2.2.2 (by decide) 999 (by decide)⟩

/-- Strict (date, time) ordering on entries: strictly older date, or the
same date with a strictly smaller time under `coarse_cmp`.  Consecutive
stored entries satisfy this relation. -/
def entLt {P : Type} (a b : Entry P) : Prop :=
  a.date < b.date ∨ (a.date = b.date ∧ Time.coarse_cmp a.time b.time = .lt)

instance {P : Type} (a b : Entry P) : Decidable (entLt a b) := by
  unfold entLt
  infer_instance

/-- All stored times are well-formed words. -/
def EWf {P : Type} (l : List (Entry P)) : Prop := ∀ e ∈ l, Time.Wf e.time

instance {P : Type} (l : List (Entry P)) : Decidable (EWf l) := by
  unfold EWf
  infer_instance

/-- The per-operation hypothesis of the run theorems: pushed times are
well-formed words. -/
def opWf {P : Type} : Op P → Prop
  | .push _ t _ => Time.Wf t
  | .advance _ => True

instance {P : Type} (op : Op P) : Decidable (opWf op) := by
  cases op
  · exact inferInstanceAs (Decidable (Time.Wf _))
  · exact inferInstanceAs (Decidable True)

/-- Combine two optional payloads with the merge operation. -/
def oMerge {P : Type} (m : P → P → P) : Option P → Option P → Option P
  | none, y => y
  | some a, none => some a
  | some a, some b => some (m a b)

/-- Fold a payload list oldest-to-newest with the merge operation
(`none` on the empty list). -/
def mergeAll {P : Type} (m : P → P → P) : List P → Option P
  | [] => none
  | x :: xs => some (xs.foldl m x)

theorem entLt_trans {P : Type} (a b c : Entry P) (ha : Time.Wf a.time)
    (hb : Time.Wf b.time) (hc : Time.Wf c.time)
    (h1 : entLt a b) (h2 : entLt b c) : entLt a c := by
  unfold entLt at h1 h2 ⊢
  rcases h1 with h1 | ⟨hd1, ht1⟩ <;> rcases h2 with h2 | ⟨hd2, ht2⟩
  · left; omega
  · left; omega
  · left; omega
  · right
    exact ⟨by omega, coarse_lt_trans _ _ _ ha.pos ha.lt32 hb.pos hb.lt32
      hc.pos hc.lt32 ht1 ht2⟩

theorem entLt_key_ne {P : Type} (a b : Entry P) (ha : Time.Wf a.time)
    (hb : Time.Wf b.time) (h : entLt a b) :
    (a.date, a.time) ≠ (b.date, b.time) := by
  rcases h with hd | ⟨hd, ht⟩
  · intro hk
    rw [Prod.mk.injEq] at hk
    omega
  · intro hk
    rw [Prod.mk.injEq] at hk
    exact coarse_lt_ne _ _ ha.pos ha.lt32 hb.pos hb.lt32 ht hk.2

theorem chain'_entLt_head {P : Type} (e : Entry P) (rest : List (Entry P))
    (hwf : EWf (e :: rest)) (h : List.Chain' entLt (e :: rest)) :
    ∀ b ∈ rest, entLt e b := by
  induction rest generalizing e with
  | nil => intro b hb; cases hb
  | cons f rest ih =>
    intro b hb
    have hef : entLt e f := (List.chain'_cons.mp h).1
    rcases List.mem_cons.mp hb with rfl | hb'
    · exact hef
    · have hfb : entLt f b :=
        ih f (fun x hx => hwf x (List.mem_cons_of_mem _ hx))
          (List.chain'_cons.mp h).2 b hb'
      exact entLt_trans e f b (hwf e (by simp)) (hwf f (by simp))
        (hwf b (by simp [hb'])) hef hfb

theorem chain'_entLt_pairwise {P : Type} (l : List (Entry P))
    (hwf : EWf l) (h : List.Chain' entLt l) : List.Pairwise entLt l := by
  induction l with
  | nil => exact .nil
  | cons e rest ih =>
    refine .cons (chain'_entLt_head e rest hwf h) ?_
    exact ih (fun x hx => hwf x (List.mem_cons_of_mem _ hx))
      (List.chain'_cons'.mp h).2

theorem pairwise_dateLE_of_chain {P : Type} (l : List (Entry P))
    (hwf : EWf l) (h : List.Chain' entLt l) :
    List.Pairwise (fun a b : Entry P => a.date ≤ b.date) l := by
  refine (chain'_entLt_pairwise l hwf h).imp ?_
  intro a b hab
  rcases hab with hd | ⟨hd, -⟩
  · omega
  · omega

theorem date_le_getLast {P : Type} (l : List (Entry P))
    (hpw : List.Pairwise (fun a b : Entry P => a.date ≤ b.date) l)
    (la : Entry P) (hla : l.getLast? = some la) :
    ∀ e ∈ l, e.date ≤ la.date := by
  induction l with
  | nil => cases hla
  | cons e rest ih =>
    intro f hf
    rcases eq_or_ne rest [] with hrest | hrest
    · subst hrest
      simp only [List.getLast?_singleton, Option.some.injEq] at hla
      simp only [List.mem_singleton] at hf
      subst hla
      subst hf
      exact le_refl _
    · have hla' : rest.getLast? = some la := by
        rw [show e :: rest = [e] ++ rest from rfl,
          List.getLast?_append_of_ne_nil _ hrest] at hla
        exact hla
      rcases List.mem_cons.mp hf with rfl | hf'
      · have hmem := List.mem_of_mem_getLast? hla'
        exact List.rel_of_pairwise_cons hpw hmem
      · exact ih hpw.tail hla' f hf'

theorem reduce_to_id_of_tz_le (t : Nat) (r : Resolution) (ht : Time.Wf t)
    (h : r.trailing_zeros ≤ Time.tz t) : Time.reduce_to t r = t :=
  reduce_to_of_le _ _ ((res_lin_le_res_iff t r ht).mpr h)

/-- Reducing both sides of a strict coarse comparison: the comparison
stays strict or the two words collapse. -/
theorem coarse_lt_reduce (a b : Nat) (r : Resolution)
    (ha : Time.Wf a) (hb : Time.Wf b) (h : Time.coarse_cmp a b = .lt) :
    Time.coarse_cmp (Time.reduce_to a r) (Time.reduce_to b r) = .lt ∨
      Time.reduce_to a r = Time.reduce_to b r := by
  rcases le_or_lt r.trailing_zeros (Time.tz a) with hra | hra <;>
    rcases le_or_lt r.trailing_zeros (Time.tz b) with hrb | hrb
  · rw [reduce_to_id_of_tz_le a r ha hra, reduce_to_id_of_tz_le b r hb hrb]
    exact .inl h
  · rw [reduce_to_id_of_tz_le a r ha hra]
    exact .inl (coarse_lt_reduce_right a b r ha hb hra hrb h)
  · rw [reduce_to_id_of_tz_le b r hb hrb]
    exact .inl (coarse_lt_reduce_left a b r ha hb hra hrb h)
  · exact coarse_lt_reduce_both a b r ha hb hra hrb h

theorem entLt_reduce_both {P : Type} (a b : Entry P) (r : Resolution)
    (ha : Time.Wf a.time) (hb : Time.Wf b.time) (h : entLt a b) :
    entLt ⟨a.date, Time.reduce_to a.time r, a.x⟩
        ⟨b.date, Time.reduce_to b.time r, b.x⟩ ∨
      (a.date = b.date ∧ Time.reduce_to a.time r = Time.reduce_to b.time r) := by
  rcases h with hd | ⟨hd, ht⟩
  · exact .inl (.inl hd)
  · rcases coarse_lt_reduce a.time b.time r ha hb ht with h' | h'
    · exact .inl (.inr ⟨hd, h'⟩)
    · exact .inr ⟨hd, h'⟩

theorem entLt_reduce_left {P : Type} (a b : Entry P) (r : Resolution)
    (ha : Time.Wf a.time) (hb : Time.Wf b.time)
    (hside : a.date < b.date ∨ r.trailing_zeros ≤ Time.tz b.time)
    (h : entLt a b) : entLt ⟨a.date, Time.reduce_to a.time r, a.x⟩ b := by
  rcases h with hd | ⟨hd, ht⟩
  · exact .inl hd
  · rcases hside with hd' | htz
    · exact .inl hd'
    · right
      refine ⟨hd, ?_⟩
      rcases le_or_lt r.trailing_zeros (Time.tz a.time) with hra | hra
      · rw [reduce_to_id_of_tz_le _ _ ha hra]
        exact ht
      · exact coarse_lt_reduce_left _ _ r ha hb hra htz ht

theorem entLt_reduce_right {P : Type} (a b : Entry P) (r : Resolution)
    (ha : Time.Wf a.time) (hb : Time.Wf b.time)
    (hra : r.trailing_zeros ≤ Time.tz a.time)
    (h : entLt a b) : entLt a ⟨b.date, Time.reduce_to b.time r, b.x⟩ := by
  rcases h with hd | ⟨hd, ht⟩
  · exact .inl hd
  · right
    refine ⟨hd, ?_⟩
    rcases le_or_lt r.trailing_zeros (Time.tz b.time) with hrb | hrb
    · rw [reduce_to_id_of_tz_le _ _ hb hrb]
      exact ht
    · exact coarse_lt_reduce_right _ _ r ha hb hra hrb ht

/-- The recording phase of the compaction scan: once a first index has
been recorded, the scan keeps `start`, extends `end` over every further
in-range entry needing reduction, and everything after the final `end`
is either already compact or beyond `up_to`. -/
theorem compactScan_rec {P : Type} (u : Int) (r : Resolution)
    (orig : List (Entry P))
    (hpw : List.Pairwise (fun a b : Entry P => a.date ≤ b.date) orig)
    (s : Nat) :
    ∀ n i en, orig.length - i = n → i ≤ orig.length → en < i →
      ∀ (hen : en < orig.length), orig[en].date ≤ u →
      (∀ j (hj : j < orig.length), en < j → j < i →
        (Time.resolution orig[j].time).lin ≤ r.lin) →
      ∃ en', compactScan u r (orig.drop i) i (some s) (some en) =
          (some s, some en') ∧ en ≤ en' ∧
        ∃ (hen' : en' < orig.length), orig[en'].date ≤ u ∧
        (∀ j (hj : j < orig.length), en' < j →
          (Time.resolution orig[j].time).lin ≤ r.lin ∨ u < orig[j].date) := by
  intro n
  induction n with
  | zero =>
    intro i en hn hi hen_i hen hdate hskip
    have hieq : i = orig.length := by omega
    subst hieq
    rw [List.drop_length]
    refine ⟨en, rfl, le_refl _, hen, hdate, ?_⟩
    intro j hj hj2
    exact .inl (hskip j hj hj2 hj)
  | succ n ih =>
    intro i en hn hi hen_i hen hdate hskip
    have hilt : i < orig.length := by omega
    rw [List.drop_eq_getElem_cons hilt]
    show ∃ en', (if (Time.resolution orig[i].time).lin ≤ r.lin then
        compactScan u r (orig.drop (i+1)) (i+1) (some s) (some en)
      else if u < orig[i].date then (some s, some en)
      else compactScan u r (orig.drop (i+1)) (i+1)
        (some ((some s).getD i)) (some i)) = (some s, some en') ∧ _
    by_cases hc1 : (Time.resolution orig[i].time).lin ≤ r.lin
    · rw [if_pos hc1]
      refine ih (i+1) en (by omega) (by omega) (by omega) hen hdate ?_
      intro j hj hj2 hj3
      rcases Nat.lt_or_ge j i with hji | hji
      · exact hskip j hj hj2 hji
      · have : j = i := by omega
        subst this
        exact hc1
    · rw [if_neg hc1]
      by_cases hc2 : u < orig[i].date
      · rw [if_pos hc2]
        refine ⟨en, rfl, le_refl _, hen, hdate, ?_⟩
        intro j hj hj2
        rcases Nat.lt_or_ge j i with hji | hji
        · exact .inl (hskip j hj hj2 hji)
        · rcases Nat.eq_or_lt_of_le hji with rfl | hji'
          · exact .inr hc2
          · right
            have hle := (List.pairwise_iff_getElem.mp hpw) i j hilt hj hji'
            omega
      · rw [if_neg hc2]
        have hdi : orig[i].date ≤ u := by omega
        obtain ⟨en', heq, hge, hen', hd', hafter⟩ :=
          ih (i+1) i (by omega) (by omega) (by omega) hilt hdi
            (by intro j hj hj2 hj3; omega)
        exact ⟨en', heq, by omega, hen', hd', hafter⟩

/-- The searching phase of the compaction scan: before anything is
recorded the scan either finishes empty-handed (and then every entry is
already compact or beyond `up_to`) or records a first index and hands
over to the recording phase. -/
theorem compactScan_none {P : Type} (u : Int) (r : Resolution)
    (orig : List (Entry P))
    (hpw : List.Pairwise (fun a b : Entry P => a.date ≤ b.date) orig) :
    ∀ n i, orig.length - i = n → i ≤ orig.length →
      (∀ j (hj : j < orig.length), j < i →
        (Time.resolution orig[j].time).lin ≤ r.lin) →
      (compactScan u r (orig.drop i) i none none = (none, none) ∧
        (∀ j (hj : j < orig.length),
          (Time.resolution orig[j].time).lin ≤ r.lin ∨ u < orig[j].date)) ∨
      (∃ s en', compactScan u r (orig.drop i) i none none = (some s, some en') ∧
        i ≤ s ∧ s ≤ en' ∧
        ∃ (hen' : en' < orig.length) (hs : s < orig.length),
        (∀ j (hj : j < orig.length), j < s →
          (Time.resolution orig[j].time).lin ≤ r.lin) ∧
        ¬ (Time.resolution orig[s].time).lin ≤ r.lin ∧
        orig[s].date ≤ u ∧ orig[en'].date ≤ u ∧
        (∀ j (hj : j < orig.length), en' < j →
          (Time.resolution orig[j].time).lin ≤ r.lin ∨ u < orig[j].date)) := by
  intro n
  induction n with
  | zero =>
    intro i hn hi hskip
    have hieq : i = orig.length := by omega
    subst hieq
    rw [List.drop_length]
    left
    refine ⟨rfl, ?_⟩
    intro j hj
    exact .inl (hskip j hj hj)
  | succ n ih =>
    intro i hn hi hskip
    have hilt : i < orig.length := by omega
    have hcons := List.drop_eq_getElem_cons hilt
    by_cases hc1 : (Time.resolution orig[i].time).lin ≤ r.lin
    · have hstep : compactScan u r (orig.drop i) i none none =
          compactScan u r (orig.drop (i+1)) (i+1) none none := by
        rw [hcons]
        simp only [compactScan]
        rw [if_pos hc1]
      rw [hstep]
      have hskip' : ∀ j (hj : j < orig.length), j < i + 1 →
          (Time.resolution orig[j].time).lin ≤ r.lin := by
        intro j hj hj2
        rcases Nat.lt_or_ge j i with hji | hji
        · exact hskip j hj hji
        · have : j = i := by omega
          subst this
          exact hc1
      rcases ih (i+1) (by omega) (by omega) hskip' with h | ⟨s, en', heq, hs1, hrest⟩
      · exact .inl h
      · exact .inr ⟨s, en', heq, by omega, hrest⟩
    · by_cases hc2 : u < orig[i].date
      · have hstep : compactScan u r (orig.drop i) i none none =
            ((none : Option Nat), (none : Option Nat)) := by
          rw [hcons]
          simp only [compactScan]
          rw [if_neg hc1, if_pos hc2]
        rw [hstep]
        left
        refine ⟨rfl, ?_⟩
        intro j hj
        rcases Nat.lt_or_ge j i with hji | hji
        · exact .inl (hskip j hj hji)
        · rcases Nat.eq_or_lt_of_le hji with rfl | hji'
          · exact .inr hc2
          · right
            have hle := (List.pairwise_iff_getElem.mp hpw) i j hilt hj hji'
            omega
      · have hstep : compactScan u r (orig.drop i) i none none =
            compactScan u r (orig.drop (i+1)) (i+1) (some i) (some i) := by
          rw [hcons]
          simp only [compactScan]
          rw [if_neg hc1, if_neg hc2]
          rfl
        rw [hstep]
        have hdi : orig[i].date ≤ u := by omega
        obtain ⟨en', heq, hge, hen', hd', hafter⟩ :=
          compactScan_rec u r orig hpw i (orig.length - (i+1)) (i+1) i
            rfl (by omega) (by omega) hilt hdi
            (by intro j hj hj2 hj3; omega)
        right
        exact ⟨i, en', heq, le_refl _, by omega, hen', hilt,
          (fun j hj hj2 => hskip j hj hj2), hc1, hdi, hd', hafter⟩

theorem with_max_res_go_head {P : Type} (m : P → P → P) (res : Resolution) :
    ∀ (xs : List (Entry P)) (c : Entry P),
      ∃ p rest, with_max_res_go m res (some c) xs = ⟨c.date, c.time, p⟩ :: rest := by
  intro xs
  induction xs with
  | nil =>
    intro c
    exact ⟨c.x, [], rfl⟩
  | cons e rest ih =>
    intro c
    simp only [with_max_res_go]
    by_cases hkey : c.date = e.date ∧ c.time = Time.reduce_to e.time res
    · rw [if_pos hkey]
      exact ih ⟨c.date, c.time, m c.x e.x⟩
    · rw [if_neg hkey]
      exact ⟨c.x, _, rfl⟩

/-- The bucket-merging worker keeps the stream strictly sorted, emits
only (date, reduced-time) keys drawn from its input, and ends on the key
of the final input entry. -/
theorem with_max_res_go_facts {P : Type} (m : P → P → P) (res : Resolution) :
    ∀ (xs : List (Entry P)) (a : Entry P) (cx : P),
      Time.Wf a.time → EWf xs →
      List.Chain' entLt (a :: xs) →
      List.Chain' entLt
        (with_max_res_go m res (some ⟨a.date, Time.reduce_to a.time res, cx⟩) xs) ∧
      (∀ e ∈ with_max_res_go m res (some ⟨a.date, Time.reduce_to a.time res, cx⟩) xs,
        ∃ e₀ ∈ a :: xs, e.date = e₀.date ∧ e.time = Time.reduce_to e₀.time res) ∧
      (∃ b p, (a :: xs).getLast? = some b ∧
        (with_max_res_go m res (some ⟨a.date, Time.reduce_to a.time res, cx⟩)
          xs).getLast? = some ⟨b.date, Time.reduce_to b.time res, p⟩) := by
  intro xs
  induction xs with
  | nil =>
    intro a cx hwa hwxs hchain
    refine ⟨List.chain'_singleton _, ?_, a, cx, rfl, rfl⟩
    intro e he
    rcases List.mem_singleton.mp he with rfl
    exact ⟨a, by simp, rfl, rfl⟩
  | cons e rest ih =>
    intro a cx hwa hwxs hchain
    have hwe : Time.Wf e.time := hwxs e (by simp)
    have hwrest : EWf rest := fun x hx => hwxs x (List.mem_cons_of_mem _ hx)
    have hae : entLt a e := (List.chain'_cons.mp hchain).1
    have hchain' : List.Chain' entLt (e :: rest) := (List.chain'_cons.mp hchain).2
    simp only [with_max_res_go]
    by_cases hkey : a.date = e.date ∧
        Time.reduce_to a.time res = Time.reduce_to e.time res
    · rw [if_pos hkey]
      have heq2 : (⟨a.date, Time.reduce_to a.time res, m cx e.x⟩ : Entry P) =
          ⟨e.date, Time.reduce_to e.time res, m cx e.x⟩ := by
        rw [hkey.1, hkey.2]
      rw [heq2]
      obtain ⟨hch, hprov, b, p, hbl, hgl⟩ := ih e (m cx e.x) hwe hwrest hchain'
      refine ⟨hch, ?_, b, p, ?_, hgl⟩
      · intro x hx
        obtain ⟨e₀, he₀, hd, ht⟩ := hprov x hx
        exact ⟨e₀, List.mem_cons_of_mem _ he₀, hd, ht⟩
      · rw [List.getLast?_cons_cons]
        exact hbl
    · rw [if_neg hkey]
      obtain ⟨hch, hprov, b, p, hbl, hgl⟩ := ih e e.x hwe hwrest hchain'
      obtain ⟨p', rest', hhead⟩ := with_max_res_go_head m res rest
        ⟨e.date, Time.reduce_to e.time res, e.x⟩
      have hCW : entLt (⟨a.date, Time.reduce_to a.time res, cx⟩ : Entry P)
          (⟨e.date, Time.reduce_to e.time res, p'⟩ : Entry P) := by
        rcases entLt_reduce_both a e res hwa hwe hae with h | h
        · exact h
        · exact absurd h hkey
      constructor
      · rw [List.chain'_cons']
        refine ⟨?_, hch⟩
        intro y hy
        rw [hhead] at hy
        simp only [List.head?_cons, Option.mem_def, Option.some.injEq] at hy
        subst hy
        exact hCW
      constructor
      · intro x hx
        rcases List.mem_cons.mp hx with rfl | hx'
        · exact ⟨a, by simp, rfl, rfl⟩
        · obtain ⟨e₀, he₀, hd, ht⟩ := hprov x hx'
          exact ⟨e₀, List.mem_cons_of_mem _ he₀, hd, ht⟩
      · refine ⟨b, p, ?_, ?_⟩
        · rw [List.getLast?_cons_cons]
          exact hbl
        · rw [show (⟨a.date, Time.reduce_to a.time res, cx⟩ : Entry P) ::
              with_max_res_go m res (some ⟨e.date, Time.reduce_to e.time res, e.x⟩)
                rest = [⟨a.date, Time.reduce_to a.time res, cx⟩] ++
              with_max_res_go m res (some ⟨e.date, Time.reduce_to e.time res, e.x⟩)
                rest from rfl,
            List.getLast?_append_of_ne_nil _ (by rw [hhead]; simp)]
          exact hgl

/-- Facts about `with_max_res` on a non-empty sorted input: the result
is sorted, non-empty with the reduced first key in front, every output
key is a reduced input key, and the final output key is the reduced
final input key. -/
theorem with_max_res_facts {P : Type} (m : P → P → P) (res : Resolution)
    (b : Entry P) (bs : List (Entry P)) (hwf : EWf (b :: bs))
    (hchain : List.Chain' entLt (b :: bs)) :
    List.Chain' entLt (with_max_res m res (b :: bs)) ∧
    (∀ e ∈ with_max_res m res (b :: bs),
      ∃ e₀ ∈ b :: bs, e.date = e₀.date ∧ e.time = Time.reduce_to e₀.time res) ∧
    (∃ p rest, with_max_res m res (b :: bs) =
      ⟨b.date, Time.reduce_to b.time res, p⟩ :: rest) ∧
    (∃ bl p, (b :: bs).getLast? = some bl ∧
      (with_max_res m res (b :: bs)).getLast? =
        some ⟨bl.date, Time.reduce_to bl.time res, p⟩) := by
  have hwb : Time.Wf b.time := hwf b (by simp)
  have hwbs : EWf bs := fun x hx => hwf x (List.mem_cons_of_mem _ hx)
  have hunf : with_max_res m res (b :: bs) =
      with_max_res_go m res (some ⟨b.date, Time.reduce_to b.time res, b.x⟩) bs := by
    rfl
  rw [hunf]
  obtain ⟨hch, hprov, bl, p, hbl, hgl⟩ :=
    with_max_res_go_facts m res bs b b.x hwb hwbs hchain
  obtain ⟨p', rest', hhead⟩ := with_max_res_go_head m res bs
    ⟨b.date, Time.reduce_to b.time res, b.x⟩
  exact ⟨hch, hprov, ⟨p', rest', hhead⟩, bl, p, hbl, hgl⟩

theorem foldl_assoc_merge {P : Type} (m : P → P → P)
    (hm : ∀ a b c, m (m a b) c = m a (m b c)) :
    ∀ (l : List P) (a b : P), l.foldl m (m a b) = m a (l.foldl m b) := by
  intro l
  induction l with
  | nil => intro a b; rfl
  | cons c l ih =>
    intro a b
    show l.foldl m (m (m a b) c) = m a ((c :: l).foldl m b)
    rw [hm a b c, ih a (m b c)]
    rfl

theorem mergeAll_cons {P : Type} (m : P → P → P) (x : P) (xs : List P) :
    mergeAll m (x :: xs) = some (xs.foldl m x) := rfl

theorem mergeAll_append {P : Type} (m : P → P → P)
    (hm : ∀ a b c, m (m a b) c = m a (m b c)) (X Y : List P) :
    mergeAll m (X ++ Y) = oMerge m (mergeAll m X) (mergeAll m Y) := by
  cases X with
  | nil => simp [mergeAll, oMerge]
  | cons x xs =>
    cases Y with
    | nil => simp [mergeAll, oMerge]
    | cons y ys =>
      show mergeAll m (x :: (xs ++ y :: ys)) = _
      rw [mergeAll_cons, mergeAll_cons, mergeAll_cons]
      show some ((xs ++ y :: ys).foldl m x) = some (m (xs.foldl m x) (ys.foldl m y))
      rw [List.foldl_append, List.foldl_cons, foldl_assoc_merge m hm ys (xs.foldl m x) y]

theorem with_max_res_go_foldl {P : Type} (m : P → P → P) (res : Resolution)
    (hm : ∀ a b c, m (m a b) c = m a (m b c)) :
    ∀ (xs : List (Entry P)) (c : Entry P) (a : P),
      ((with_max_res_go m res (some c) xs).map Entry.x).foldl m a =
        (xs.map Entry.x).foldl m (m a c.x) := by
  intro xs
  induction xs with
  | nil => intro c a; rfl
  | cons e rest ih =>
    intro c a
    simp only [with_max_res_go]
    by_cases hkey : c.date = e.date ∧ c.time = Time.reduce_to e.time res
    · rw [if_pos hkey, ih ⟨c.date, c.time, m c.x e.x⟩ a]
      simp only [List.map_cons, List.foldl_cons]
      rw [hm a c.x e.x]
    · rw [if_neg hkey]
      simp only [List.map_cons, List.foldl_cons]
      rw [ih ⟨e.date, Time.reduce_to e.time res, e.x⟩ (m a c.x)]

theorem with_max_res_go_mergeAll {P : Type} (m : P → P → P) (res : Resolution)
    (hm : ∀ a b c, m (m a b) c = m a (m b c)) :
    ∀ (xs : List (Entry P)) (c : Entry P),
      mergeAll m ((with_max_res_go m res (some c) xs).map Entry.x) =
        some ((xs.map Entry.x).foldl m c.x) := by
  intro xs
  induction xs with
  | nil => intro c; rfl
  | cons e rest ih =>
    intro c
    simp only [with_max_res_go]
    by_cases hkey : c.date = e.date ∧ c.time = Time.reduce_to e.time res
    · rw [if_pos hkey, ih ⟨c.date, c.time, m c.x e.x⟩]
      rfl
    · rw [if_neg hkey]
      simp only [List.map_cons]
      rw [mergeAll_cons]
      rw [with_max_res_go_foldl m res hm rest
        ⟨e.date, Time.reduce_to e.time res, e.x⟩ c.x]
      rfl

theorem with_max_res_mergeAll {P : Type} (m : P → P → P) (res : Resolution)
    (hm : ∀ a b c, m (m a b) c = m a (m b c)) (l : List (Entry P)) :
    mergeAll m ((with_max_res m res l).map Entry.x) =
      mergeAll m (l.map Entry.x) := by
  cases l with
  | nil => rfl
  | cons b bs =>
    show mergeAll m ((with_max_res_go m res
      (some ⟨b.date, Time.reduce_to b.time res, b.x⟩) bs).map Entry.x) = _
    rw [with_max_res_go_mergeAll m res hm bs ⟨b.date, Time.reduce_to b.time res, b.x⟩]
    rfl

theorem compactScan_rec_bounds {P : Type} (u : Int) (r : Resolution) :
    ∀ (l : List (Entry P)) (i s0 en : Nat) (s' en' : Nat),
      compactScan u r l i (some s0) (some en) = (some s', some en') →
      s' = s0 ∧ (en' = en ∨ (i ≤ en' ∧ en' < i + l.length)) := by
  intro l
  induction l with
  | nil =>
    intro i s0 en s' en' h
    simp only [compactScan, Prod.mk.injEq, Option.some.injEq] at h
    exact ⟨h.1.symm, .inl h.2.symm⟩
  | cons e rest ih =>
    intro i s0 en s' en' h
    simp only [compactScan] at h
    by_cases hc1 : (Time.resolution e.time).lin ≤ r.lin
    · rw [if_pos hc1] at h
      obtain ⟨hs, hen⟩ := ih (i+1) s0 en s' en' h
      refine ⟨hs, ?_⟩
      rcases hen with hen | hen
      · exact .inl hen
      · right
        simp only [List.length_cons]
        omega
    · rw [if_neg hc1] at h
      by_cases hc2 : u < e.date
      · rw [if_pos hc2] at h
        simp only [Prod.mk.injEq, Option.some.injEq] at h
        exact ⟨h.1.symm, .inl h.2.symm⟩
      · rw [if_neg hc2] at h
        obtain ⟨hs, hen⟩ := ih (i+1) _ i s' en' h
        refine ⟨(by simpa using hs), ?_⟩
        right
        simp only [List.length_cons]
        rcases hen with hen | hen
        · omega
        · omega

theorem compactScan_none_bounds {P : Type} (u : Int) (r : Resolution) :
    ∀ (l : List (Entry P)) (i : Nat) (s' en' : Nat),
      compactScan u r l i none none = (some s', some en') →
      i ≤ s' ∧ s' ≤ en' ∧ en' < i + l.length := by
  intro l
  induction l with
  | nil =>
    intro i s' en' h
    simp only [compactScan] at h
    simp at h
  | cons e rest ih =>
    intro i s' en' h
    simp only [compactScan] at h
    by_cases hc1 : (Time.resolution e.time).lin ≤ r.lin
    · rw [if_pos hc1] at h
      obtain ⟨h1, h2, h3⟩ := ih (i+1) s' en' h
      simp only [List.length_cons]
      omega
    · rw [if_neg hc1] at h
      by_cases hc2 : u < e.date
      · rw [if_pos hc2] at h
        simp at h
      · rw [if_neg hc2] at h
        obtain ⟨hs, hen⟩ := compactScan_rec_bounds u r rest (i+1) _ i s' en' h
        have hs' : s' = i := by simpa using hs
        simp only [List.length_cons]
        rcases hen with hen | hen
        · omega
        · omega

theorem compact_eq_cases {P : Type} (m : P → P → P) (l : List (Entry P))
    (u : Int) (r : Resolution) :
    compact m l u r = l ∨
    ∃ s en, compactScan u r l 0 none none = (some s, some en) ∧ s ≤ en ∧
      en < l.length ∧
      compact m l u r = l.take s ++
        with_max_res m r ((l.drop s).take (en + 1 - s)) ++ l.drop (en + 1) := by
  unfold compact
  rcases hscan : compactScan u r l 0 none none with ⟨os, oen⟩
  cases os with
  | none => cases oen <;> exact .inl rfl
  | some s =>
    cases oen with
    | none => exact .inl rfl
    | some en =>
      obtain ⟨-, h2, h3⟩ := compactScan_none_bounds u r l 0 s en hscan
      exact .inr ⟨s, en, rfl, h2, by omega, rfl⟩

theorem list_split_three {P : Type} (l : List (Entry P)) (s en : Nat)
    (hs : s ≤ en) :
    l = l.take s ++ (l.drop s).take (en + 1 - s) ++ l.drop (en + 1) := by
  have h1 : (l.drop s).drop (en + 1 - s) = l.drop (en + 1) := by
    rw [List.drop_drop]
    congr 1
    omega
  conv_lhs => rw [← List.take_append_drop s l]
  rw [List.append_assoc]
  congr 1
  conv_lhs => rw [← List.take_append_drop (en + 1 - s) (l.drop s)]
  rw [h1]

theorem compact_mergeAll {P : Type} (m : P → P → P)
    (hm : ∀ a b c, m (m a b) c = m a (m b c)) (l : List (Entry P))
    (u : Int) (r : Resolution) :
    mergeAll m ((compact m l u r).map Entry.x) = mergeAll m (l.map Entry.x) := by
  rcases compact_eq_cases m l u r with h | ⟨s, en, hscan, hse, hlen, h⟩
  · rw [h]
  · rw [h]
    conv_rhs => rw [list_split_three l s en hse]
    simp only [List.map_append]
    rw [mergeAll_append m hm, mergeAll_append m hm, mergeAll_append m hm,
      mergeAll_append m hm, with_max_res_mergeAll m r hm]

theorem chain'_getElem {α : Type} (R : α → α → Prop) (l : List α)
    (h : List.Chain' R l) (i : Nat) (hi0 : i < l.length)
    (hi : i + 1 < l.length) : R l[i] l[i+1] := by
  have := List.chain'_iff_get.mp h i (by omega)
  simpa [List.get_eq_getElem] using this

theorem chain'_take_of_chain {α : Type} (R : α → α → Prop) (l : List α)
    (n : Nat) (h : List.Chain' R l) : List.Chain' R (l.take n) := by
  have h2 : List.Chain' R (l.take n ++ l.drop n) := by
    rw [List.take_append_drop]
    exact h
  exact (List.chain'_append.mp h2).1

theorem take_getLast_eq {α : Type} (l : List α) (s : Nat) (h0 : 0 < s)
    (hs : s ≤ l.length) (hs1 : s - 1 < l.length) :
    (l.take s).getLast? = some l[s-1] := by
  have hlen : (l.take s).length = s := by
    rw [List.length_take]
    omega
  rw [List.getLast?_eq_getElem?, hlen,
    List.getElem?_eq_getElem (by rw [hlen]; omega)]
  congr 1
  exact List.getElem_take _

theorem drop_head_eq {α : Type} (l : List α) (k : Nat) (hk : k < l.length) :
    (l.drop k).head? = some (l[k]) := by
  rw [List.drop_eq_getElem_cons hk]
  rfl

theorem drop_getLast_eq {α : Type} (l : List α) (k : Nat) (hk : k < l.length) :
    (l.drop k).getLast? = l.getLast? := by
  have hne : l.drop k ≠ [] := by
    intro hc
    have := List.length_drop k l
    rw [hc] at this
    simp at this
    omega
  conv_rhs => rw [← List.take_append_drop k l]
  rw [List.getLast?_append_of_ne_nil _ hne]

theorem head?_eq_getElem_zero {α : Type} (l : List α) (h0 : 0 < l.length) :
    l.head? = some l[0] := by
  cases l with
  | nil => simp at h0
  | cons a l => rfl

theorem getElem_index_congr {α : Type} (l : List α) (i j : Nat)
    (hi : i < l.length) (hj : j < l.length) (heq : i = j) :
    l[i] = l[j] := by
  subst heq
  rfl

/-- The full effect of `CompactedData::compact` on a sorted buffer of
well-formed entries: times stay well-formed, sortedness is preserved,
every output entry carries an input date at a resolution no finer than
the entry it came from, everything dated at most `up_to` ends at or
below the target resolution (the source's trailing sanity assertion),
and a final entry beyond `up_to` is left in place. -/
theorem compact_facts {P : Type} (m : P → P → P) (l : List (Entry P))
    (u : Int) (r : Resolution) (hwf : EWf l)
    (hchain : List.Chain' entLt l) :
    EWf (compact m l u r) ∧
    List.Chain' entLt (compact m l u r) ∧
    (∀ e ∈ compact m l u r, ∃ e₀ ∈ l, e.date = e₀.date ∧
      (Time.resolution e.time).lin ≤ (Time.resolution e₀.time).lin) ∧
    (∀ e ∈ compact m l u r, e.date ≤ u →
      (Time.resolution e.time).lin ≤ r.lin) ∧
    (∀ la, l.getLast? = some la → u < la.date →
      (compact m l u r).getLast? = some la) := by
  have hpw : List.Pairwise (fun a b : Entry P => a.date ≤ b.date) l :=
    pairwise_dateLE_of_chain l hwf hchain
  have hscan0 := compactScan_none u r l hpw l.length 0 (by simp) (by omega)
    (by intro j hj hj2; omega)
  rw [List.drop_zero] at hscan0
  rcases hscan0 with ⟨heq, hall⟩ |
    ⟨s, en, heq, -, hsen, hen, hslt, hskipA, hsnot, hsd, hend, hafter⟩
  · have hcompact : compact m l u r = l := by
      unfold compact
      rw [heq]
    rw [hcompact]
    refine ⟨hwf, hchain, ?_, ?_, ?_⟩
    · intro e he
      exact ⟨e, he, rfl, le_refl _⟩
    · intro e he hd
      obtain ⟨j, hj, hel⟩ := List.mem_iff_getElem.mp he
      rcases hall j hj with h | h
      · rw [← hel]
        exact h
      · rw [← hel] at hd
        omega
    · intro la hla hlt
      exact hla
  · set A := l.take s with hA
    set B := (l.drop s).take (en + 1 - s) with hB
    set C := l.drop (en + 1) with hC
    have hcompact : compact m l u r = A ++ with_max_res m r B ++ C := by
      unfold compact
      rw [heq]
    have hlB : B.length = en + 1 - s := by
      rw [hB, List.length_take, List.length_drop]
      omega
    have hBne : B ≠ [] := by
      intro hc
      rw [hc] at hlB
      simp at hlB
      omega
    have hBsub : ∀ e ∈ B, e ∈ l := by
      intro e he
      rw [hB] at he
      exact List.drop_subset _ _ (List.mem_of_mem_take he)
    have hBel : ∀ (j : Nat) (hj : j < B.length),
        B[j] = l[s+j] := by
      intro j hj
      rw [List.getElem_of_eq hB hj]
      rw [List.getElem_take _, List.getElem_drop _]
    have hchainB : List.Chain' entLt B := by
      rw [hB]
      exact chain'_take_of_chain _ _ _ (hchain.drop s)
    have hwfB : EWf B := fun e he => hwf e (hBsub e he)
    have hBhead : B.head? = some l[s] := by
      rw [head?_eq_getElem_zero B (List.length_pos.mpr hBne),
        hBel 0 (List.length_pos.mpr hBne)]
      exact congrArg some (getElem_index_congr l (s+0) s (by omega) (by omega)
        (by omega))
    have hBlast : B.getLast? = some l[en] := by
      have hBpos : 0 < B.length := List.length_pos.mpr hBne
      rw [List.getLast?_eq_getElem?, List.getElem?_eq_getElem (by omega)]
      rw [hBel (B.length - 1) (by omega)]
      congr 1
      exact getElem_index_congr l _ en (by rw [hlB]; omega) hen
        (by rw [hlB]; omega)
    obtain ⟨b0, bs, hBcons⟩ : ∃ b0 bs, B = b0 :: bs := by
      cases hBc : B with
      | nil => exact absurd hBc hBne
      | cons b0 bs => exact ⟨b0, bs, rfl⟩
    have hb0 : b0 = l[s] := by
      rw [hBcons] at hBhead
      simpa using hBhead
    obtain ⟨hchW, hprovW, hheadW, hlastW⟩ := by
      rw [hBcons] at hwfB hchainB
      exact with_max_res_facts m r b0 bs hwfB hchainB
    rw [← hBcons] at hchW hprovW hheadW hlastW
    obtain ⟨wp, wrest, hWshape⟩ := hheadW
    obtain ⟨bl, blp, hblB, hWlast⟩ := hlastW
    have hbl : bl = l[en] := by
      have h2 : some bl = some l[en] := by rw [← hblB, hBlast]
      injection h2
    have hWne : with_max_res m r B ≠ [] := by
      rw [hWshape]
      simp
    have hAsub : ∀ e ∈ A, e ∈ l := by
      intro e he
      rw [hA] at he
      exact List.mem_of_mem_take he
    have hCsub : ∀ e ∈ C, e ∈ l := by
      intro e he
      rw [hC] at he
      exact List.drop_subset _ _ he
    have hAskip : ∀ e ∈ A, (Time.resolution e.time).lin ≤ r.lin := by
      intro e he
      rw [hA] at he
      obtain ⟨j, hj, hel⟩ := List.mem_iff_getElem.mp he
      have hjs : j < s := by
        rw [List.length_take] at hj
        omega
      have hje : (l.take s)[j] = l[j] := List.getElem_take _
      rw [← hel, hje]
      exact hskipA j (by omega) hjs
    have hCfact : ∀ e ∈ C, (Time.resolution e.time).lin ≤ r.lin ∨ u < e.date := by
      intro e he
      rw [hC] at he
      obtain ⟨j, hj, hel⟩ := List.mem_iff_getElem.mp he
      have hjlen : en + 1 + j < l.length := by
        rw [List.length_drop] at hj
        omega
      have hje : (l.drop (en+1))[j] = l[en+1+j] := List.getElem_drop _
      rw [← hel, hje]
      exact hafter (en+1+j) hjlen (by omega)
    have hWprov : ∀ e ∈ with_max_res m r B, ∃ e₀ ∈ l, e.date = e₀.date ∧
        e.time = Time.reduce_to e₀.time r := by
      intro e he
      obtain ⟨e₀, he₀, hd, ht⟩ := hprovW e he
      exact ⟨e₀, hBsub e₀ he₀, hd, ht⟩
    rw [hcompact]
    refine ⟨?_, ?_, ?_, ?_, ?_⟩
    · intro e he
      rcases List.mem_append.mp he with he' | heC
      · rcases List.mem_append.mp he' with heA | heW
        · exact hwf e (hAsub e heA)
        · obtain ⟨e₀, he₀, hd, ht⟩ := hWprov e heW
          rw [ht]
          exact reduce_to_wf _ _ (hwf e₀ he₀)
      · exact hwf e (hCsub e heC)
    · rw [List.append_assoc, List.chain'_append, List.chain'_append]
      refine ⟨?_, ⟨hchW, ?_, ?_⟩, ?_⟩
      · rw [hA]
        exact chain'_take_of_chain _ _ _ hchain
      · rw [hC]
        exact hchain.drop _
      · intro x hx y hy
        rw [hWlast] at hx
        simp only [Option.mem_def, Option.some.injEq] at hx
        subst hx
        rcases Nat.lt_or_ge (en + 1) l.length with hlt | hge
        · rw [hC, drop_head_eq l (en+1) hlt] at hy
          simp only [Option.mem_def, Option.some.injEq] at hy
          subst hy
          rw [hbl]
          have hcons_rel : entLt l[en] l[en+1] :=
            chain'_getElem entLt l hchain en (by omega) hlt
          have hside : (l[en]).date < (l[en+1]).date ∨
              r.trailing_zeros ≤ Time.tz (l[en+1]).time := by
            rcases hafter (en+1) hlt (by omega) with h | h
            · right
              exact (res_lin_le_res_iff _ _ (hwf _ (List.getElem_mem _))).mp h
            · left
              omega
          exact entLt_reduce_left _ _ r (hwf _ (List.getElem_mem _))
            (hwf _ (List.getElem_mem _)) hside hcons_rel
        · rw [hC, List.drop_eq_nil_of_le (by omega)] at hy
          cases hy
      · intro x hx y hy
        rw [hWshape] at hy
        simp only [List.cons_append, List.head?_cons, Option.mem_def,
          Option.some.injEq] at hy
        subst hy
        rcases Nat.eq_zero_or_pos s with hs0 | hs0
        · rw [hA, hs0] at hx
          simp at hx
        · rw [hA, take_getLast_eq l s hs0 (by omega) (by omega)] at hx
          simp only [Option.mem_def, Option.some.injEq] at hx
          subst hx
          have hidx : s - 1 + 1 = s := by omega
          have hcons_rel : entLt l[s-1] l[s] := by
            have h := chain'_getElem entLt l hchain (s-1) (by omega) (by omega)
            rw [getElem_index_congr l (s-1+1) _ (by omega) hslt hidx] at h
            exact h
          have htz : r.trailing_zeros ≤ Time.tz (l[s-1]).time :=
            (res_lin_le_res_iff _ _ (hwf _ (List.getElem_mem _))).mp
              (hskipA (s-1) (by omega) (by omega))
          have hfin := entLt_reduce_right (l[s-1]) (l[s]) r
            (hwf _ (List.getElem_mem _)) (hwf _ (List.getElem_mem _)) htz hcons_rel
          rw [hb0]
          exact hfin
    · intro e he
      rcases List.mem_append.mp he with he' | heC
      · rcases List.mem_append.mp he' with heA | heW
        · exact ⟨e, hAsub e heA, rfl, le_refl _⟩
        · obtain ⟨e₀, he₀, hd, ht⟩ := hWprov e heW
          refine ⟨e₀, he₀, hd, ?_⟩
          rw [ht]
          exact reduce_to_lin_le_self _ _ (hwf e₀ he₀)
      · exact ⟨e, hCsub e heC, rfl, le_refl _⟩
    · intro e he hd
      rcases List.mem_append.mp he with he' | heC
      · rcases List.mem_append.mp he' with heA | heW
        · exact hAskip e heA
        · obtain ⟨e₀, he₀, hd', ht⟩ := hWprov e heW
          rw [ht]
          exact reduce_to_lin_le _ _ (hwf e₀ he₀)
      · rcases hCfact e heC with h | h
        · exact h
        · omega
    · intro la hla hlt
      have hlen0 : 0 < l.length := by omega
      have hla' : la = l[l.length - 1] := by
        rw [List.getLast?_eq_getElem?, List.getElem?_eq_getElem (by omega)] at hla
        injection hla with h
        exact h.symm
      have hennot : en + 1 < l.length := by
        rcases Nat.lt_or_ge (en+1) l.length with h | h
        · exact h
        · exfalso
          have hidx : en = l.length - 1 := by omega
          have heqla : l[en] = la := by
            rw [hla']
            exact getElem_index_congr l en _ hen (by omega) hidx
          rw [heqla] at hend
          omega
      have hCne : C ≠ [] := by
        rw [hC]
        intro hc
        have hlc := List.length_drop (en+1) l
        rw [hc] at hlc
        simp at hlc
        omega
      rw [List.append_assoc, List.getLast?_append_of_ne_nil _ (by simp [hCne]),
        List.getLast?_append_of_ne_nil _ hCne, hC, drop_getLast_eq l (en+1) hennot]
      exact hla

theorem discard_cons_pos {P : Type} (e : Entry P) (rest : List (Entry P))
    (u : Int) (h : u < e.date) : discard (e :: rest) u = e :: rest := by
  show (e :: rest).drop ((e :: rest).findIdx fun x => decide (u < x.date)) =
    e :: rest
  rw [List.findIdx_cons]
  simp [h]

theorem discard_cons_neg {P : Type} (e : Entry P) (rest : List (Entry P))
    (u : Int) (h : ¬ u < e.date) : discard (e :: rest) u = discard rest u := by
  show (e :: rest).drop ((e :: rest).findIdx fun x => decide (u < x.date)) =
    rest.drop (rest.findIdx fun x => decide (u < x.date))
  rw [List.findIdx_cons]
  simp [h]

/-- `CompactedData::discard` on a date-sorted buffer: the result is a
subset, everything kept is strictly newer than `up_to`, and a final
entry newer than `up_to` stays final. -/
theorem discard_facts {P : Type} (l : List (Entry P)) (u : Int)
    (hpw : List.Pairwise (fun a b : Entry P => a.date ≤ b.date) l) :
    (∀ e ∈ discard l u, e ∈ l) ∧
    (∀ e ∈ discard l u, u < e.date) ∧
    (∀ la, l.getLast? = some la → u < la.date →
      (discard l u).getLast? = some la) := by
  induction l with
  | nil =>
    refine ⟨?_, ?_, ?_⟩
    · intro e he; exact he
    · intro e he; cases he
    · intro la hla; cases hla
  | cons e rest ih =>
    obtain ⟨ih1, ih2, ih3⟩ := ih hpw.tail
    by_cases hpe : u < e.date
    · rw [discard_cons_pos e rest u hpe]
      refine ⟨fun x hx => hx, ?_, ?_⟩
      · intro x hx
        rcases List.mem_cons.mp hx with rfl | hx'
        · exact hpe
        · have := List.rel_of_pairwise_cons hpw hx'
          omega
      · intro la hla hlt
        exact hla
    · rw [discard_cons_neg e rest u hpe]
      refine ⟨fun x hx => List.mem_cons_of_mem _ (ih1 x hx), ih2, ?_⟩
      intro la hla hlt
      rcases eq_or_ne rest [] with hrest | hrest
      · subst hrest
        simp only [List.getLast?_singleton, Option.some.injEq] at hla
        subst hla
        exact absurd hlt hpe
      · have hla' : rest.getLast? = some la := by
          rw [show e :: rest = [e] ++ rest from rfl,
            List.getLast?_append_of_ne_nil _ hrest] at hla
          exact hla
        exact ih3 la hla' hlt

/-- Folding the compaction rules over a sorted buffer: well-formedness
and sortedness are preserved, every output entry comes from an input
date at a no-finer resolution, each rule's window obligation holds
afterwards, and a final entry newer than every rule's horizon stays
final. -/
theorem foldl_compact_facts {P : Type} (m : P → P → P) (d : Int) :
    ∀ (rules : List (Nat × Resolution)) (acc : List (Entry P)),
      EWf acc → List.Chain' entLt acc →
      EWf (rules.foldl (fun a dr => compact m a (d - dr.1) dr.2) acc) ∧
      List.Chain' entLt (rules.foldl (fun a dr => compact m a (d - dr.1) dr.2) acc) ∧
      (∀ e ∈ rules.foldl (fun a dr => compact m a (d - dr.1) dr.2) acc,
        ∃ e₀ ∈ acc, e.date = e₀.date ∧
          (Time.resolution e.time).lin ≤ (Time.resolution e₀.time).lin) ∧
      (∀ dr ∈ rules, ∀ e ∈ rules.foldl (fun a dr => compact m a (d - dr.1) dr.2) acc,
        e.date ≤ d - dr.1 → (Time.resolution e.time).lin ≤ dr.2.lin) ∧
      (∀ la, acc.getLast? = some la → (∀ dr ∈ rules, d - (dr.1 : Int) < la.date) →
        (rules.foldl (fun a dr => compact m a (d - dr.1) dr.2) acc).getLast? =
          some la) := by
  intro rules
  induction rules with
  | nil =>
    intro acc hwf hchain
    refine ⟨hwf, hchain, ?_, ?_, ?_⟩
    · intro e he
      exact ⟨e, he, rfl, le_refl _⟩
    · intro dr hdr
      cases hdr
    · intro la hla hall
      exact hla
  | cons dr rules ih =>
    intro acc hwf hchain
    obtain ⟨cEWf, cChain, cProv, cPost, cLast⟩ :=
      compact_facts m acc (d - dr.1) dr.2 hwf hchain
    obtain ⟨iEWf, iChain, iProv, iPost, iLast⟩ :=
      ih (compact m acc (d - dr.1) dr.2) cEWf cChain
    rw [List.foldl_cons]
    refine ⟨iEWf, iChain, ?_, ?_, ?_⟩
    · intro e he
      obtain ⟨e₁, he₁, hd1, hr1⟩ := iProv e he
      obtain ⟨e₀, he₀, hd0, hr0⟩ := cProv e₁ he₁
      exact ⟨e₀, he₀, by rw [hd1, hd0], le_trans hr1 hr0⟩
    · intro dr' hdr' e he hdate
      rcases List.mem_cons.mp hdr' with rfl | hdr''
      · obtain ⟨e₁, he₁, hd1, hr1⟩ := iProv e he
        have : e₁.date ≤ d - dr'.1 := by rw [← hd1]; exact hdate
        exact le_trans hr1 (cPost e₁ he₁ this)
      · exact iPost dr' hdr'' e he hdate
    · intro la hla hall
      have hhead : d - (dr.1 : Int) < la.date := hall dr (by simp)
      have h1 := cLast la hla hhead
      exact iLast la h1 (fun dr' hdr' => hall dr' (List.mem_cons_of_mem _ hdr'))

/-- `CompactedData::apply_policy` on a sorted well-formed buffer. -/
theorem apply_policy_facts {P : Type} (m : P → P → P) (l : List (Entry P))
    (p : Policy) (d : Int) (hwf : EWf l) (hchain : List.Chain' entLt l) :
    EWf (apply_policy m l p d) ∧
    List.Chain' entLt (apply_policy m l p d) ∧
    (∀ e ∈ apply_policy m l p d, ∃ e₀ ∈ l, e.date = e₀.date ∧
      (Time.resolution e.time).lin ≤ (Time.resolution e₀.time).lin) ∧
    (∀ dr ∈ p.compaction_rules, ∀ e ∈ apply_policy m l p d,
      e.date ≤ d - dr.1 → (Time.resolution e.time).lin ≤ dr.2.lin) ∧
    (∀ e ∈ apply_policy m l p d, d - p.max_retention < e.date) ∧
    (∀ la, l.getLast? = some la →
      (∀ dr ∈ p.compaction_rules, d - (dr.1 : Int) < la.date) →
      d - p.max_retention < la.date →
      (apply_policy m l p d).getLast? = some la) := by
  have hpw : List.Pairwise (fun a b : Entry P => a.date ≤ b.date) l :=
    pairwise_dateLE_of_chain l hwf hchain
  obtain ⟨dSub, dDate, dLast⟩ := discard_facts l (d - p.max_retention) hpw
  have dEWf : EWf (discard l (d - p.max_retention)) :=
    fun e he => hwf e (dSub e he)
  have dChain : List.Chain' entLt (discard l (d - p.max_retention)) := by
    show List.Chain' entLt
      (l.drop (l.findIdx fun x => decide (d - (p.max_retention : Int) < x.date)))
    exact hchain.drop _
  obtain ⟨fEWf, fChain, fProv, fPost, fLast⟩ :=
    foldl_compact_facts m d p.compaction_rules
      (discard l (d - p.max_retention)) dEWf dChain
  refine ⟨fEWf, fChain, ?_, fPost, ?_, ?_⟩
  · intro e he
    obtain ⟨e₀, he₀, hd0, hr0⟩ := fProv e he
    exact ⟨e₀, dSub e₀ he₀, hd0, hr0⟩
  · intro e he
    obtain ⟨e₀, he₀, hd0, -⟩ := fProv e he
    rw [hd0]
    exact dDate e₀ he₀
  · intro la hla hrules hret
    exact fLast la (dLast la hla hret) hrules

/-- The standing state invariant of a compactor built from a validated
policy: stored times are well-formed, the buffer is strictly sorted by
(date, coarse time), and — relative to the newest stored date — every
compaction rule's window obligation holds and nothing is past the
retention horizon. -/
def CInv {P : Type} (c : Compactor P) : Prop :=
  EWf c.data ∧ List.Chain' entLt c.data ∧
  (∀ la, c.data.getLast? = some la →
    (∀ dr ∈ c.policy.compaction_rules, ∀ e ∈ c.data,
      e.date ≤ la.date - dr.1 → (Time.resolution e.time).lin ≤ dr.2.lin) ∧
    (∀ e ∈ c.data, la.date - c.policy.max_retention < e.date))

theorem push_CInv {P : Type} (m : P → P → P) (c : Compactor P) (d : Int)
    (t : Nat) (x : P)
    (hdays : ∀ dr ∈ c.policy.compaction_rules, 1 ≤ dr.1)
    (hmr : 1 ≤ c.policy.max_retention)
    (hc : CInv c) (hwt : Time.Wf t) :
    ∀ c' err, Compactor.push m c d t x = some (c', err) →
      CInv c' ∧ c'.policy = c.policy := by
  obtain ⟨hwf, hchain, hlastInv⟩ := hc
  intro c' err h
  have hwtime : Time.Wf (Time.reduce_to t c.policy.max_res) :=
    reduce_to_wf _ _ hwt
  unfold Compactor.push at h
  split at h
  next hlast =>
    simp only [Option.some.injEq, Prod.mk.injEq] at h
    obtain ⟨hceq, -⟩ := h
    subst hceq
    have hdata : c.data = [] := List.getLast?_eq_none_iff.mp hlast
    refine ⟨⟨?_, ?_, ?_⟩, rfl⟩
    · intro e he
      rw [hdata] at he
      simp at he
      subst he
      exact hwtime
    · rw [hdata]
      exact List.chain'_singleton _
    · intro la hla
      rw [hdata] at hla
      simp at hla
      subst hla
      constructor
      · intro dr hdr e he
        rw [hdata] at he
        simp at he
        subst he
        intro hdate
        have := hdays dr hdr
        simp at hdate
        omega
      · intro e he
        rw [hdata] at he
        simp at he
        subst he
        simp
        omega
  next la hlast =>
    have hlane : c.data ≠ [] := by
      intro hh
      rw [hh] at hlast
      cases hlast
    have hwla : Time.Wf la.time := hwf la (List.mem_of_mem_getLast? hlast)
    split at h
    next hcmp =>
      simp only [Option.some.injEq, Prod.mk.injEq] at h
      obtain ⟨hceq, -⟩ := h
      subst hceq
      exact ⟨⟨hwf, hchain, hlastInv⟩, rfl⟩
    next hcmp =>
      simp only [Option.some.injEq, Prod.mk.injEq] at h
      obtain ⟨hceq, -⟩ := h
      subst hceq
      have hdlt : la.date < d := (cmpI_lt_iff _ _).mp hcmp
      have hwf1 : EWf (c.data ++ [⟨d, Time.reduce_to t c.policy.max_res, x⟩]) := by
        intro e he
        rcases List.mem_append.mp he with he' | he'
        · exact hwf e he'
        · simp at he'
          subst he'
          exact hwtime
      have hchain1 : List.Chain' entLt
          (c.data ++ [⟨d, Time.reduce_to t c.policy.max_res, x⟩]) := by
        rw [List.chain'_append]
        refine ⟨hchain, List.chain'_singleton _, ?_⟩
        intro y hy z hz
        rw [hlast] at hy
        simp only [Option.mem_def, Option.some.injEq] at hy
        subst hy
        simp only [List.head?_cons, Option.mem_def, Option.some.injEq] at hz
        subst hz
        left
        exact hdlt
      obtain ⟨aEWf, aChain, aProv, aRules, aWindow, aLast⟩ :=
        apply_policy_facts m _ c.policy d hwf1 hchain1
      have hlastNew : (c.data ++
          [(⟨d, Time.reduce_to t c.policy.max_res, x⟩ : Entry P)]).getLast? =
          some (⟨d, Time.reduce_to t c.policy.max_res, x⟩ : Entry P) := by
        simp
      have haLast := aLast _ hlastNew
        (by
          intro dr hdr
          have := hdays dr hdr
          show d - (dr.1 : Int) < d
          omega)
        (by show d - (c.policy.max_retention : Int) < d; omega)
      refine ⟨⟨aEWf, aChain, ?_⟩, rfl⟩
      intro la' hla'
      rw [haLast] at hla'
      injection hla' with hla'
      subst hla'
      exact ⟨fun dr hdr e he hdate => aRules dr hdr e he hdate,
        fun e he => aWindow e he⟩
    next hcmp =>
      have hdeq : la.date = d := (cmpI_eq_iff _ _).mp hcmp
      simp only [] at h
      cases hp : Time.pcmp la.time (Time.reduce_to t c.policy.max_res) with
      | none =>
        rw [hp] at h
        simp at h
      | some ord =>
        rw [hp] at h
        cases ord with
        | lt =>
          simp only [Option.some.injEq, Prod.mk.injEq] at h
          obtain ⟨hceq, -⟩ := h
          subst hceq
          have htzeq : Time.tz la.time =
              Time.tz (Time.reduce_to t c.policy.max_res) := by
            unfold Time.pcmp at hp
            by_cases htz : Time.tz la.time =
                Time.tz (Time.reduce_to t c.policy.max_res)
            · exact htz
            · rw [if_neg htz] at hp
              cases hp
          have hclt : Time.coarse_cmp la.time
              (Time.reduce_to t c.policy.max_res) = .lt := by
            rw [coarse_cmp_eq_cmpN_of_tz_eq _ _ hwla.pos hwla.lt32
              hwtime.pos hwtime.lt32 htzeq]
            unfold Time.pcmp at hp
            rw [if_pos htzeq] at hp
            injection hp
          have hentlt : entLt la ⟨d, Time.reduce_to t c.policy.max_res, x⟩ :=
            .inr ⟨hdeq, hclt⟩
          refine ⟨⟨?_, ?_, ?_⟩, rfl⟩
          · intro e he
            rcases List.mem_append.mp he with he' | he'
            · exact hwf e he'
            · simp at he'
              subst he'
              exact hwtime
          · rw [List.chain'_append]
            refine ⟨hchain, List.chain'_singleton _, ?_⟩
            intro y hy z hz
            rw [hlast] at hy
            simp only [Option.mem_def, Option.some.injEq] at hy
            subst hy
            simp only [List.head?_cons, Option.mem_def, Option.some.injEq] at hz
            subst hz
            exact hentlt
          · intro la' hla'
            rw [show (c.data ++ [⟨d, Time.reduce_to t c.policy.max_res, x⟩]
                : List (Entry P)).getLast? =
                some ⟨d, Time.reduce_to t c.policy.max_res, x⟩ by simp] at hla'
            injection hla' with hla'
            subst hla'
            obtain ⟨hrulesOld, hwinOld⟩ := hlastInv la hlast
            constructor
            · intro dr hdr e he hdate
              rcases List.mem_append.mp he with he' | he'
              · refine hrulesOld dr hdr e he' ?_
                have hdate2 : e.date ≤ d - (dr.1 : Int) := hdate
                omega
              · simp at he'
                subst he'
                have hdd := hdays dr hdr
                have hdate2 : d ≤ d - (dr.1 : Int) := hdate
                omega
            · intro e he
              rcases List.mem_append.mp he with he' | he'
              · have hw := hwinOld e he'
                show d - (c.policy.max_retention : Int) < e.date
                omega
              · simp at he'
                subst he'
                show d - (c.policy.max_retention : Int) < d
                omega
        | eq =>
          simp only [Option.some.injEq, Prod.mk.injEq] at h
          obtain ⟨hceq, -⟩ := h
          subst hceq
          have hgl : la = c.data.getLast hlane := by
            rw [List.getLast?_eq_getLast _ hlane] at hlast
            injection hlast with hlast
            exact hlast.symm
          have hdecomp : c.data.dropLast ++ [la] = c.data := by
            rw [hgl]
            exact List.dropLast_append_getLast hlane
          have hchain2 : List.Chain' entLt (c.data.dropLast ++ [la]) := by
            rw [hdecomp]
            exact hchain
          rw [List.chain'_append] at hchain2
          obtain ⟨hchainDL, -, hbound⟩ := hchain2
          have hdlsub : ∀ e ∈ c.data.dropLast, e ∈ c.data := by
            intro e he
            rw [← hdecomp]
            exact List.mem_append.mpr (.inl he)
          refine ⟨⟨?_, ?_, ?_⟩, rfl⟩
          · intro e he
            rcases List.mem_append.mp he with he' | he'
            · exact hwf e (hdlsub e he')
            · simp at he'
              subst he'
              exact hwla
          · rw [List.chain'_append]
            refine ⟨hchainDL, List.chain'_singleton _, ?_⟩
            intro y hy z hz
            simp only [List.head?_cons, Option.mem_def, Option.some.injEq] at hz
            subst hz
            exact hbound y hy la (by simp)
          · intro la' hla'
            rw [show (c.data.dropLast ++ [⟨la.date, la.time, m la.x x⟩]
                : List (Entry P)).getLast? =
                some ⟨la.date, la.time, m la.x x⟩ by simp] at hla'
            injection hla' with hla'
            subst hla'
            obtain ⟨hrulesOld, hwinOld⟩ := hlastInv la hlast
            constructor
            · intro dr hdr e he hdate
              rcases List.mem_append.mp he with he' | he'
              · exact hrulesOld dr hdr e (hdlsub e he') hdate
              · simp at he'
                subst he'
                have hdd := hdays dr hdr
                have hdate2 : la.date ≤ la.date - (dr.1 : Int) := hdate
                omega
            · intro e he
              rcases List.mem_append.mp he with he' | he'
              · exact hwinOld e (hdlsub e he')
              · simp at he'
                subst he'
                show la.date - (c.policy.max_retention : Int) < la.date
                omega
        | gt =>
          simp only [Option.some.injEq, Prod.mk.injEq] at h
          obtain ⟨hceq, -⟩ := h
          subst hceq
          exact ⟨⟨hwf, hchain, hlastInv⟩, rfl⟩

theorem update_CInv {P : Type} (m : P → P → P) (c : Compactor P) (d : Int)
    (hc : CInv c) :
    CInv (Compactor.update_date m c d) ∧
      (Compactor.update_date m c d).policy = c.policy := by
  obtain ⟨hwf, hchain, hlastInv⟩ := hc
  unfold Compactor.update_date
  split
  next la hlast =>
    by_cases hdlt : la.date < d
    · rw [if_pos hdlt]
      obtain ⟨aEWf, aChain, aProv, aRules, aWindow, aLast⟩ :=
        apply_policy_facts m c.data c.policy d hwf hchain
      have hpw := pairwise_dateLE_of_chain c.data hwf hchain
      have hdle := date_le_getLast c.data hpw la hlast
      refine ⟨⟨aEWf, aChain, ?_⟩, rfl⟩
      intro la' hla'
      obtain ⟨e₀, he₀, hd0, -⟩ :=
        aProv la' (List.mem_of_mem_getLast? hla')
      have hla'le : la'.date < d := by
        have := hdle e₀ he₀
        omega
      constructor
      · intro dr hdr e he hdate
        refine aRules dr hdr e he ?_
        omega
      · intro e he
        have := aWindow e he
        show la'.date - (c.policy.max_retention : Int) < e.date
        omega
    · rw [if_neg hdlt]
      exact ⟨⟨hwf, hchain, hlastInv⟩, rfl⟩
  next hlast =>
    exact ⟨⟨hwf, hchain, hlastInv⟩, rfl⟩

theorem runOps_CInv {P : Type} (m : P → P → P) :
    ∀ (ops : List (Op P)) (c : Compactor P),
      (∀ dr ∈ c.policy.compaction_rules, 1 ≤ dr.1) →
      1 ≤ c.policy.max_retention →
      CInv c → (∀ op ∈ ops, opWf op) →
      ∀ c', runOps m c ops = some c' →
        CInv c' ∧ c'.policy = c.policy := by
  intro ops
  induction ops with
  | nil =>
    intro c h1 h2 hc hops c' h
    have h' : some c = some c' := h
    injection h' with h2'
    subst h2'
    exact ⟨hc, rfl⟩
  | cons op rest ih =>
    intro c h1 h2 hc hops c' h
    cases op with
    | push d t x =>
      unfold runOps at h
      cases hpush : Compactor.push m c d t x with
      | none =>
        rw [hpush] at h
        simp at h
      | some pr =>
        obtain ⟨c'', err⟩ := pr
        rw [hpush] at h
        have h' : runOps m c'' rest = some c' := h
        have hwt : Time.Wf t := hops (.push d t x) (by simp)
        obtain ⟨hc'', hpol⟩ := push_CInv m c d t x h1 h2
          ⟨(by exact hc.1), hc.2.1, hc.2.2⟩ hwt c'' err hpush
        obtain ⟨hfin, hpol2⟩ := ih c'' (by rw [hpol]; exact h1)
          (by rw [hpol]; exact h2) hc''
          (fun op hop => hops op (List.mem_cons_of_mem _ hop)) c' h'
        exact ⟨hfin, by rw [hpol2, hpol]⟩
    | advance d =>
      have h' : runOps m (Compactor.update_date m c d) rest = some c' := h
      obtain ⟨hc2, hpol⟩ := update_CInv m c d hc
      obtain ⟨hfin, hpol2⟩ := ih _ (by rw [hpol]; exact h1)
        (by rw [hpol]; exact h2) hc2
        (fun op hop => hops op (List.mem_cons_of_mem _ hop)) c' h'
      exact ⟨hfin, by rw [hpol2, hpol]⟩

/-- Every rule of a successfully built policy applies for at least one
day, and the retention horizon is at least one day. -/
theorem build_policy_facts (raw : List (Nat × Resolution)) (p : Policy)
    (hb : Policy.build raw = .ok p) :
    (∀ dr ∈ p.compaction_rules, 1 ≤ dr.1) ∧ 1 ≤ p.max_retention := by
  unfold Policy.build at hb
  by_cases hemp : raw.isEmpty
  · rw [if_pos hemp] at hb
    cases hb
  · rw [if_neg hemp] at hb
    by_cases hany : raw.any (fun x => x.1 == 0)
    · rw [if_pos hany] at hb
      cases hb
    · rw [if_neg hany] at hb
      have hz : ∀ q ∈ raw, 1 ≤ q.1 := by
        intro q hq
        by_contra hlt
        have hq0 : q.1 = 0 := by omega
        exact hany (List.any_eq_true.mpr ⟨q, hq, by simp [hq0]⟩)
      split at hb
      next heq =>
        cases hb
      next s0 rest heq =>
        have hmem : ∀ q ∈ s0 :: rest, 1 ≤ q.1 := by
          intro q hq
          rw [← heq] at hq
          exact hz q (sortDesc_mem q raw |>.mp (dedupRules_subset q _ hq))
        by_cases hasc : resAscend (s0 :: rest) = true
        · rw [if_pos hasc] at hb
          injection hb with hb
          subst hb
          constructor
          · intro dr hdr
            simp only [] at hdr
            have h1 := List.of_mem_zip hdr
            obtain ⟨hL, -⟩ := h1
            have hL2 : dr.1 ∈ ((s0 :: rest).map Prod.fst) :=
              List.mem_of_mem_drop hL
            obtain ⟨q, hq, hq1⟩ := List.mem_map.mp hL2
            rw [← hq1]
            exact hmem q hq
          · exact hmem s0 (by simp)
        · rw [if_neg hasc] at hb
          cases hb

theorem init_CInv {P : Type} (p : Policy) : CInv (Compactor.init (P := P) p) := by
  refine ⟨?_, List.chain'_nil, ?_⟩
  · intro e he
    cases he
  · intro la hla
    cases hla

/-- C4: starting from a successfully built policy, after any sequence
of operations with well-formed pushed times, the stored sequence as
yielded oldest-to-newest by `iter` is strictly increasing in the
(date, coarse-compared time) order: consecutive entries are on a
strictly older date or on the same date with a strictly smaller time
under `coarse_cmp`, and consequently no two stored entries share a
(date, time) key. -/
theorem c4_monotone_iteration {P : Type} (m : P → P → P)
    (raw : List (Nat × Resolution)) (p : Policy)
    (hb : Policy.build raw = .ok p)
    (ops : List (Op P)) (hops : ∀ op ∈ ops, opWf op)
    (c : Compactor P) (hrun : runOps m (Compactor.init p) ops = some c) :
    List.Chain' entLt c.iter ∧
    List.Pairwise (fun a b : Entry P =>
      (a.date, a.time) ≠ (b.date, b.time)) c.iter := by
  obtain ⟨hdays, hmr⟩ := build_policy_facts raw p hb
  obtain ⟨⟨hwf, hchain, -⟩, -⟩ :=
    runOps_CInv m ops (Compactor.init p) hdays hmr (init_CInv p) hops c hrun
  refine ⟨hchain, ?_⟩
  have hpw := chain'_entLt_pairwise c.data hwf hchain
  refine List.Pairwise.imp_of_mem ?_ hpw
  intro a b ha hb' hab
  exact entLt_key_ne a b (hwf a ha) (hwf b hb') hab

/-- The validated policy "AM/PM for 1 day, day-level for 2 days", used
by the concrete runs below. -/
def polC4 : Policy :=
  { compaction_rules := [(1, .Day)], max_res := .AmPm, max_retention := 2 }

def c4run : Compactor (List Nat) :=
  { policy := polC4, data := [⟨0, 2 ^ 30, [1]⟩, ⟨0, 3 * 2 ^ 30, [2]⟩] }

/-- C4 witness: two same-day pushes at AM and PM under the policy
"AM/PM for 1 day, day-level for 2 days". -/
theorem c4_witness :
    List.Chain' entLt c4run.iter ∧
    List.Pairwise (fun a b : Entry (List Nat) =>
      (a.date, a.time) ≠ (b.date, b.time)) c4run.iter :=
  c4_monotone_iteration (· ++ ·) [(2, .Day), (1, .AmPm)] polC4
    (by rfl)
    [.push 0 (2 ^ 30) [1], .push 0 (3 * 2 ^ 30) [2]]
    (by decide) c4run (by decide)

/-- C2: starting from a successfully built policy, after any sequence
of operations with well-formed pushed times, writing `today` for the
most recent stored entry's date: for every compaction rule
`(days, r)`, every stored entry dated at most `today - days` has
resolution at or below `r`, and no stored entry is dated at or before
`today - max_retention`. -/
theorem c2_retention_invariant {P : Type} (m : P → P → P)
    (raw : List (Nat × Resolution)) (p : Policy)
    (hb : Policy.build raw = .ok p)
    (ops : List (Op P)) (hops : ∀ op ∈ ops, opWf op)
    (c : Compactor P) (hrun : runOps m (Compactor.init p) ops = some c)
    (last : Entry P) (hlast : c.iter.getLast? = some last) :
    (∀ dr ∈ p.compaction_rules, ∀ e ∈ c.iter,
      e.date ≤ last.date - dr.1 → (Time.resolution e.time).lin ≤ dr.2.lin) ∧
    (∀ e ∈ c.iter, last.date - p.max_retention < e.date) := by
  obtain ⟨hdays, hmr⟩ := build_policy_facts raw p hb
  obtain ⟨⟨-, -, hlastInv⟩, hpol⟩ :=
    runOps_CInv m ops (Compactor.init p) hdays hmr (init_CInv p) hops c hrun
  have h := hlastInv last hlast
  rw [hpol] at h
  exact h

def polC2 : Policy :=
  { compaction_rules := [(1, .Day)], max_res := .AmPm, max_retention := 2 }

def c2run : Compactor (List Nat) :=
  { policy := polC2, data := [⟨0, 2 ^ 31, [1, 2]⟩, ⟨1, 2 ^ 30, [3]⟩] }

/-- C2 witness: three pushes spanning a day change, forcing one
compaction, under the policy "AM/PM for 1 day, day-level for 2 days". -/
theorem c2_witness :
    (∀ dr ∈ polC2.compaction_rules, ∀ e ∈ c2run.iter,
      e.date ≤ (⟨1, 2 ^ 30, [3]⟩ : Entry (List Nat)).date - dr.1 →
        (Time.resolution e.time).lin ≤ dr.2.lin) ∧
    (∀ e ∈ c2run.iter,
      (⟨1, 2 ^ 30, [3]⟩ : Entry (List Nat)).date - polC2.max_retention <
        e.date) :=
  c2_retention_invariant (· ++ ·) [(2, .Day), (1, .AmPm)] polC2
    (by rfl)
    [.push 0 (2 ^ 30) [1], .push 0 (3 * 2 ^ 30) [2], .push 1 (2 ^ 30) [3]]
    (by decide) c2run (by decide) ⟨1, 2 ^ 30, [3]⟩ (by decide)

theorem with_max_res_go_dates {P : Type} (m : P → P → P) (res : Resolution) :
    ∀ (xs : List (Entry P)) (c : Entry P),
      ∀ e ∈ with_max_res_go m res (some c) xs,
        e.date = c.date ∨ ∃ e₀ ∈ xs, e.date = e₀.date := by
  intro xs
  induction xs with
  | nil =>
    intro c e he
    rcases List.mem_singleton.mp he with rfl
    exact .inl rfl
  | cons f rest ih =>
    intro c e he
    simp only [with_max_res_go] at he
    by_cases hkey : c.date = f.date ∧ c.time = Time.reduce_to f.time res
    · rw [if_pos hkey] at he
      rcases ih ⟨c.date, c.time, m c.x f.x⟩ e he with h | ⟨e₀, he₀, hd⟩
      · exact .inl h
      · exact .inr ⟨e₀, List.mem_cons_of_mem _ he₀, hd⟩
    · rw [if_neg hkey] at he
      rcases List.mem_cons.mp he with rfl | he'
      · exact .inl rfl
      · rcases ih ⟨f.date, Time.reduce_to f.time res, f.x⟩ e he' with h | ⟨e₀, he₀, hd⟩
        · exact .inr ⟨f, by simp, h⟩
        · exact .inr ⟨e₀, List.mem_cons_of_mem _ he₀, hd⟩

theorem compact_dates {P : Type} (m : P → P → P) (l : List (Entry P))
    (u : Int) (r : Resolution) :
    ∀ e ∈ compact m l u r, ∃ e₀ ∈ l, e.date = e₀.date := by
  rcases compact_eq_cases m l u r with h | ⟨s, en, hscan, hse, hlen, h⟩
  · rw [h]
    intro e he
    exact ⟨e, he, rfl⟩
  · rw [h]
    intro e he
    rcases List.mem_append.mp he with he' | heC
    · rcases List.mem_append.mp he' with heA | heW
      · exact ⟨e, List.mem_of_mem_take heA, rfl⟩
      · have hBlen : ((l.drop s).take (en + 1 - s)).length = en + 1 - s := by
          rw [List.length_take, List.length_drop]
          omega
        have hBne : (l.drop s).take (en + 1 - s) ≠ [] := by
          intro hc
          rw [hc] at hBlen
          simp at hBlen
          omega
        obtain ⟨b0, bs, hBcons⟩ : ∃ b0 bs, (l.drop s).take (en + 1 - s) = b0 :: bs := by
          cases hBc : (l.drop s).take (en + 1 - s) with
          | nil => exact absurd hBc hBne
          | cons b0 bs => exact ⟨b0, bs, rfl⟩
        rw [hBcons] at heW
        have hBsub : ∀ y ∈ b0 :: bs, y ∈ l := by
          intro y hy
          rw [← hBcons] at hy
          exact List.drop_subset _ _ (List.mem_of_mem_take hy)
        have heW' : e ∈ with_max_res_go m r
            (some ⟨b0.date, Time.reduce_to b0.time r, b0.x⟩) bs := heW
        rcases with_max_res_go_dates m r bs _ e heW' with hd | ⟨e₀, he₀, hd⟩
        · exact ⟨b0, hBsub b0 (by simp), hd⟩
        · exact ⟨e₀, hBsub e₀ (List.mem_cons_of_mem _ he₀), hd⟩
    · exact ⟨e, List.drop_subset _ _ heC, rfl⟩

theorem foldl_compact_dates {P : Type} (m : P → P → P) (d : Int) :
    ∀ (rules : List (Nat × Resolution)) (acc : List (Entry P)),
      ∀ e ∈ rules.foldl (fun a dr => compact m a (d - dr.1) dr.2) acc,
        ∃ e₀ ∈ acc, e.date = e₀.date := by
  intro rules
  induction rules with
  | nil =>
    intro acc e he
    exact ⟨e, he, rfl⟩
  | cons dr rules ih =>
    intro acc e he
    rw [List.foldl_cons] at he
    obtain ⟨e₁, he₁, hd1⟩ := ih (compact m acc (d - dr.1) dr.2) e he
    obtain ⟨e₀, he₀, hd0⟩ := compact_dates m acc (d - dr.1) dr.2 e₁ he₁
    exact ⟨e₀, he₀, by rw [hd1, hd0]⟩

theorem discard_id {P : Type} (l : List (Entry P)) (u : Int)
    (h : ∀ e ∈ l.head?, u < e.date) : discard l u = l := by
  cases l with
  | nil => rfl
  | cons e rest =>
    exact discard_cons_pos e rest u (h e rfl)

theorem foldl_compact_mergeAll {P : Type} (m : P → P → P)
    (hm : ∀ a b c, m (m a b) c = m a (m b c)) (d : Int) :
    ∀ (rules : List (Nat × Resolution)) (acc : List (Entry P)),
      mergeAll m ((rules.foldl (fun a dr => compact m a (d - dr.1) dr.2)
        acc).map Entry.x) = mergeAll m (acc.map Entry.x) := by
  intro rules
  induction rules with
  | nil =>
    intro acc
    rfl
  | cons dr rules ih =>
    intro acc
    rw [List.foldl_cons, ih (compact m acc (d - dr.1) dr.2),
      compact_mergeAll m hm acc (d - dr.1) dr.2]

/-- One successful (`Ok`) push: the stored payload fold absorbs the
pushed payload on the right, every stored date is an old date or the
pushed date, and the policy is unchanged.  Requires that nothing
currently stored is up for discarding at the pushed date. -/
theorem push_fold {P : Type} (m : P → P → P)
    (hm : ∀ a b c, m (m a b) c = m a (m b c)) (c : Compactor P) (f : Entry P)
    (hnd : ∀ e ∈ c.data, f.date - (c.policy.max_retention : Int) < e.date) :
    ∀ c₁, Compactor.push m c f.date f.time f.x = some (c₁, none) →
      mergeAll m (c₁.data.map Entry.x) =
        oMerge m (mergeAll m (c.data.map Entry.x)) (some f.x) ∧
      (∀ e ∈ c₁.data, (∃ e₀ ∈ c.data, e.date = e₀.date) ∨ e.date = f.date) ∧
      c₁.policy = c.policy := by
  intro c₁ h
  unfold Compactor.push at h
  split at h
  next hlast =>
    simp only [Option.some.injEq, Prod.mk.injEq] at h
    obtain ⟨hceq, -⟩ := h
    subst hceq
    refine ⟨?_, ?_, rfl⟩
    · rw [List.map_append, mergeAll_append m hm]
      rfl
    · intro e he
      rcases List.mem_append.mp he with he' | he'
      · exact .inl ⟨e, he', rfl⟩
      · simp at he'
        subst he'
        exact .inr rfl
  next la hlast =>
    have hne : c.data ≠ [] := by
      intro hh
      rw [hh] at hlast
      cases hlast
    split at h
    next hcmp =>
      simp at h
    next hcmp =>
      simp only [Option.some.injEq, Prod.mk.injEq] at h
      obtain ⟨hceq, -⟩ := h
      subst hceq
      have hdid : discard
          (c.data ++ [⟨f.date, Time.reduce_to f.time c.policy.max_res, f.x⟩])
          (f.date - c.policy.max_retention) =
          c.data ++ [⟨f.date, Time.reduce_to f.time c.policy.max_res, f.x⟩] := by
        apply discard_id
        intro e he
        cases hdata : c.data with
        | nil => exact absurd hdata hne
        | cons b bs =>
          rw [hdata] at he
          simp only [List.cons_append, List.head?_cons, Option.mem_def,
            Option.some.injEq] at he
          subst he
          exact hnd b (by rw [hdata]; simp)
      refine ⟨?_, ?_, rfl⟩
      · show mergeAll m ((apply_policy m _ c.policy f.date).map Entry.x) = _
        unfold apply_policy
        rw [hdid, foldl_compact_mergeAll m hm]
        rw [List.map_append, mergeAll_append m hm]
        rfl
      · intro e he
        unfold apply_policy at he
        rw [hdid] at he
        obtain ⟨e₀, he₀, hd0⟩ :=
          foldl_compact_dates m f.date c.policy.compaction_rules _ e he
        rcases List.mem_append.mp he₀ with h0 | h0
        · exact .inl ⟨e₀, h0, hd0⟩
        · simp at h0
          subst h0
          exact .inr hd0
    next hcmp =>
      simp only [] at h
      cases hp : Time.pcmp la.time (Time.reduce_to f.time c.policy.max_res) with
      | none =>
        rw [hp] at h
        simp at h
      | some ord =>
        rw [hp] at h
        cases ord with
        | lt =>
          simp only [Option.some.injEq, Prod.mk.injEq] at h
          obtain ⟨hceq, -⟩ := h
          subst hceq
          refine ⟨?_, ?_, rfl⟩
          · rw [List.map_append, mergeAll_append m hm]
            rfl
          · intro e he
            rcases List.mem_append.mp he with he' | he'
            · exact .inl ⟨e, he', rfl⟩
            · simp at he'
              subst he'
              exact .inr rfl
        | eq =>
          simp only [Option.some.injEq, Prod.mk.injEq] at h
          obtain ⟨hceq, -⟩ := h
          subst hceq
          have hgl : la = c.data.getLast hne := by
            rw [List.getLast?_eq_getLast _ hne] at hlast
            injection hlast with hlast
            exact hlast.symm
          have hdecomp : c.data.dropLast ++ [la] = c.data := by
            rw [hgl]
            exact List.dropLast_append_getLast hne
          refine ⟨?_, ?_, rfl⟩
          · conv_rhs => rw [← hdecomp]
            rw [List.map_append, List.map_append, mergeAll_append m hm,
              mergeAll_append m hm]
            cases hD : mergeAll m (c.data.dropLast.map Entry.x) with
            | none => rfl
            | some a =>
              show some (m a (m la.x f.x)) = some (m (m a la.x) f.x)
              rw [hm]
          · intro e he
            rcases List.mem_append.mp he with he' | he'
            · refine .inl ⟨e, ?_, rfl⟩
              rw [← hdecomp]
              exact List.mem_append.mpr (.inl he')
            · simp at he'
              subst he'
              exact .inl ⟨la, List.mem_of_mem_getLast? hlast, rfl⟩
        | gt =>
          simp at h

theorem runPushesOk_fold_aux {P : Type} (m : P → P → P)
    (hm : ∀ a b c, m (m a b) c = m a (m b c)) (p : Policy) :
    ∀ (es : List (Entry P)) (c : Compactor P),
      c.policy = p →
      (∀ e ∈ es, ∀ e' ∈ es, e.date - (p.max_retention : Int) < e'.date) →
      (∀ e ∈ c.data, ∀ g ∈ es, g.date - (p.max_retention : Int) < e.date) →
      ∀ (S : List P), mergeAll m (c.data.map Entry.x) = mergeAll m S →
      ∀ c', runPushesOk m c es = some c' →
        mergeAll m (c'.data.map Entry.x) = mergeAll m (S ++ es.map Entry.x) := by
  intro es
  induction es with
  | nil =>
    intro c hpol hesno hstored S hS c' h
    have h' : some c = some c' := h
    injection h' with h'
    subst h'
    simp only [List.map_nil, List.append_nil]
    exact hS
  | cons f rest ih =>
    intro c hpol hesno hstored S hS c' h
    unfold runPushesOk at h
    cases hpush : Compactor.push m c f.date f.time f.x with
    | none =>
      rw [hpush] at h
      simp at h
    | some pr =>
      obtain ⟨c₁, err⟩ := pr
      rw [hpush] at h
      cases err with
      | some e0 =>
        simp at h
      | none =>
        have h' : runPushesOk m c₁ rest = some c' := h
        have hnd : ∀ e ∈ c.data,
            f.date - (c.policy.max_retention : Int) < e.date := by
          intro e he
          rw [hpol]
          exact hstored e he f (by simp)
        obtain ⟨hfold, hdates, hpol1⟩ := push_fold m hm c f hnd c₁ hpush
        have hS1 : mergeAll m (c₁.data.map Entry.x) =
            mergeAll m (S ++ [f.x]) := by
          rw [hfold, hS, mergeAll_append m hm]
          rfl
        have hstored1 : ∀ e ∈ c₁.data, ∀ g ∈ rest,
            g.date - (p.max_retention : Int) < e.date := by
          intro e he g hg
          rcases hdates e he with ⟨e₀, he₀, hd⟩ | hd
          · rw [hd]
            exact hstored e₀ he₀ g (List.mem_cons_of_mem _ hg)
          · rw [hd]
            exact hesno g (List.mem_cons_of_mem _ hg) f (by simp)
        have hesno1 : ∀ e ∈ rest, ∀ e' ∈ rest,
            e.date - (p.max_retention : Int) < e'.date :=
          fun e he e' he' => hesno e (List.mem_cons_of_mem _ he) e'
            (List.mem_cons_of_mem _ he')
        have hfin := ih c₁ (by rw [hpol1, hpol]) hesno1 hstored1
          (S ++ [f.x]) hS1 c' h'
        rw [hfin, List.map_cons, List.append_assoc]
        rfl

/-- C6: for an associative merge and a sequence of pushes that all
succeed with `Ok` while nothing is ever discarded (every pushed date is
within the retention window of every other), folding the stored
payloads oldest-to-newest with the merge equals folding the pushed
payloads in push order. -/
theorem c6_merge_coverage {P : Type} (m : P → P → P)
    (hm : ∀ a b c, m (m a b) c = m a (m b c))
    (p : Policy) (es : List (Entry P))
    (hno : ∀ e ∈ es, ∀ e' ∈ es, e.date - (p.max_retention : Int) < e'.date)
    (c : Compactor P) (hrun : runPushesOk m (Compactor.init p) es = some c) :
    mergeAll m (c.iter.map Entry.x) = mergeAll m (es.map Entry.x) := by
  have h := runPushesOk_fold_aux m hm p es (Compactor.init p) rfl hno
    (by intro e he; cases he) [] rfl c hrun
  rw [List.nil_append] at h
  exact h

def polC6 : Policy :=
  { compaction_rules := [(1, .Day)], max_res := .AmPm, max_retention := 5 }

def c6run : Compactor (List Nat) :=
  { policy := polC6, data := [⟨0, 2 ^ 31, [1, 2]⟩, ⟨1, 2 ^ 30, [3]⟩] }

/-- C6 witness: three pushes spanning a day change (one compaction, no
discard) with list concatenation as the merge. -/
theorem c6_witness :
    mergeAll (· ++ ·) (c6run.iter.map Entry.x) =
      mergeAll (· ++ ·)
        (([⟨0, 2 ^ 30, [1]⟩, ⟨0, 3 * 2 ^ 30, [2]⟩, ⟨1, 2 ^ 30, [3]⟩] :
          List (Entry (List Nat))).map Entry.x) :=
  c6_merge_coverage (· ++ ·) (fun a b c => List.append_assoc a b c) polC6
    [⟨0, 2 ^ 30, [1]⟩, ⟨0, 3 * 2 ^ 30, [2]⟩, ⟨1, 2 ^ 30, [3]⟩]
    (by decide) c6run (by decide)

theorem reduce_to_res_clamp (t : Nat) (r : Resolution) (ht : Time.Wf t)
    (h : r.lin ≤ (Time.resolution t).lin) :
    Time.resolution (Time.reduce_to t r) = r := by
  rcases Nat.eq_or_lt_of_le h with heq | hlt
  · rw [reduce_to_of_le t r (by omega)]
    exact (Resolution.lin_inj r _ heq).symm
  · exact reduce_to_res_of_gt t r ht hlt

/-- When the stored head is at exactly `max_res` and the incoming time
is at least as fine as `max_res`, the same-day comparison in `push` is
always defined: the `expect("Compacted head")` panic cannot fire. -/
theorem push_ne_none {P : Type} (m : P → P → P) (c : Compactor P) (d : Int)
    (t : Nat) (x : P) (hwf : EWf c.data)
    (hlr : ∀ la, c.data.getLast? = some la →
      Time.resolution la.time = c.policy.max_res)
    (hwt : Time.Wf t)
    (hfine : c.policy.max_res.lin ≤ (Time.resolution t).lin) :
    Compactor.push m c d t x ≠ none := by
  intro h
  unfold Compactor.push at h
  split at h
  next hlast =>
    simp at h
  next la hlast =>
    split at h
    next hcmp =>
      simp at h
    next hcmp =>
      simp at h
    next hcmp =>
      simp only [] at h
      have hwtime := reduce_to_wf t c.policy.max_res hwt
      have hwla : Time.Wf la.time := hwf la (List.mem_of_mem_getLast? hlast)
      have htzeq : Time.tz la.time =
          Time.tz (Time.reduce_to t c.policy.max_res) := by
        have h1 : Time.resolution la.time = c.policy.max_res := hlr la hlast
        have h2 : Time.resolution (Time.reduce_to t c.policy.max_res) =
            c.policy.max_res := reduce_to_res_clamp t _ hwt hfine
        have h3 := res_tz la.time hwla
        have h4 := res_tz _ hwtime
        rw [h1] at h3
        rw [h2] at h4
        omega
      rw [show Time.pcmp la.time (Time.reduce_to t c.policy.max_res) =
          some (cmpN la.time (Time.reduce_to t c.policy.max_res)) from by
        unfold Time.pcmp
        rw [if_pos htzeq]] at h
      cases hcm : cmpN la.time (Time.reduce_to t c.policy.max_res) with
      | lt =>
        rw [hcm] at h
        simp at h
      | eq =>
        rw [hcm] at h
        simp at h
      | gt =>
        rw [hcm] at h
        simp at h

/-- Every branch of a completed `push` leaves the final stored entry at
resolution exactly `max_res`, provided it was so before and the pushed
time is at least as fine as `max_res`. -/
theorem push_lastres {P : Type} (m : P → P → P) (c : Compactor P) (d : Int)
    (t : Nat) (x : P)
    (hdays : ∀ dr ∈ c.policy.compaction_rules, 1 ≤ dr.1)
    (hmr : 1 ≤ c.policy.max_retention)
    (hwf : EWf c.data) (hchain : List.Chain' entLt c.data)
    (hlr : ∀ la, c.data.getLast? = some la →
      Time.resolution la.time = c.policy.max_res)
    (hwt : Time.Wf t)
    (hfine : c.policy.max_res.lin ≤ (Time.resolution t).lin) :
    ∀ c₁ err, Compactor.push m c d t x = some (c₁, err) →
      ∀ la', c₁.data.getLast? = some la' →
        Time.resolution la'.time = c.policy.max_res := by
  intro c₁ err h
  have hclamp : Time.resolution (Time.reduce_to t c.policy.max_res) =
      c.policy.max_res := reduce_to_res_clamp t _ hwt hfine
  unfold Compactor.push at h
  split at h
  next hlast =>
    simp only [Option.some.injEq, Prod.mk.injEq] at h
    obtain ⟨hceq, -⟩ := h
    subst hceq
    intro la' hla'
    rw [show (c.data ++ [⟨d, Time.reduce_to t c.policy.max_res, x⟩]
        : List (Entry P)).getLast? =
        some ⟨d, Time.reduce_to t c.policy.max_res, x⟩ by simp] at hla'
    injection hla' with hla'
    subst hla'
    exact hclamp
  next la hlast =>
    have hlane : c.data ≠ [] := by
      intro hh
      rw [hh] at hlast
      cases hlast
    split at h
    next hcmp =>
      simp only [Option.some.injEq, Prod.mk.injEq] at h
      obtain ⟨hceq, -⟩ := h
      subst hceq
      exact hlr
    next hcmp =>
      simp only [Option.some.injEq, Prod.mk.injEq] at h
      obtain ⟨hceq, -⟩ := h
      subst hceq
      have hdlt : la.date < d := (cmpI_lt_iff _ _).mp hcmp
      have hwf1 : EWf (c.data ++ [⟨d, Time.reduce_to t c.policy.max_res, x⟩]) := by
        intro e he
        rcases List.mem_append.mp he with he' | he'
        · exact hwf e he'
        · simp at he'
          subst he'
          exact reduce_to_wf _ _ hwt
      have hchain1 : List.Chain' entLt
          (c.data ++ [⟨d, Time.reduce_to t c.policy.max_res, x⟩]) := by
        rw [List.chain'_append]
        refine ⟨hchain, List.chain'_singleton _, ?_⟩
        intro y hy z hz
        rw [hlast] at hy
        simp only [Option.mem_def, Option.some.injEq] at hy
        subst hy
        simp only [List.head?_cons, Option.mem_def, Option.some.injEq] at hz
        subst hz
        left
        exact hdlt
      obtain ⟨-, -, -, -, -, aLast⟩ :=
        apply_policy_facts m _ c.policy d hwf1 hchain1
      have haLast := aLast ⟨d, Time.reduce_to t c.policy.max_res, x⟩ (by simp)
        (by
          intro dr hdr
          have := hdays dr hdr
          show d - (dr.1 : Int) < d
          omega)
        (by show d - (c.policy.max_retention : Int) < d; omega)
      intro la' hla'
      rw [haLast] at hla'
      injection hla' with hla'
      subst hla'
      exact hclamp
    next hcmp =>
      simp only [] at h
      cases hp : Time.pcmp la.time (Time.reduce_to t c.policy.max_res) with
      | none =>
        rw [hp] at h
        simp at h
      | some ord =>
        rw [hp] at h
        cases ord with
        | lt =>
          simp only [Option.some.injEq, Prod.mk.injEq] at h
          obtain ⟨hceq, -⟩ := h
          subst hceq
          intro la' hla'
          rw [show (c.data ++ [⟨d, Time.reduce_to t c.policy.max_res, x⟩]
              : List (Entry P)).getLast? =
              some ⟨d, Time.reduce_to t c.policy.max_res, x⟩ by simp] at hla'
          injection hla' with hla'
          subst hla'
          exact hclamp
        | eq =>
          simp only [Option.some.injEq, Prod.mk.injEq] at h
          obtain ⟨hceq, -⟩ := h
          subst hceq
          intro la' hla'
          rw [show (c.data.dropLast ++ [⟨la.date, la.time, m la.x x⟩]
              : List (Entry P)).getLast? =
              some ⟨la.date, la.time, m la.x x⟩ by simp] at hla'
          injection hla' with hla'
          subst hla'
          exact hlr la hlast
        | gt =>
          simp only [Option.some.injEq, Prod.mk.injEq] at h
          obtain ⟨hceq, -⟩ := h
          subst hceq
          exact hlr

theorem pushes_no_panic_aux {P : Type} (m : P → P → P) :
    ∀ (es : List (Entry P)) (c : Compactor P),
      (∀ dr ∈ c.policy.compaction_rules, 1 ≤ dr.1) →
      1 ≤ c.policy.max_retention →
      CInv c →
      (∀ la, c.data.getLast? = some la →
        Time.resolution la.time = c.policy.max_res) →
      (∀ e ∈ es, Time.Wf e.time ∧
        c.policy.max_res.lin ≤ (Time.resolution e.time).lin) →
      ∃ c', runOps m c (es.map fun e => Op.push e.date e.time e.x) = some c' := by
  intro es
  induction es with
  | nil =>
    intro c hdays hmr hc hlr hes
    exact ⟨c, rfl⟩
  | cons f rest ih =>
    intro c hdays hmr hc hlr hes
    obtain ⟨hwtf, hfinef⟩ := hes f (by simp)
    cases hpush : Compactor.push m c f.date f.time f.x with
    | none =>
      exact absurd hpush (push_ne_none m c f.date f.time f.x hc.1 hlr hwtf hfinef)
    | some pr =>
      obtain ⟨c₁, err⟩ := pr
      obtain ⟨hc1, hpol⟩ :=
        push_CInv m c f.date f.time f.x hdays hmr hc hwtf c₁ err hpush
      have hlr1 : ∀ la, c₁.data.getLast? = some la →
          Time.resolution la.time = c₁.policy.max_res := by
        intro la hla
        rw [hpol]
        exact push_lastres m c f.date f.time f.x hdays hmr hc.1 hc.2.1 hlr
          hwtf hfinef c₁ err hpush la hla
      obtain ⟨c', hc'⟩ := ih c₁ (by rw [hpol]; exact hdays)
        (by rw [hpol]; exact hmr) hc1 hlr1
        (by
          intro e he
          rw [hpol]
          exact hes e (List.mem_cons_of_mem _ he))
      refine ⟨c', ?_⟩
      show runOps m c (Op.push f.date f.time f.x ::
        rest.map fun e => Op.push e.date e.time e.x) = some c'
      unfold runOps
      rw [hpush]
      exact hc'

/-- C1, amended: on a freshly built compactor the fatal
`expect("Compacted head")` branch is unreachable as long as every
pushed time is well-formed and at least as fine as the policy's
`max_res` (the clamp then puts every stored head at exactly `max_res`,
so same-day times are always comparable); with coarser-than-`max_res`
pushes the panic is reachable, see the counterexample. -/
theorem c1_no_panic_for_fine_inputs {P : Type} (m : P → P → P)
    (raw : List (Nat × Resolution)) (p : Policy)
    (hb : Policy.build raw = .ok p)
    (es : List (Entry P))
    (hes : ∀ e ∈ es, Time.Wf e.time ∧
      p.max_res.lin ≤ (Time.resolution e.time).lin) :
    ∃ c, runOps m (Compactor.init p)
      (es.map fun e => Op.push e.date e.time e.x) = some c := by
  obtain ⟨hdays, hmr⟩ := build_policy_facts raw p hb
  exact pushes_no_panic_aux m es (Compactor.init p) hdays hmr (init_CInv p)
    (by intro la hla; cases hla) hes

def polC1 : Policy :=
  { compaction_rules := [], max_res := .Millisecond, max_retention := 1 }

/-- C1 witness: two same-day millisecond-resolution pushes (the shape
that panics when pushed at coarser resolutions) complete without a
panic under the millisecond policy. -/
theorem c1_witness :
    ∃ c, runOps (· ++ ·) (Compactor.init polC1)
      (([⟨0, 3, [1]⟩, ⟨0, 5, [2]⟩] : List (Entry (List Nat))).map
        fun e => Op.push e.date e.time e.x) = some c :=
  c1_no_panic_for_fine_inputs (· ++ ·) [(1, .Millisecond)] polC1 (by rfl)
    [⟨0, 3, [1]⟩, ⟨0, 5, [2]⟩] (by decide)
